import Mathlib

/-! # Movie store: dense record array with an open-addressing identifier index

A verification development for `LLM-Code.c`: the hash index (`hm_*`), the record store
(`db_*`) and the callers that assign identifiers and save and load snapshots (`ui_add`,
`ui_save_bin`, `ui_load_bin`).  The recursive factorial of `app02.c` and the stack-based
`recur` of `app05.c` follow in namespaces of their own.

Conventions of the embedding.

* `size_t` values are natural numbers.  Every table the program holds was obtained from
  `calloc (cap, sizeof (HashSlot))`, so `cap` stays far below `2 ^ 64` and no `size_t`
  sum or product of the code wraps; the two decrements (`hm->size--`, `hm->tombs--`) and
  `db->size - 1` are written with truncated subtraction and are only executed on positive
  values in the tables studied here.  The one size that comes from outside is the record
  count of a snapshot header: for a count above `2 ^ 56` the product
  `newcap * sizeof (Movie)` of `db_ensure` wraps and `fread` is handed a buffer that is
  too small.  Statements about loads of arbitrary snapshots therefore bound the count
  (`GoodSnapshot`).
* `int` values are integers.  The one `int` operation of the code that can leave the range
  is `next_id++`; it is followed through the overflow as the two's complement wraparound
  (`wrap_int32`), which is what the compiled program does (C leaves signed overflow
  undefined).
* A loop without an exit bound (`for (step = 0;; step++)`) probes the indices
  `(h + step) & mask`, which repeat with period `cap`, and does not change any slot state
  before it leaves.  Hence it leaves within `cap` iterations or never: the embedding gives
  it `cap` iterations of fuel and returns `none` when the fuel runs out (the C loop would
  spin forever).
* `double used = (size + tombs) / cap; used > 0.75` is the exact comparison
  `4 * (size + tombs) > 3 * cap`: the quotient by a power of two is exact in binary
  floating point and `0.75` is representable.
* `exit (1)` on allocation failure is not modelled: memory is assumed sufficient.
-/

namespace MovieStore

/-! ## Data model -/

/-- Record `Movie`.  Text buffers are byte lists, `rating` is the bit pattern of the
`double` (only ever copied). -/
structure Movie where
  id : Int
  title : List Nat
  genre : List Nat
  director : List Nat
  year : Int
  runtime : Int
  rating : Nat
  deriving DecidableEq, Repr, Inhabited

/-- Enumeration `SlotState`. -/
inductive SlotState where
  | SLOT_EMPTY
  | SLOT_FILLED
  | SLOT_TOMB
  deriving DecidableEq, Repr

/-- Structure `HashSlot`. -/
structure HashSlot where
  key : Int
  value : Nat
  state : SlotState
  deriving DecidableEq, Repr

/-- A zeroed slot, as `calloc` delivers it. -/
instance : Inhabited HashSlot := ⟨⟨0, 0, SlotState.SLOT_EMPTY⟩⟩

/-- Structure `HashMap`. -/
structure HashMap where
  slots : List HashSlot
  cap : Nat
  size : Nat
  tombs : Nat
  deriving DecidableEq, Repr

/-- Structure `MovieDB`.  `data` is the whole buffer (`cap` records); the live records are
the first `size` of them. -/
structure MovieDB where
  data : List Movie
  size : Nat
  cap : Nat
  next_id : Int
  index : HashMap
  deriving DecidableEq, Repr

/-! ## Hash index -/

/-- Function `hash_u32` on 32-bit unsigned values. -/
def hash_u32 (x : Nat) : Nat :=
  let x1 := x ^^^ (x >>> 16)
  let x2 := (x1 * 0x7feb352d) % 2 ^ 32
  let x3 := x2 ^^^ (x2 >>> 15)
  let x4 := (x3 * 0x846ca68b) % 2 ^ 32
  x4 ^^^ (x4 >>> 16)

/-- The conversion `(uint32_t) key` of an `int`. -/
def to_u32 (key : Int) : Nat := (key % 2 ^ 32).toNat

/-- The loop `while (p < x) p <<= 1` of `next_pow2`. -/
def next_pow2_loop (x : Nat) : Nat → Nat → Nat
  | 0, p => p
  | fuel + 1, p => if p < x then next_pow2_loop x fuel (p * 2) else p

/-- Function `next_pow2`; `x` doublings always suffice to reach `x` from `1`. -/
def next_pow2 (x : Nat) : Nat := next_pow2_loop x x 1

/-- Function `hm_init`: a zeroed table of `next_pow2 (max 16 initial_cap)` slots. -/
def hm_init (initial_cap : Nat) : HashMap :=
  let cap := next_pow2 (if initial_cap < 16 then 16 else initial_cap)
  { slots := List.replicate cap default, cap := cap, size := 0, tombs := 0 }

/-- The placement loop of `hm_rehash` for one old slot `o`: the first slot on the probe
path that is not Filled receives a copy of `o`. -/
def hm_rehash_place_loop (hm : HashMap) (o : HashSlot) (h mask : Nat) :
    Nat → Nat → Option HashMap
  | _, 0 => none
  | step, fuel + 1 =>
    let idx := (h + step) &&& mask
    if (hm.slots.getD idx default).state ≠ SlotState.SLOT_FILLED then
      some { hm with
        slots := hm.slots.set idx { o with state := SlotState.SLOT_FILLED }
        size := hm.size + 1 }
    else hm_rehash_place_loop hm o h mask (step + 1) fuel

/-- The body of the loop over the old slots in `hm_rehash`. -/
def hm_rehash_place (hm : HashMap) (o : HashSlot) : Option HashMap :=
  if o.state = SlotState.SLOT_FILLED then
    hm_rehash_place_loop hm o (hash_u32 (to_u32 o.key)) (hm.cap - 1) 0 hm.cap
  else some hm

/-- The loop `for (i = 0; i < oldcap; i++)` of `hm_rehash`, over the old slot array. -/
def hm_rehash_loop : List HashSlot → HashMap → Option HashMap
  | [], hm => some hm
  | o :: rest, hm =>
    match hm_rehash_place hm o with
    | none => none
    | some hm1 => hm_rehash_loop rest hm1

/-- Function `hm_rehash`. -/
def hm_rehash (hm : HashMap) (new_cap : Nat) : Option HashMap :=
  hm_rehash_loop hm.slots (hm_init new_cap)

/-- Function `hm_maybe_grow`. -/
def hm_maybe_grow (hm : HashMap) : Option HashMap :=
  if 4 * (hm.size + hm.tombs) > 3 * hm.cap then hm_rehash hm (hm.cap * 2)
  else if hm.tombs > hm.size ∧ hm.tombs > 32 then hm_rehash hm hm.cap
  else some hm

/-- The probe loop of `hm_put`; `first_tomb` is `none` for the sentinel `(size_t)-1`. -/
def hm_put_loop (hm : HashMap) (h mask : Nat) (key : Int) (value : Nat) :
    Option Nat → Nat → Nat → Option HashMap
  | _, _, 0 => none
  | first_tomb, step, fuel + 1 =>
    let idx := (h + step) &&& mask
    let s := hm.slots.getD idx default
    if s.state = SlotState.SLOT_EMPTY then
      match first_tomb with
      | some ft =>
        some { hm with
          slots := hm.slots.set ft ⟨key, value, SlotState.SLOT_FILLED⟩
          size := hm.size + 1
          tombs := hm.tombs - 1 }
      | none =>
        some { hm with
          slots := hm.slots.set idx ⟨key, value, SlotState.SLOT_FILLED⟩
          size := hm.size + 1 }
    else if s.state = SlotState.SLOT_TOMB then
      hm_put_loop hm h mask key value
        (match first_tomb with
          | none => some idx
          | some ft => some ft)
        (step + 1) fuel
    else if s.state = SlotState.SLOT_FILLED ∧ s.key = key then
      some { hm with slots := hm.slots.set idx { s with value := value } }
    else hm_put_loop hm h mask key value first_tomb (step + 1) fuel

/-- Function `hm_put`; `some` stands for the return value `1` together with the table
left behind, `none` for a probe loop that does not end. -/
def hm_put (hm : HashMap) (key : Int) (value : Nat) : Option HashMap :=
  match hm_maybe_grow hm with
  | none => none
  | some hm1 =>
    hm_put_loop hm1 (hash_u32 (to_u32 key)) (hm1.cap - 1) key value none 0 hm1.cap

/-- The probe loop of `hm_get` (`step < cap`). -/
def hm_get_loop (hm : HashMap) (h mask : Nat) (key : Int) : Nat → Nat → Option Nat
  | _, 0 => none
  | step, fuel + 1 =>
    let s := hm.slots.getD ((h + step) &&& mask) default
    if s.state = SlotState.SLOT_EMPTY then none
    else if s.state = SlotState.SLOT_FILLED ∧ s.key = key then some s.value
    else hm_get_loop hm h mask key (step + 1) fuel

/-- Function `hm_get`: `some v` for return value `1` with `*out_value = v`, `none` for
`0`.  (`!hm->slots` holds exactly when the table was freed, where `cap = 0` as well.) -/
def hm_get (hm : HashMap) (key : Int) : Option Nat :=
  if hm.cap = 0 then none
  else hm_get_loop hm (hash_u32 (to_u32 key)) (hm.cap - 1) key 0 hm.cap

/-- The probe loop of `hm_remove`; the result is the return value and the table. -/
def hm_remove_loop (hm : HashMap) (h mask : Nat) (key : Int) :
    Nat → Nat → Option (Int × HashMap)
  | _, 0 => some (0, hm)
  | step, fuel + 1 =>
    let idx := (h + step) &&& mask
    let s := hm.slots.getD idx default
    if s.state = SlotState.SLOT_EMPTY then some (0, hm)
    else if s.state = SlotState.SLOT_FILLED ∧ s.key = key then
      match hm_maybe_grow { hm with
          slots := hm.slots.set idx { s with state := SlotState.SLOT_TOMB }
          size := hm.size - 1
          tombs := hm.tombs + 1 } with
      | none => none
      | some hm2 => some (1, hm2)
    else hm_remove_loop hm h mask key (step + 1) fuel

/-- Function `hm_remove`. -/
def hm_remove (hm : HashMap) (key : Int) : Option (Int × HashMap) :=
  if hm.cap = 0 then some (0, hm)
  else hm_remove_loop hm (hash_u32 (to_u32 key)) (hm.cap - 1) key 0 hm.cap

/-! ## Record store -/

/-- Function `db_init`. -/
def db_init : MovieDB :=
  { data := [], size := 0, cap := 0, next_id := 1, index := hm_init 16 }

/-- The loop `while (newcap < need) newcap *= 2` of `db_ensure`. -/
def db_ensure_loop (need : Nat) : Nat → Nat → Nat
  | 0, newcap => newcap
  | fuel + 1, newcap =>
    if newcap < need then db_ensure_loop need fuel (newcap * 2) else newcap

/-- Function `db_ensure`: `realloc` keeps the old records and the fresh tail is
unspecified (here: default records). -/
def db_ensure (db : MovieDB) (need : Nat) : MovieDB :=
  if db.cap ≥ need then db
  else
    let newcap := db_ensure_loop need need (if db.cap = 0 then 8 else db.cap * 2)
    { db with
      data := db.data ++ List.replicate (newcap - db.data.length) default
      cap := newcap }

/-- Function `db_add`. -/
def db_add (db : MovieDB) (m : Movie) : Option MovieDB :=
  let db1 := db_ensure db (db.size + 1)
  let data := db1.data.set db1.size m
  match hm_put db1.index m.id db1.size with
  | none => none
  | some ix => some { db1 with data := data, index := ix, size := db1.size + 1 }

/-- Function `db_find_by_id`: the record pointed to, `none` for `NULL`. -/
def db_find_by_id (db : MovieDB) (id : Int) : Option Movie :=
  match hm_get db.index id with
  | none => none
  | some idx => if idx ≥ db.size then none else some (db.data.getD idx default)

/-- Function `db_delete_by_id`: the return value and the store left behind. -/
def db_delete_by_id (db : MovieDB) (id : Int) : Option (Int × MovieDB) :=
  match hm_get db.index id with
  | none => some (0, db)
  | some idx =>
    let last := db.size - 1
    match hm_remove db.index id with
    | none => none
    | some (_, ix1) =>
      if idx ≠ last then
        let moved := db.data.getD last default
        match hm_put ix1 moved.id idx with
        | none => none
        | some ix2 =>
          some (1, { db with data := db.data.set idx moved, index := ix2, size := db.size - 1 })
      else some (1, { db with index := ix1, size := db.size - 1 })

/-- The value an `int` holds when the exact result of an operation is `x`: `x` itself
inside `-2^31 .. 2^31 - 1`, and the two's complement wraparound outside (the increment of
`INT_MAX` gives `INT_MIN`). -/
def wrap_int32 (x : Int) : Int := (x + 2 ^ 31) % 2 ^ 32 - 2 ^ 31

/-- Function `ui_add` without the console: `m` carries the fields typed in, its
identifier is taken from `next_id++`, an increment of an `int`. -/
def ui_add (db : MovieDB) (m : Movie) : Option MovieDB :=
  db_add { db with next_id := wrap_int32 (db.next_id + 1) } { m with id := db.next_id }

/-! ## Binary load -/

/-- Structure `FileHeader`. -/
structure FileHeader where
  magic : Nat
  version : Nat
  next_id : Int
  count : Nat
  deriving DecidableEq, Repr

/-- Constant `MVDB_MAGIC`. -/
def MVDB_MAGIC : Nat := 0x4D564442

/-- A snapshot file that holds at least a complete header: the header and the complete
records that follow it (there may be fewer or more of them than `hdr.count`). -/
structure Snapshot where
  hdr : FileHeader
  records : List Movie
  deriving DecidableEq, Repr

/-- Function `hm_free`. -/
def hm_free (_hm : HashMap) : HashMap := { slots := [], cap := 0, size := 0, tombs := 0 }

/-- Function `db_free`. -/
def db_free (db : MovieDB) : MovieDB :=
  { data := [], size := 0, cap := 0, next_id := 1, index := hm_free db.index }

/-- The call `fread (db->data, sizeof (Movie), count, fp)`: the buffer afterwards and the
number of complete records read. -/
def fread_records (buf : List Movie) (records : List Movie) (count : Nat) : List Movie × Nat :=
  let nread := min count records.length
  (records.take nread ++ buf.drop nread, nread)

/-- The loop `for (i = 0; i < db->size; i++) hm_put (&db->index, db->data[i].id, i)` of
`ui_load_bin`, from position `i` with `n` positions to go. -/
def load_index_loop (db : MovieDB) : Nat → Nat → Option MovieDB
  | _, 0 => some db
  | i, n + 1 =>
    match hm_put db.index (db.data.getD i default).id i with
    | none => none
    | some ix => load_index_loop { db with index := ix } (i + 1) n

/-- Function `ui_load_bin` without the console.  `file` is `none` when the file cannot be
opened or is shorter than a header.  The result is whether success was reported, and the
store left behind.  (`db_free` followed by `db_init` leaves the values `db_init` writes.) -/
def ui_load_bin (db : MovieDB) (file : Option Snapshot) : Option (Bool × MovieDB) :=
  match file with
  | none => some (false, db)
  | some f =>
    if f.hdr.magic ≠ MVDB_MAGIC ∨ f.hdr.version ≠ 1 then some (false, db)
    else
      let db1 : MovieDB := { db_init with next_id := f.hdr.next_id }
      if f.hdr.count > 0 then
        let db2 := db_ensure db1 f.hdr.count
        let rd := fread_records db2.data f.records f.hdr.count
        let db3 : MovieDB := { db2 with data := rd.1 }
        if rd.2 ≠ f.hdr.count then some (false, db3)
        else
          match load_index_loop { db3 with size := f.hdr.count } 0 f.hdr.count with
          | none => none
          | some db4 => some (true, db4)
      else some (true, db1)

/-- Function `ui_save_bin` without the console: the file written when every `fwrite`
succeeds, that is the header `{MVDB_MAGIC, 1, next_id, size}` followed by
`data[0 .. size - 1]`. -/
def ui_save_bin (db : MovieDB) : Snapshot :=
  { hdr := { magic := MVDB_MAGIC, version := 1, next_id := db.next_id, count := db.size }
    records := if db.size > 0 then db.data.take db.size else [] }

/-! ## Predicates used to state the index invariant -/

/-- The hash of a key, as every probe loop computes it. -/
def keyHash (key : Int) : Nat := hash_u32 (to_u32 key)

/-- Slot `i` of the table (`hm->slots[i]`). -/
def slotAt (hm : HashMap) (i : Nat) : HashSlot := hm.slots.getD i default

/-- The index probed for `key` at iteration `step`. -/
def probeIdx (hm : HashMap) (key : Int) (step : Nat) : Nat := (keyHash key + step) % hm.cap

/-- Some Filled slot holds `key` with `value`. -/
def HasEntry (hm : HashMap) (key : Int) (value : Nat) : Prop :=
  ∃ i, i < hm.cap ∧ (slotAt hm i).state = SlotState.SLOT_FILLED ∧ (slotAt hm i).key = key ∧
    (slotAt hm i).value = value

/-- Slot `j` lies on the probe path of `key` and no Empty slot precedes it there. -/
def PathTo (hm : HashMap) (key : Int) (j : Nat) : Prop :=
  ∃ step, step < hm.cap ∧ probeIdx hm key step = j ∧
    ∀ s, s < step → (slotAt hm (probeIdx hm key s)).state ≠ SlotState.SLOT_EMPTY

/-- Number of slots in a given state. -/
def countState (hm : HashMap) (st : SlotState) : Nat :=
  hm.slots.countP (fun s => decide (s.state = st))

/-- Structural invariant of the index: shape, accurate counters, every Filled slot
reachable along its own probe path, no key stored twice. -/
structure WFcore (hm : HashMap) : Prop where
  len : hm.slots.length = hm.cap
  pow : ∃ n, 4 ≤ n ∧ hm.cap = 2 ^ n
  size_eq : hm.size = countState hm SlotState.SLOT_FILLED
  tombs_eq : hm.tombs = countState hm SlotState.SLOT_TOMB
  probe : ∀ i, i < hm.cap → (slotAt hm i).state = SlotState.SLOT_FILLED →
    PathTo hm (slotAt hm i).key i
  nodup : ∀ i j, i < hm.cap → j < hm.cap →
    (slotAt hm i).state = SlotState.SLOT_FILLED → (slotAt hm j).state = SlotState.SLOT_FILLED →
    (slotAt hm i).key = (slotAt hm j).key → i = j

/-- Invariant of every table the program builds: `WFcore` and the occupancy bound. -/
structure WF (hm : HashMap) : Prop where
  core : WFcore hm
  load : 4 * (hm.size + hm.tombs) ≤ 3 * hm.cap + 4

/-- The table after `hm->slots[j] = s` with the counters set to `sz` and `tb`. -/
def setSlot (hm : HashMap) (j : Nat) (s : HashSlot) (sz tb : Nat) : HashMap :=
  { slots := hm.slots.set j s, cap := hm.cap, size := sz, tombs := tb }

/-- Tables reachable from `hm_init` by `hm_put` and `hm_remove`. -/
inductive Reachable : HashMap → Prop
  | init (initial_cap : Nat) : Reachable (hm_init initial_cap)
  | put {hm hm2 : HashMap} (key : Int) (value : Nat) :
      Reachable hm → hm_put hm key value = some hm2 → Reachable hm2
  | remove {hm hm2 : HashMap} (key : Int) (r : Int) :
      Reachable hm → hm_remove hm key = some (r, hm2) → Reachable hm2

/-- Successive `hm_put (key, value)` calls on a fresh `hm_init 16` table; the list holds
the latest call first. -/
def putSeq : List (Int × Nat) → Option HashMap
  | [] => some (hm_init 16)
  | kv :: earlier =>
    match putSeq earlier with
    | none => none
    | some hm => hm_put hm kv.1 kv.2

/-- Twelve distinct keys `1 .. 12`, put in increasing order (latest first). -/
def twelveKeys : List (Int × Nat) :=
  [(12, 11), (11, 10), (10, 9), (9, 8), (8, 7), (7, 6), (6, 5), (5, 4), (4, 3), (3, 2),
   (2, 1), (1, 0)]

/-- The table after `hm_put (1, 0)` on a fresh table. -/
def tableOne : HashMap := (hm_put (hm_init 16) 1 0).getD (hm_init 16)

/-- The table `tableOne` after `hm_remove 1`. -/
def tableGone : HashMap := ((hm_remove tableOne 1).getD (0, tableOne)).2

/-- The table after the twelve puts of `twelveKeys`. -/
def tableTwelve : HashMap := (putSeq twelveKeys).getD (hm_init 16)

/-- The table `tableTwelve` after a thirteenth put, of the new key `13`. -/
def tableThirteen : HashMap := (hm_put tableTwelve 13 12).getD (hm_init 16)

/-- Record `p` of the buffer (`db->data[p]`). -/
def recAt (db : MovieDB) (p : Nat) : Movie := db.data.getD p default

/-- Consistency of a store: the index satisfies its invariant, the buffer has `cap`
records of which the first `size` are live, every index entry points at the live record
with that identifier, and every live record is indexed at its own position. -/
structure DBInv (db : MovieDB) : Prop where
  wf : WF db.index
  len : db.data.length = db.cap
  size_le : db.size ≤ db.cap
  fwd : ∀ k p, HasEntry db.index k p → p < db.size ∧ (recAt db p).id = k
  bwd : ∀ p, p < db.size → HasEntry db.index (recAt db p).id p

/-- One call issued by the user interface: `ui_add` with the typed-in fields, or
`db_delete_by_id`. -/
inductive Op where
  | add (fields : Movie)
  | delete (id : Int)
  deriving DecidableEq, Repr

/-- The store after one call. -/
def applyOp (db : MovieDB) : Op → Option MovieDB
  | Op.add m => ui_add db m
  | Op.delete id =>
    match db_delete_by_id db id with
    | none => none
    | some (_, db2) => some db2

/-- The store after a history of calls on `db_init`; a history lists the latest call
first. -/
def runHist : List Op → Option MovieDB
  | [] => some db_init
  | op :: earlier =>
    match runHist earlier with
    | none => none
    | some db => applyOp db op

/-- The store after the calls `ops`, given in the order they are made, on `db_init`. -/
def run (ops : List Op) : Option MovieDB := runHist ops.reverse

/-- Number of `ui_add` calls in a list of calls. -/
def countAdds : List Op → Nat
  | [] => 0
  | Op.add _ :: rest => countAdds rest + 1
  | Op.delete _ :: rest => countAdds rest

/-- The records that were added under identifier `id` and not deleted since, read off a
history (latest call first), the latest first.  The `k`-th add is given what `next_id++`
yields on its `k`-th execution after `db_init`, the `int` value of `k`; a delete of `id`
discards what was added under `id` before. -/
def addedLive : List Op → Int → List Movie
  | [], _ => []
  | Op.delete d :: earlier, id => if d = id then [] else addedLive earlier id
  | Op.add m :: earlier, id =>
    if id = wrap_int32 ((countAdds earlier : Int) + 1) then
      { m with id := id } :: addedLive earlier id
    else addedLive earlier id

/-- The lookups of a store agree with a history: `db_find_by_id id` returns each record
that was added under `id` and not deleted since, and `NULL` when there is none. -/
def FindsAdded (hist : List Op) (db : MovieDB) : Prop :=
  ∀ id, (∀ r, r ∈ addedLive hist id → db_find_by_id db id = some r) ∧
    (addedLive hist id = [] → db_find_by_id db id = none)

/-- Every live record carries an identifier handed out by one of the first `c` adds. -/
def Issued (c : Nat) (db : MovieDB) : Prop :=
  ∀ p, p < db.size → ∃ j : Nat, 1 ≤ j ∧ j ≤ c ∧ (recAt db p).id = wrap_int32 (j : Int)

/-- Every live record carries an identifier below `next_id`. -/
def IdsBelowNext (db : MovieDB) : Prop :=
  ∀ p, p < db.size → (recAt db p).id < db.next_id

/-- Three sample field sets, as typed into `ui_add` (the identifier typed in is ignored). -/
def movieA : Movie := ⟨0, [65], [120], [80], 1999, 136, 87⟩

/-- Second sample field set. -/
def movieB : Movie := ⟨0, [66], [121], [81], 2010, 148, 88⟩

/-- Third sample field set. -/
def movieC : Movie := ⟨0, [67], [122], [82], 2019, 132, 85⟩

/-- Three adds. -/
def threeAdds : List Op := [Op.add movieA, Op.add movieB, Op.add movieC]

/-- The store after `threeAdds`. -/
def storeThree : MovieDB := (run threeAdds).getD db_init

/-- The store `storeThree` after `db_delete_by_id 2`. -/
def storeTwo : MovieDB := ((db_delete_by_id storeThree 2).getD (0, storeThree)).2

/-- Twenty-six adds: the index grows from 16 to 32 slots at the 14th add and from 32 to 64
slots at the 26th. -/
def twentySixAdds : List Op := List.replicate 26 (Op.add movieA)

/-- `n` adds of the fields `movieA`. -/
def addsOnly (n : Nat) : List Op := List.replicate n (Op.add movieA)

/-- One add of the fields `movieB` followed by `n` adds of the fields `movieA`. -/
def manyAdds (n : Nat) : List Op := Op.add movieB :: addsOnly n

/-- The first `hdr.count` records of a snapshot carry pairwise distinct identifiers. -/
def DistinctIds (f : Snapshot) : Prop :=
  ((f.records.take f.hdr.count).map (fun r => r.id)).Nodup

/-- The first `hdr.count` records of a snapshot carry identifiers below `hdr.next_id`. -/
def IdsBelowHeader (f : Snapshot) : Prop :=
  ∀ r, r ∈ f.records.take f.hdr.count → r.id < f.hdr.next_id

/-- Both conditions on a snapshot are decidable. -/
instance (f : Snapshot) : Decidable (DistinctIds f) := by
  unfold DistinctIds
  infer_instance

/-- Decidability of the bound on the identifiers of a snapshot. -/
instance (f : Snapshot) : Decidable (IdsBelowHeader f) := by
  unfold IdsBelowHeader
  infer_instance

/-- The value of `sizeof (Movie)`: 4 bytes of `id`, 210 bytes of text, 2 bytes of padding,
two `int`s and a `double`. -/
def sizeof_Movie : Nat := 232

/-- A snapshot that `ui_load_bin` takes in without harm: the identifiers of its first
`hdr.count` records are pairwise distinct and below `hdr.next_id`, `hdr.next_id` is an
`int32_t` value, and `hdr.count` is small enough for the byte size that `db_ensure`
passes to `realloc`, `newcap * sizeof (Movie)`, to stay below `2 ^ 64`. -/
def GoodSnapshot (f : Snapshot) : Prop :=
  DistinctIds f ∧ IdsBelowHeader f ∧ -2 ^ 31 ≤ f.hdr.next_id ∧ f.hdr.next_id < 2 ^ 31 ∧
    (db_ensure db_init f.hdr.count).cap * sizeof_Movie < 2 ^ 64

/-- Decidability of `GoodSnapshot`. -/
instance (f : Snapshot) : Decidable (GoodSnapshot f) := by
  unfold GoodSnapshot
  infer_instance

/-- Stores reachable from `db_init` by `ui_add` on stores that satisfy `addOk`,
`db_delete_by_id`, and `ui_load_bin` of snapshots that satisfy `ok`. -/
inductive LoadReachable (ok : Snapshot → Prop) (addOk : MovieDB → Prop) : MovieDB → Prop
  | init : LoadReachable ok addOk db_init
  | add {db db2 : MovieDB} (m : Movie) :
      LoadReachable ok addOk db → addOk db → ui_add db m = some db2 →
      LoadReachable ok addOk db2
  | delete {db db2 : MovieDB} (id : Int) (r : Int) :
      LoadReachable ok addOk db → db_delete_by_id db id = some (r, db2) →
      LoadReachable ok addOk db2
  | load {db db2 : MovieDB} (file : Option Snapshot) (r : Bool) :
      LoadReachable ok addOk db → (∀ f, file = some f → ok f) →
      ui_load_bin db file = some (r, db2) → LoadReachable ok addOk db2

/-- The increment `next_id++` of the next `ui_add` does not overflow: `next_id` is
below `INT_MAX`. -/
def NoOverflow (db : MovieDB) : Prop := db.next_id < 2 ^ 31 - 1

/-- Decidability of `NoOverflow`. -/
instance (db : MovieDB) : Decidable (NoOverflow db) := by
  unfold NoOverflow
  infer_instance

/-- The consistency of index and record array: every Filled slot `(k, p)` has
`p < size` and `data[p].id = k`, and the keys of the Filled slots are exactly the
identifiers of `data[0 .. size - 1]`. -/
def IndexConsistent (db : MovieDB) : Prop :=
  (∀ i, i < db.index.cap → (slotAt db.index i).state = SlotState.SLOT_FILLED →
    (slotAt db.index i).value < db.size ∧
      (recAt db (slotAt db.index i).value).id = (slotAt db.index i).key) ∧
  (∀ k, (∃ i, i < db.index.cap ∧ (slotAt db.index i).state = SlotState.SLOT_FILLED ∧
      (slotAt db.index i).key = k) ↔ (∃ p, p < db.size ∧ (recAt db p).id = k))

/-- A snapshot of one record with identifier `1` whose header says `next_id = 1`. -/
def staleSnapshot : Snapshot := ⟨⟨MVDB_MAGIC, 1, 1, 1⟩, [{ movieA with id := 1 }]⟩

/-- The store after loading `staleSnapshot`. -/
def storeLoaded : MovieDB := ((ui_load_bin db_init (some staleSnapshot)).getD (false, db_init)).2

/-- The store `storeLoaded` after one `ui_add`, which hands out identifier `1` again. -/
def storeLoadedAdd : MovieDB := (ui_add storeLoaded movieB).getD db_init

/-- The store `storeLoadedAdd` after `db_delete_by_id 1`. -/
def storeStale : MovieDB := ((db_delete_by_id storeLoadedAdd 1).getD (0, db_init)).2

/-- A snapshot of one record with identifier `INT_MIN` whose header says
`next_id = INT_MAX`. -/
def edgeSnapshot : Snapshot :=
  ⟨⟨MVDB_MAGIC, 1, 2147483647, 1⟩, [{ movieA with id := -2147483648 }]⟩

/-- The store after loading `edgeSnapshot`. -/
def edgeLoaded : MovieDB := ((ui_load_bin db_init (some edgeSnapshot)).getD (false, db_init)).2

/-- The store `edgeLoaded` after one `ui_add`, which hands out `INT_MAX` and takes
`next_id` past it. -/
def edgeAdd : MovieDB := (ui_add edgeLoaded movieB).getD db_init

/-- The store `edgeAdd` after one more `ui_add`, which hands out `INT_MIN` again. -/
def edgeAddAdd : MovieDB := (ui_add edgeAdd movieC).getD db_init

/-- The store `edgeAddAdd` after `db_delete_by_id INT_MIN`. -/
def storeEdge : MovieDB := ((db_delete_by_id edgeAddAdd (-2147483648)).getD (0, db_init)).2

/-- A snapshot of two records with identifiers `1` and `2` and `next_id = 3`. -/
def goodSnapshot : Snapshot :=
  ⟨⟨MVDB_MAGIC, 1, 3, 2⟩, [{ movieA with id := 1 }, { movieB with id := 2 }]⟩

/-- The store after loading `goodSnapshot`. -/
def storeGood : MovieDB := ((ui_load_bin db_init (some goodSnapshot)).getD (false, db_init)).2

/-- The store `storeGood` after one `ui_add`, which hands out identifier `3`. -/
def storeGoodAdd : MovieDB := (ui_add storeGood movieC).getD db_init

/-- The store `storeGoodAdd` after `db_delete_by_id 1`. -/
def storeGoodEdited : MovieDB := ((db_delete_by_id storeGoodAdd 1).getD (0, db_init)).2

/-- A snapshot with a valid header that announces two records but holds only one. -/
def truncatedSnapshot : Snapshot := ⟨⟨MVDB_MAGIC, 1, 9, 2⟩, [{ movieA with id := 1 }]⟩

/-- The store `storeThree` after the failed load of `truncatedSnapshot`. -/
def storeAfterTruncated : MovieDB :=
  ((ui_load_bin storeThree (some truncatedSnapshot)).getD (true, storeThree)).2

/-- A snapshot whose header carries format version 2. -/
def wrongVersionSnapshot : Snapshot := ⟨⟨MVDB_MAGIC, 2, 9, 1⟩, [{ movieA with id := 1 }]⟩

end MovieStore

/-! ## Exercise `app02`: recursive factorial -/

namespace App02

/-- Function `factorial` of `app02.c`: the result type is `unsigned long long`, so the
product `(unsigned long long) n * factorial (n - 1)` is taken modulo `2 ^ 64`. -/
def factorial (n : Int) : Nat :=
  if n > 0 then (n.toNat * factorial (n - 1)) % 2 ^ 64 else 1
termination_by n.toNat
decreasing_by omega

end App02

/-! ## Exercise `app05`: recursion removed with a stack -/

namespace App05

/-- Modelled from the spec: type `IntStack` of `IntStack.h`, which is not part of the
sources at hand.  A LIFO stack of `int` with a capacity: `max` is the capacity given to
`Initialize`, `stk` holds the entries, the top first. -/
structure IntStack where
  max : Nat
  stk : List Int
  deriving DecidableEq, Repr

/-- Modelled from the spec: `Initialize (&stk, max)` of `IntStack.h` gives an empty stack
of capacity `max`. -/
def Initialize (max : Nat) : IntStack := { max := max, stk := [] }

/-- Modelled from the spec: `Push (&stk, x)` of `IntStack.h` puts `x` on top of a stack
that holds fewer than `max` entries.  What it does on a full stack is not described;
`none` stands for that case. -/
def Push (s : IntStack) (x : Int) : Option IntStack :=
  if s.stk.length < s.max then some { s with stk := x :: s.stk } else none

/-- Modelled from the spec: `Pop (&stk, &x)` of `IntStack.h` removes the top entry of a
stack that is not empty and stores it in `x`; `none` stands for a pop from an empty
stack. -/
def Pop (s : IntStack) : Option (Int × IntStack) :=
  match s.stk with
  | [] => none
  | x :: rest => some (x, { s with stk := rest })

/-- Modelled from the spec: `IsEmpty (&stk)` of `IntStack.h`. -/
def IsEmpty (s : IntStack) : Bool := s.stk.isEmpty

/-- The variables of `recur` whenever control is at the label `Top`: the local `n`, the
stack, and the integers printed so far; `done` is set once `Terminate` has been reached. -/
structure Machine where
  n : Int
  stk : IntStack
  out : List Int
  done : Bool
  deriving DecidableEq, Repr

/-- One pass of the body of `recur` from the label `Top` to the next `goto Top` (or to
`Terminate`). -/
def pass (m : Machine) : Option Machine :=
  if m.done then some m
  else if m.n > 0 then
    match Push m.stk m.n with
    | none => none
    | some s => some { m with stk := s, n := m.n - 1 }
  else if ¬ IsEmpty m.stk then
    match Pop m.stk with
    | none => none
    | some (x, s) => some { m with stk := s, out := m.out ++ [x], n := x - 2 }
  else some { m with done := true }

/-- The machine after `k` passes. -/
def passes : Nat → Machine → Option Machine
  | 0, m => some m
  | k + 1, m =>
    match pass m with
    | none => none
    | some m2 => passes k m2

/-- The machine on entry to `recur (n)`, after `Initialize (&stk, 100)`. -/
def recur_start (n : Int) : Machine :=
  { n := n, stk := Initialize 100, out := [], done := false }

/-- Function `recur` with `fuel` passes at its disposal: the integers printed, in order,
if the loop has ended by then. -/
def recur (fuel : Nat) (n : Int) : Option (List Int) :=
  match passes fuel (recur_start n) with
  | none => none
  | some m => if m.done then some m.out else none

/-- The recursive function the source started from (its two calls are kept as comments
in `recur`): `R(n) = if n > 0 then R(n - 1), print n, R(n - 2)`; the integers it
prints. -/
def recurSpec (n : Int) : List Int :=
  if n > 0 then recurSpec (n - 1) ++ [n] ++ recurSpec (n - 2) else []
termination_by n.toNat
decreasing_by all_goals omega

/-- What is still to be printed for the entries of the stack (top first): an entry `x`
stands for `print x, R(x - 2)`. -/
def pending : List Int → List Int
  | [] => []
  | x :: rest => x :: (recurSpec (x - 2) ++ pending rest)

/-- Number of passes the loop spends on `R(n)`. -/
def work (n : Int) : Nat :=
  if n > 0 then work (n - 1) + work (n - 2) + 2 else 0
termination_by n.toNat
decreasing_by all_goals omega

/-- Number of passes the loop still owes for the entries of the stack. -/
def owed : List Int → Nat
  | [] => 0
  | x :: rest => 1 + work (x - 2) + owed rest

/-- The entries of the stack increase strictly from the top to the bottom, lie above `a`
and do not exceed `b`. -/
def Chain (b : Int) : Int → List Int → Prop
  | a, [] => a ≤ b
  | a, x :: rest => a < x ∧ Chain b x rest

end App05

namespace MovieStore

/-! ## List and arithmetic helpers -/

theorem getD_set_self {α : Type} (l : List α) (j : Nat) (a d : α) (h : j < l.length) :
    (l.set j a).getD j d = a := by
  induction l generalizing j with
  | nil => simp at h
  | cons x xs ih =>
    cases j with
    | zero => rfl
    | succ j => exact ih j (by simpa using h)

theorem getD_set_ne {α : Type} (l : List α) (i j : Nat) (a d : α) (h : j ≠ i) :
    (l.set j a).getD i d = l.getD i d := by
  induction l generalizing i j with
  | nil => rfl
  | cons x xs ih =>
    cases j with
    | zero =>
      cases i with
      | zero => exact absurd rfl h
      | succ i => rfl
    | succ j =>
      cases i with
      | zero => rfl
      | succ i => exact ih i j (fun e => h (by rw [e]))

theorem countP_set_getD {α : Type} (p : α → Bool) (l : List α) (j : Nat) (a d : α)
    (h : j < l.length) :
    (l.set j a).countP p + (if p (l.getD j d) then 1 else 0)
      = l.countP p + (if p a then 1 else 0) := by
  induction l generalizing j with
  | nil => simp at h
  | cons x xs ih =>
    cases j with
    | zero =>
      simp only [List.set_cons_zero, List.countP_cons, List.getD_cons_zero]
      omega
    | succ j =>
      have := ih j (by simpa using h)
      simp only [List.set_cons_succ, List.countP_cons, List.getD_cons_succ]
      omega

theorem getD_replicate_default {α : Type} (n i : Nat) (d : α) :
    (List.replicate n d).getD i d = d := by
  induction n generalizing i with
  | zero => rfl
  | succ n ih =>
    cases i with
    | zero => rfl
    | succ i => exact ih i

theorem mask_eq_mod (n x : Nat) : x &&& (2 ^ n - 1) = x % 2 ^ n :=
  Nat.and_pow_two_sub_one_eq_mod x n

theorem probe_inj (h c s t : Nat) (hs : s < c) (ht : t < c)
    (e : (h + s) % c = (h + t) % c) : s = t := by
  have e1 : Nat.ModEq c (h + s) (h + t) := e
  have e2 : Nat.ModEq c s t := Nat.ModEq.add_left_cancel' h e1
  exact Nat.ModEq.eq_of_lt_of_lt e2 hs ht

theorem probe_surj (h c i : Nat) (hi : i < c) :
    ∃ s, s < c ∧ (h + s) % c = i := by
  have hc : 0 < c := by omega
  refine ⟨(i + c - h % c) % c, Nat.mod_lt _ hc, ?_⟩
  have hlt : h % c < c := Nat.mod_lt _ hc
  rw [Nat.add_mod_mod]
  have e : h + (i + c - h % c) = i + c * (h / c + 1) := by
    have := Nat.div_add_mod h c
    have e2 : c * (h / c + 1) = c * (h / c) + c := by ring
    omega
  rw [e, Nat.add_mul_mod_self_left, Nat.mod_eq_of_lt hi]

/-! ## Lookup -/

theorem mask_mod {hm : HashMap} (w : WFcore hm) (x : Nat) :
    x &&& (hm.cap - 1) = x % hm.cap := by
  obtain ⟨n, _, e⟩ := w.pow
  rw [e]
  exact mask_eq_mod n x

theorem cap_ge {hm : HashMap} (w : WFcore hm) : 16 ≤ hm.cap := by
  obtain ⟨n, hn, e⟩ := w.pow
  rw [e]
  calc 16 = 2 ^ 4 := by norm_num
    _ ≤ 2 ^ n := Nat.pow_le_pow_right (by norm_num) hn

theorem probeIdx_lt {hm : HashMap} (w : WFcore hm) (key : Int) (s : Nat) :
    probeIdx hm key s < hm.cap :=
  Nat.mod_lt _ (by have := cap_ge w; omega)

theorem hm_get_loop_some (hm : HashMap) (h mask : Nat) (key : Int) :
    ∀ (fuel step v : Nat), hm_get_loop hm h mask key step fuel = some v →
      ∃ t, step ≤ t ∧ t < step + fuel ∧
        (hm.slots.getD ((h + t) &&& mask) default).state = SlotState.SLOT_FILLED ∧
        (hm.slots.getD ((h + t) &&& mask) default).key = key ∧
        (hm.slots.getD ((h + t) &&& mask) default).value = v := by
  intro fuel
  induction fuel with
  | zero => intro step v hv; simp [hm_get_loop] at hv
  | succ fuel ih =>
    intro step v hv
    simp only [hm_get_loop] at hv
    split_ifs at hv with h1 h2
    · obtain ⟨hs, hk⟩ := h2
      refine ⟨step, le_refl _, by omega, hs, hk, ?_⟩
      exact Option.some.inj hv
    · obtain ⟨t, ht1, ht2, ht3⟩ := ih (step + 1) v hv
      exact ⟨t, by omega, by omega, ht3⟩

theorem hm_get_loop_found (hm : HashMap) (h mask : Nat) (key : Int) :
    ∀ (fuel step t : Nat), step ≤ t → t < step + fuel →
      (∀ s, step ≤ s → s < t →
        (hm.slots.getD ((h + s) &&& mask) default).state ≠ SlotState.SLOT_EMPTY ∧
        ¬ ((hm.slots.getD ((h + s) &&& mask) default).state = SlotState.SLOT_FILLED ∧
            (hm.slots.getD ((h + s) &&& mask) default).key = key)) →
      (hm.slots.getD ((h + t) &&& mask) default).state = SlotState.SLOT_FILLED →
      (hm.slots.getD ((h + t) &&& mask) default).key = key →
      hm_get_loop hm h mask key step fuel
        = some (hm.slots.getD ((h + t) &&& mask) default).value := by
  intro fuel
  induction fuel with
  | zero => intro step t h1 h2; omega
  | succ fuel ih =>
    intro step t h1 h2 hpre hst hkey
    simp only [hm_get_loop]
    by_cases e : step = t
    · subst e
      rw [if_neg (by rw [hst]; decide), if_pos ⟨hst, hkey⟩]
    · have hlt : step < t := by omega
      obtain ⟨p1, p2⟩ := hpre step (le_refl _) hlt
      rw [if_neg p1, if_neg p2]
      exact ih (step + 1) t (by omega) (by omega)
        (fun s hs1 hs2 => hpre s (by omega) hs2) hst hkey

theorem hm_get_eq_some_iff {hm : HashMap} (w : WFcore hm) (key : Int) (v : Nat) :
    hm_get hm key = some v ↔ HasEntry hm key v := by
  have hc := cap_ge w
  have hne : hm.cap ≠ 0 := by omega
  constructor
  · intro hg
    simp only [hm_get, if_neg hne] at hg
    obtain ⟨t, _, _, h1, h2, h3⟩ := hm_get_loop_some hm _ _ key _ _ _ hg
    rw [mask_mod w] at h1 h2 h3
    exact ⟨_, Nat.mod_lt _ (by omega), h1, h2, h3⟩
  · rintro ⟨i, hi, h1, h2, h3⟩
    obtain ⟨t, ht, hidx, hpath⟩ := w.probe i hi h1
    rw [h2] at hidx hpath
    simp only [hm_get, if_neg hne]
    have key_t : (keyHash key + t) &&& (hm.cap - 1) = i := by
      rw [mask_mod w]; exact hidx
    have := hm_get_loop_found hm (keyHash key) (hm.cap - 1) key hm.cap 0 t (Nat.zero_le _)
      (by omega)
      (by
        intro s _ hs
        rw [mask_mod w]
        refine ⟨hpath s hs, ?_⟩
        rintro ⟨q1, q2⟩
        have hsi : probeIdx hm key s = i :=
          w.nodup _ _ (probeIdx_lt w key s) hi q1 h1 (by rw [h2]; exact q2)
        have : s = t := probe_inj (keyHash key) hm.cap s t (by omega) ht
          (by rw [← hidx] at hsi; exact hsi)
        omega)
      (by rw [key_t]; exact h1) (by rw [key_t]; exact h2)
    rw [key_t] at this
    rw [← h3]
    exact this

theorem hasEntry_unique {hm : HashMap} (w : WFcore hm) {key : Int} {v1 v2 : Nat}
    (h1 : HasEntry hm key v1) (h2 : HasEntry hm key v2) : v1 = v2 := by
  have a := (hm_get_eq_some_iff w key v1).2 h1
  have b := (hm_get_eq_some_iff w key v2).2 h2
  rw [a] at b
  exact Option.some.inj b

theorem hm_get_eq_none_iff {hm : HashMap} (w : WFcore hm) (key : Int) :
    hm_get hm key = none ↔ ∀ v, ¬ HasEntry hm key v := by
  constructor
  · intro hn v hv
    rw [(hm_get_eq_some_iff w key v).2 hv] at hn
    exact Option.noConfusion hn
  · intro hall
    cases hg : hm_get hm key with
    | none => rfl
    | some v => exact absurd ((hm_get_eq_some_iff w key v).1 hg) (hall v)

theorem hm_get_congr {hm hm2 : HashMap} (w : WFcore hm) (w2 : WFcore hm2) (key : Int)
    (h : ∀ v, HasEntry hm2 key v ↔ HasEntry hm key v) : hm_get hm2 key = hm_get hm key := by
  cases hg : hm_get hm key with
  | none =>
    rw [hm_get_eq_none_iff w] at hg
    rw [hm_get_eq_none_iff w2]
    intro v hv
    exact hg v ((h v).1 hv)
  | some v =>
    rw [hm_get_eq_some_iff w] at hg
    rw [hm_get_eq_some_iff w2]
    exact (h v).2 hg

/-! ## Writing one slot -/

theorem slotAt_setSlot {hm : HashMap} (w : WFcore hm) {j : Nat} (hj : j < hm.cap)
    (s : HashSlot) (sz tb i : Nat) :
    slotAt (setSlot hm j s sz tb) i = if i = j then s else slotAt hm i := by
  unfold slotAt setSlot
  by_cases e : i = j
  · subst e
    rw [if_pos rfl]
    exact getD_set_self _ _ _ _ (by rw [w.len]; exact hj)
  · rw [if_neg e]
    exact getD_set_ne _ _ _ _ _ (fun h => e h.symm)

theorem countState_setSlot {hm : HashMap} (w : WFcore hm) {j : Nat} (hj : j < hm.cap)
    (s : HashSlot) (sz tb : Nat) (st : SlotState) :
    countState (setSlot hm j s sz tb) st + (if (slotAt hm j).state = st then 1 else 0)
      = countState hm st + (if s.state = st then 1 else 0) := by
  have := countP_set_getD (fun x : HashSlot => decide (x.state = st)) hm.slots j s default
    (by rw [w.len]; exact hj)
  simpa [countState, setSlot, slotAt] using this

theorem pathTo_setSlot {hm : HashMap} (w : WFcore hm) {j : Nat} (hj : j < hm.cap)
    (s : HashSlot) (sz tb : Nat) (hne : s.state ≠ SlotState.SLOT_EMPTY) {key : Int} {i : Nat}
    (hp : PathTo hm key i) : PathTo (setSlot hm j s sz tb) key i := by
  obtain ⟨t, ht, hidx, hpath⟩ := hp
  refine ⟨t, ht, hidx, ?_⟩
  intro q hq
  have e : probeIdx (setSlot hm j s sz tb) key q = probeIdx hm key q := rfl
  rw [e, slotAt_setSlot w hj]
  split_ifs
  · exact hne
  · exact hpath q hq

theorem wfcore_setSlot {hm : HashMap} (w : WFcore hm) {j : Nat} (hj : j < hm.cap)
    (s : HashSlot) (sz tb : Nat) (hne : s.state ≠ SlotState.SLOT_EMPTY)
    (hsz : sz + (if (slotAt hm j).state = SlotState.SLOT_FILLED then 1 else 0)
      = hm.size + (if s.state = SlotState.SLOT_FILLED then 1 else 0))
    (htb : tb + (if (slotAt hm j).state = SlotState.SLOT_TOMB then 1 else 0)
      = hm.tombs + (if s.state = SlotState.SLOT_TOMB then 1 else 0))
    (hpath : s.state = SlotState.SLOT_FILLED → PathTo hm s.key j)
    (hfresh : s.state = SlotState.SLOT_FILLED → ∀ i, i < hm.cap → i ≠ j →
      (slotAt hm i).state = SlotState.SLOT_FILLED → (slotAt hm i).key ≠ s.key) :
    WFcore (setSlot hm j s sz tb) := by
  refine ⟨?_, w.pow, ?_, ?_, ?_, ?_⟩
  · simp [setSlot, w.len]
  · have := countState_setSlot w hj s sz tb SlotState.SLOT_FILLED
    have e := w.size_eq
    show sz = _
    omega
  · have := countState_setSlot w hj s sz tb SlotState.SLOT_TOMB
    have e := w.tombs_eq
    show tb = _
    omega
  · intro i hi hf
    rw [slotAt_setSlot w hj] at hf ⊢
    by_cases e : i = j
    · rw [if_pos e] at hf ⊢
      rw [e]
      exact pathTo_setSlot w hj s sz tb hne (hpath hf)
    · rw [if_neg e] at hf ⊢
      exact pathTo_setSlot w hj s sz tb hne (w.probe i hi hf)
  · intro a b ha hb fa fb hk
    simp only [slotAt_setSlot w hj] at fa fb hk
    by_cases ea : a = j <;> by_cases eb : b = j
    · rw [ea, eb]
    · rw [if_pos ea] at fa hk
      rw [if_neg eb] at fb hk
      exact absurd hk.symm (hfresh fa b hb eb fb)
    · rw [if_neg ea] at fa hk
      rw [if_pos eb] at fb hk
      exact absurd hk (hfresh fb a ha ea fa)
    · rw [if_neg ea] at fa hk
      rw [if_neg eb] at fb hk
      exact w.nodup a b ha hb fa fb hk

theorem hasEntry_setSlot {hm : HashMap} (w : WFcore hm) {j : Nat} (hj : j < hm.cap)
    (s : HashSlot) (sz tb : Nat) (key : Int) (v : Nat) :
    HasEntry (setSlot hm j s sz tb) key v ↔
      (s.state = SlotState.SLOT_FILLED ∧ s.key = key ∧ s.value = v) ∨
      ∃ i, i < hm.cap ∧ i ≠ j ∧ (slotAt hm i).state = SlotState.SLOT_FILLED ∧
        (slotAt hm i).key = key ∧ (slotAt hm i).value = v := by
  constructor
  · rintro ⟨i, hi, h1, h2, h3⟩
    rw [slotAt_setSlot w hj] at h1 h2 h3
    by_cases e : i = j
    · rw [if_pos e] at h1 h2 h3
      exact Or.inl ⟨h1, h2, h3⟩
    · rw [if_neg e] at h1 h2 h3
      exact Or.inr ⟨i, hi, e, h1, h2, h3⟩
  · rintro (⟨h1, h2, h3⟩ | ⟨i, hi, e, h1, h2, h3⟩)
    · refine ⟨j, hj, ?_, ?_, ?_⟩ <;> rw [slotAt_setSlot w hj, if_pos rfl] <;> assumption
    · refine ⟨i, hi, ?_, ?_, ?_⟩ <;> rw [slotAt_setSlot w hj, if_neg e] <;> assumption

/-- Writing `(key, value, Filled)` into slot `j`, which was not Filled or held `key`
already, while `key` is stored nowhere else: the entries afterwards. -/
theorem hasEntry_setSlot_put {hm : HashMap} (w : WFcore hm) {j : Nat} (hj : j < hm.cap)
    (key : Int) (value sz tb : Nat)
    (hold : (slotAt hm j).state = SlotState.SLOT_FILLED → (slotAt hm j).key = key)
    (hfresh : ∀ i, i < hm.cap → i ≠ j →
      (slotAt hm i).state = SlotState.SLOT_FILLED → (slotAt hm i).key ≠ key)
    (k2 : Int) (v2 : Nat) :
    HasEntry (setSlot hm j ⟨key, value, SlotState.SLOT_FILLED⟩ sz tb) k2 v2 ↔
      (k2 = key ∧ v2 = value) ∨ (k2 ≠ key ∧ HasEntry hm k2 v2) := by
  rw [hasEntry_setSlot w hj]
  constructor
  · rintro (⟨_, h2, h3⟩ | ⟨i, hi, e, h1, h2, h3⟩)
    · exact Or.inl ⟨h2.symm, h3.symm⟩
    · refine Or.inr ⟨?_, i, hi, h1, h2, h3⟩
      rw [← h2]
      exact hfresh i hi e h1
  · rintro (⟨h2, h3⟩ | ⟨hk, i, hi, h1, h2, h3⟩)
    · exact Or.inl ⟨rfl, h2.symm, h3.symm⟩
    · refine Or.inr ⟨i, hi, ?_, h1, h2, h3⟩
      intro e
      rw [e] at h1 h2
      exact hk (h2.symm.trans (hold h1))

/-! ## The probe loop of `hm_put` -/

/-- What the probe loop of `hm_put` does, in terms of the step `e` at which it stops
(the first step whose slot is Empty or holds `key`).  `g s` is the slot probed at
step `s`. -/
theorem hm_put_loop_spec (hm : HashMap) (h mask : Nat) (key : Int) (value : Nat)
    (g : Nat → HashSlot) (hg : ∀ s, hm.slots.getD ((h + s) &&& mask) default = g s) :
    ∀ (fuel step : Nat) (ft : Option Nat) (e : Nat), step ≤ e → e < step + fuel →
      (∀ s, step ≤ s → s < e → (g s).state ≠ SlotState.SLOT_EMPTY ∧
        ¬ ((g s).state = SlotState.SLOT_FILLED ∧ (g s).key = key)) →
      ((g e).state = SlotState.SLOT_EMPTY ∨
        ((g e).state = SlotState.SLOT_FILLED ∧ (g e).key = key)) →
      ∃ j sz tb, hm_put_loop hm h mask key value ft step fuel
          = some (setSlot hm j ⟨key, value, SlotState.SLOT_FILLED⟩ sz tb) ∧
        (((g e).state = SlotState.SLOT_FILLED ∧ j = (h + e) &&& mask ∧
            sz = hm.size ∧ tb = hm.tombs) ∨
         ((g e).state = SlotState.SLOT_EMPTY ∧ ft = none ∧
            (∀ s, step ≤ s → s < e → (g s).state ≠ SlotState.SLOT_TOMB) ∧
            j = (h + e) &&& mask ∧ sz = hm.size + 1 ∧ tb = hm.tombs) ∨
         ((g e).state = SlotState.SLOT_EMPTY ∧ ft = none ∧
            (∃ t, step ≤ t ∧ t < e ∧ (g t).state = SlotState.SLOT_TOMB ∧
              (∀ s, step ≤ s → s < t → (g s).state ≠ SlotState.SLOT_TOMB) ∧
              j = (h + t) &&& mask) ∧
            sz = hm.size + 1 ∧ tb = hm.tombs - 1) ∨
         ((g e).state = SlotState.SLOT_EMPTY ∧ ft = some j ∧
            sz = hm.size + 1 ∧ tb = hm.tombs - 1)) := by
  intro fuel
  induction fuel with
  | zero => intro step ft e h1 h2; omega
  | succ fuel ih =>
    intro step ft e h1 h2 hpre hstop
    simp only [hm_put_loop, hg]
    by_cases hse : step = e
    · subst hse
      rcases hstop with he | ⟨hf, hk⟩
      · rw [if_pos he]
        cases ft with
        | none =>
          exact ⟨_, _, _, rfl, Or.inr (Or.inl ⟨he, rfl, fun s a b => by omega, rfl, rfl, rfl⟩)⟩
        | some j =>
          exact ⟨j, _, _, rfl, Or.inr (Or.inr (Or.inr ⟨he, rfl, rfl, rfl⟩))⟩
      · rw [if_neg (by rw [hf]; decide), if_neg (by rw [hf]; decide), if_pos ⟨hf, hk⟩]
        refine ⟨(h + step) &&& mask, hm.size, hm.tombs, ?_, Or.inl ⟨hf, rfl, rfl, rfl⟩⟩
        have : ({ g step with value := value } : HashSlot)
            = ⟨key, value, SlotState.SLOT_FILLED⟩ := by
          rw [← hk, ← hf]
        rw [this]
        rfl
    · have hlt : step < e := by omega
      obtain ⟨p1, p2⟩ := hpre step (le_refl _) hlt
      rw [if_neg p1]
      have hpre2 : ∀ s, step + 1 ≤ s → s < e → (g s).state ≠ SlotState.SLOT_EMPTY ∧
          ¬ ((g s).state = SlotState.SLOT_FILLED ∧ (g s).key = key) :=
        fun s a b => hpre s (by omega) b
      by_cases htomb : (g step).state = SlotState.SLOT_TOMB
      · rw [if_pos htomb]
        cases ft with
        | some j0 =>
          obtain ⟨j, sz, tb, hr, hc⟩ := ih (step + 1) (some j0) e (by omega) (by omega) hpre2 hstop
          refine ⟨j, sz, tb, hr, ?_⟩
          rcases hc with c | ⟨_, c, _⟩ | ⟨_, c, _⟩ | c
          · exact Or.inl c
          · exact Option.noConfusion c
          · exact Option.noConfusion c
          · exact Or.inr (Or.inr (Or.inr c))
        | none =>
          obtain ⟨j, sz, tb, hr, hc⟩ :=
            ih (step + 1) (some ((h + step) &&& mask)) e (by omega) (by omega) hpre2 hstop
          refine ⟨j, sz, tb, hr, ?_⟩
          rcases hc with c | ⟨_, c, _⟩ | ⟨_, c, _⟩ | ⟨c1, c2, c3, c4⟩
          · exact Or.inl c
          · exact Option.noConfusion c
          · exact Option.noConfusion c
          · refine Or.inr (Or.inr (Or.inl ⟨c1, rfl, ⟨step, le_refl _, hlt, htomb,
              fun s a b => by omega, ?_⟩, c3, c4⟩))
            exact (Option.some.inj c2).symm
      · rw [if_neg htomb, if_neg p2]
        obtain ⟨j, sz, tb, hr, hc⟩ := ih (step + 1) ft e (by omega) (by omega) hpre2 hstop
        refine ⟨j, sz, tb, hr, ?_⟩
        rcases hc with c | ⟨c1, c2, c3, c4⟩ | ⟨c1, c2, ⟨t, t1, t2, t3, t4, t5⟩, c4⟩ | c
        · exact Or.inl c
        · refine Or.inr (Or.inl ⟨c1, c2, ?_, c4⟩)
          intro s a b
          by_cases es : s = step
          · rw [es]; exact htomb
          · exact c3 s (by omega) b
        · refine Or.inr (Or.inr (Or.inl ⟨c1, c2, ⟨t, by omega, t2, t3, ?_, t5⟩, c4⟩))
          intro s a b
          by_cases es : s = step
          · rw [es]; exact htomb
          · exact t4 s (by omega) b
        · exact Or.inr (Or.inr (Or.inr c))

/-! ## Counting slots -/

theorem countP_pos_of_getD {α : Type} (p : α → Bool) (l : List α) (i : Nat) (d : α)
    (hi : i < l.length) (hp : p (l.getD i d) = true) : 0 < l.countP p := by
  induction l generalizing i with
  | nil => simp at hi
  | cons x xs ih =>
    cases i with
    | zero =>
      simp only [List.getD_cons_zero] at hp
      simp [List.countP_cons, hp]
    | succ i =>
      have := ih i (by simpa using hi) (by simpa using hp)
      simp only [List.countP_cons]
      omega

theorem exists_getD_of_countP_lt {α : Type} (p : α → Bool) (l : List α) (d : α)
    (h : l.countP p < l.length) : ∃ i, i < l.length ∧ p (l.getD i d) = false := by
  induction l with
  | nil => simp at h
  | cons x xs ih =>
    by_cases hx : p x = true
    · simp only [List.countP_cons, hx, if_true, List.length_cons] at h
      obtain ⟨i, hi, hpi⟩ := ih (by omega)
      exact ⟨i + 1, by simp only [List.length_cons]; omega, by simpa using hpi⟩
    · exact ⟨0, by simp, by simpa using hx⟩

theorem countP_nonempty (l : List HashSlot) :
    l.countP (fun s => decide (s.state ≠ SlotState.SLOT_EMPTY))
      = l.countP (fun s => decide (s.state = SlotState.SLOT_FILLED))
        + l.countP (fun s => decide (s.state = SlotState.SLOT_TOMB)) := by
  induction l with
  | nil => rfl
  | cons x xs ih =>
    simp only [List.countP_cons, ih]
    cases hx : x.state <;> simp <;> omega

theorem countState_pos {hm : HashMap} (w : WFcore hm) {i : Nat} (hi : i < hm.cap)
    (st : SlotState) (h : (slotAt hm i).state = st) : 0 < countState hm st :=
  countP_pos_of_getD _ hm.slots i default (by rw [w.len]; exact hi) (by simpa [slotAt] using h)

theorem exists_empty {hm : HashMap} (w : WFcore hm) (hfree : hm.size + hm.tombs < hm.cap) :
    ∃ i, i < hm.cap ∧ (slotAt hm i).state = SlotState.SLOT_EMPTY := by
  have hlt : hm.slots.countP (fun s => decide (s.state ≠ SlotState.SLOT_EMPTY))
      < hm.slots.length := by
    rw [countP_nonempty, w.len]
    have a := w.size_eq
    have b := w.tombs_eq
    unfold countState at a b
    omega
  obtain ⟨i, hi, hp⟩ := exists_getD_of_countP_lt _ hm.slots default hlt
  refine ⟨i, by rw [← w.len]; exact hi, ?_⟩
  simpa [slotAt] using hp

theorem exists_not_filled {hm : HashMap} (w : WFcore hm) (hfree : hm.size < hm.cap) :
    ∃ i, i < hm.cap ∧ (slotAt hm i).state ≠ SlotState.SLOT_FILLED := by
  have hlt : hm.slots.countP (fun s => decide (s.state = SlotState.SLOT_FILLED))
      < hm.slots.length := by
    rw [w.len]
    have a := w.size_eq
    unfold countState at a
    omega
  obtain ⟨i, hi, hp⟩ := exists_getD_of_countP_lt _ hm.slots default hlt
  refine ⟨i, by rw [← w.len]; exact hi, ?_⟩
  simpa [slotAt] using hp

theorem probe_slot_eq {hm : HashMap} (w : WFcore hm) (key : Int) (s : Nat) :
    hm.slots.getD ((keyHash key + s) &&& (hm.cap - 1)) default
      = slotAt hm (probeIdx hm key s) := by
  rw [mask_mod w]
  rfl

/-- The first step at which the probe of `key` stops: an Empty slot or the slot of
`key`; it exists as soon as one slot is Empty. -/
theorem exists_stop_step {hm : HashMap} (w : WFcore hm)
    (hfree : hm.size + hm.tombs < hm.cap) (key : Int) :
    ∃ e, e < hm.cap ∧
      ((slotAt hm (probeIdx hm key e)).state = SlotState.SLOT_EMPTY ∨
        ((slotAt hm (probeIdx hm key e)).state = SlotState.SLOT_FILLED ∧
          (slotAt hm (probeIdx hm key e)).key = key)) ∧
      ∀ s, s < e → (slotAt hm (probeIdx hm key s)).state ≠ SlotState.SLOT_EMPTY ∧
        ¬ ((slotAt hm (probeIdx hm key s)).state = SlotState.SLOT_FILLED ∧
          (slotAt hm (probeIdx hm key s)).key = key) := by
  classical
  obtain ⟨i, hi, hie⟩ := exists_empty w hfree
  obtain ⟨s0, hs0, hs0i⟩ := probe_surj (keyHash key) hm.cap i hi
  have hex : ∃ e, (slotAt hm (probeIdx hm key e)).state = SlotState.SLOT_EMPTY ∨
      ((slotAt hm (probeIdx hm key e)).state = SlotState.SLOT_FILLED ∧
        (slotAt hm (probeIdx hm key e)).key = key) :=
    ⟨s0, Or.inl (by unfold probeIdx; rw [hs0i]; exact hie)⟩
  refine ⟨Nat.find hex, ?_, Nat.find_spec hex, ?_⟩
  · exact lt_of_le_of_lt (Nat.find_min' hex (Or.inl (by unfold probeIdx; rw [hs0i]; exact hie))) hs0
  · intro s hs
    have := Nat.find_min hex hs
    exact ⟨fun h => this (Or.inl h), fun h => this (Or.inr h)⟩

/-- The probe loop of `hm_put` on a table with a free slot: it ends, and writes
`(key, value, Filled)` into one slot `j` that was Empty, a tombstone, or the slot of
`key`. -/
theorem hm_put_loop_top {hm : HashMap} (w : WFcore hm)
    (hfree : hm.size + hm.tombs < hm.cap) (key : Int) (value : Nat) :
    ∃ j sz tb, hm_put_loop hm (keyHash key) (hm.cap - 1) key value none 0 hm.cap
        = some (setSlot hm j ⟨key, value, SlotState.SLOT_FILLED⟩ sz tb) ∧
      j < hm.cap ∧ PathTo hm key j ∧
      ((slotAt hm j).state = SlotState.SLOT_FILLED → (slotAt hm j).key = key) ∧
      (∀ i, i < hm.cap → i ≠ j → (slotAt hm i).state = SlotState.SLOT_FILLED →
        (slotAt hm i).key ≠ key) ∧
      sz + (if (slotAt hm j).state = SlotState.SLOT_FILLED then 1 else 0) = hm.size + 1 ∧
      tb + (if (slotAt hm j).state = SlotState.SLOT_TOMB then 1 else 0) = hm.tombs := by
  obtain ⟨e, he, hstop, hpre⟩ := exists_stop_step w hfree key
  obtain ⟨j, sz, tb, hr, hc⟩ :=
    hm_put_loop_spec hm (keyHash key) (hm.cap - 1) key value
      (fun s => slotAt hm (probeIdx hm key s)) (probe_slot_eq w key)
      hm.cap 0 none e (Nat.zero_le _) (by omega) (fun s _ hs => hpre s hs) hstop
  have hidx : ∀ s, (keyHash key + s) &&& (hm.cap - 1) = probeIdx hm key s :=
    fun s => mask_mod w _
  refine ⟨j, sz, tb, hr, ?_⟩
  -- when the probe stopped on an Empty slot, `key` is stored nowhere
  have habsent : (slotAt hm (probeIdx hm key e)).state = SlotState.SLOT_EMPTY →
      ∀ i, i < hm.cap → (slotAt hm i).state = SlotState.SLOT_FILLED →
        (slotAt hm i).key ≠ key := by
    intro hemp i hi hf hk
    obtain ⟨t, ht, hti, htp⟩ := w.probe i hi hf
    rw [hk] at hti htp
    rcases Nat.lt_trichotomy t e with h1 | h1 | h1
    · exact (hpre t h1).2 ⟨by rw [hti]; exact hf, by rw [hti]; exact hk⟩
    · rw [h1] at hti
      rw [hti, hf] at hemp
      exact SlotState.noConfusion hemp
    · exact htp e h1 hemp
  rcases hc with ⟨c1, c2, c3, c4⟩ | ⟨c1, _, c3, c4, c5, c6⟩ |
      ⟨c1, _, ⟨t, _, t2, t3, t4, t5⟩, c5, c6⟩ | ⟨_, c, _⟩
  · -- the slot of `key` is overwritten
    rw [hidx] at c2
    have hk : (slotAt hm (probeIdx hm key e)).key = key := by
      rcases hstop with h | h
      · rw [h] at c1; exact SlotState.noConfusion c1
      · exact h.2
    subst c2
    refine ⟨probeIdx_lt w key e, ⟨e, he, rfl, fun s hs => (hpre s hs).1⟩, fun _ => hk, ?_, ?_, ?_⟩
    · intro i hi hne hf hki
      exact hne (w.nodup i _ hi (probeIdx_lt w key e) hf c1 (by rw [hki, hk]))
    · rw [if_pos c1, c3]
    · rw [if_neg (by rw [c1]; decide), c4]; rfl
  · -- the first Empty slot is taken
    rw [hidx] at c4
    subst c4
    refine ⟨probeIdx_lt w key e, ⟨e, he, rfl, fun s hs => (hpre s hs).1⟩, ?_, ?_, ?_, ?_⟩
    · intro hf; rw [c1] at hf; exact SlotState.noConfusion hf
    · intro i hi _ hf
      exact habsent c1 i hi hf
    · rw [if_neg (by rw [c1]; decide), c5]
    · rw [if_neg (by rw [c1]; decide), c6]; rfl
  · -- the first tombstone is recycled
    rw [hidx] at t5
    subst t5
    have htpos := countState_pos w (probeIdx_lt w key t) SlotState.SLOT_TOMB t3
    have hte := w.tombs_eq
    refine ⟨probeIdx_lt w key t, ⟨t, by omega, rfl, fun s hs => (hpre s (by omega)).1⟩,
      ?_, ?_, ?_, ?_⟩
    · intro hf; rw [t3] at hf; exact SlotState.noConfusion hf
    · intro i hi _ hf
      exact habsent c1 i hi hf
    · rw [if_neg (by rw [t3]; decide), c5]
    · rw [if_pos t3, c6]; omega
  · exact Option.noConfusion c

/-! ## `next_pow2` and fresh tables -/

theorem next_pow2_loop_spec (x : Nat) : ∀ (fuel i : Nat), x ≤ 2 ^ (i + fuel) →
    ∃ k, i ≤ k ∧ next_pow2_loop x fuel (2 ^ i) = 2 ^ k ∧ x ≤ 2 ^ k ∧
      (k = i ∨ 2 ^ (k - 1) < x) := by
  intro fuel
  induction fuel with
  | zero =>
    intro i hx
    exact ⟨i, le_refl _, rfl, by simpa using hx, Or.inl rfl⟩
  | succ f ih =>
    intro i hx
    simp only [next_pow2_loop]
    by_cases hlt : 2 ^ i < x
    · rw [if_pos hlt, ← pow_succ]
      obtain ⟨k, hk1, hk2, hk3, hk4⟩ := ih (i + 1) (by
        have : i + 1 + f = i + (f + 1) := by omega
        rw [this]; exact hx)
      refine ⟨k, by omega, hk2, hk3, Or.inr ?_⟩
      rcases hk4 with e | e
      · rw [e]; simpa using hlt
      · exact e
    · rw [if_neg hlt]
      exact ⟨i, le_refl _, rfl, by omega, Or.inl rfl⟩

theorem next_pow2_spec (x : Nat) :
    ∃ k, next_pow2 x = 2 ^ k ∧ x ≤ 2 ^ k ∧ (k = 0 ∨ 2 ^ (k - 1) < x) := by
  obtain ⟨k, _, h2, h3, h4⟩ := next_pow2_loop_spec x x 0 (by
    rw [Nat.zero_add]; exact le_of_lt (Nat.lt_two_pow x))
  exact ⟨k, by simpa [next_pow2] using h2, h3, h4⟩

theorem next_pow2_pow (n : Nat) : next_pow2 (2 ^ n) = 2 ^ n := by
  obtain ⟨k, h1, h2, h3⟩ := next_pow2_spec (2 ^ n)
  rw [h1]
  have a : n ≤ k := (Nat.pow_le_pow_iff_right (by norm_num)).1 h2
  rcases h3 with e | e
  · have : n = 0 := by omega
    rw [e, this]
  · have b : k - 1 < n := (Nat.pow_lt_pow_iff_right (by norm_num)).1 e
    have : k = n := by omega
    rw [this]

theorem hm_init_cap_pow (c : Nat) : ∃ n, 4 ≤ n ∧ (hm_init c).cap = 2 ^ n := by
  obtain ⟨k, h1, h2, _⟩ := next_pow2_spec (if c < 16 then 16 else c)
  refine ⟨k, ?_, h1⟩
  have h16 : 2 ^ 4 ≤ 2 ^ k := by
    have : (16 : Nat) ≤ if c < 16 then 16 else c := by split_ifs <;> omega
    calc 2 ^ 4 = 16 := by norm_num
      _ ≤ 2 ^ k := le_trans this h2
  exact (Nat.pow_le_pow_iff_right (by norm_num)).1 h16

theorem hm_init_cap_of_pow (n : Nat) (hn : 4 ≤ n) : (hm_init (2 ^ n)).cap = 2 ^ n := by
  have h16 : ¬ (2 ^ n < 16) := by
    have : 2 ^ 4 ≤ 2 ^ n := Nat.pow_le_pow_right (by norm_num) hn
    have e : (2 : Nat) ^ 4 = 16 := by norm_num
    omega
  show next_pow2 (if 2 ^ n < 16 then 16 else 2 ^ n) = 2 ^ n
  rw [if_neg h16, next_pow2_pow]

theorem slotAt_hm_init (c i : Nat) : slotAt (hm_init c) i = default :=
  getD_replicate_default _ _ _

theorem countState_hm_init (c : Nat) (st : SlotState) (hst : st ≠ SlotState.SLOT_EMPTY) :
    countState (hm_init c) st = 0 := by
  unfold countState hm_init
  simp only [List.countP_replicate]
  rw [if_neg]
  simp only [decide_eq_true_eq]
  exact fun h => hst h.symm

theorem wfcore_hm_init (c : Nat) : WFcore (hm_init c) := by
  refine ⟨?_, hm_init_cap_pow c, ?_, ?_, ?_, ?_⟩
  · simp [hm_init]
  · exact (countState_hm_init c _ (by decide)).symm
  · exact (countState_hm_init c _ (by decide)).symm
  · intro i _ hf
    rw [slotAt_hm_init] at hf
    exact SlotState.noConfusion hf
  · intro i j _ _ hf
    rw [slotAt_hm_init] at hf
    exact SlotState.noConfusion hf

theorem hasEntry_hm_init (c : Nat) (key : Int) (v : Nat) : ¬ HasEntry (hm_init c) key v := by
  rintro ⟨i, _, hf, _⟩
  rw [slotAt_hm_init] at hf
  exact SlotState.noConfusion hf

theorem wf_hm_init (c : Nat) : WF (hm_init c) :=
  ⟨wfcore_hm_init c, by show 4 * (0 + 0) ≤ _; omega⟩

/-! ## Rehash -/

theorem hm_rehash_place_loop_spec (hm : HashMap) (o : HashSlot) (h mask : Nat)
    (g : Nat → HashSlot) (hg : ∀ s, hm.slots.getD ((h + s) &&& mask) default = g s) :
    ∀ (fuel step e : Nat), step ≤ e → e < step + fuel →
      (∀ s, step ≤ s → s < e → (g s).state = SlotState.SLOT_FILLED) →
      (g e).state ≠ SlotState.SLOT_FILLED →
      hm_rehash_place_loop hm o h mask step fuel
        = some (setSlot hm ((h + e) &&& mask) ⟨o.key, o.value, SlotState.SLOT_FILLED⟩
            (hm.size + 1) hm.tombs) := by
  intro fuel
  induction fuel with
  | zero => intro step e h1 h2; omega
  | succ fuel ih =>
    intro step e h1 h2 hpre hstop
    simp only [hm_rehash_place_loop, hg]
    by_cases hse : step = e
    · subst hse
      rw [if_pos hstop]
      rfl
    · rw [if_neg (by
        have := hpre step (le_refl _) (by omega)
        simp [this])]
      exact ih (step + 1) e (by omega) (by omega) (fun s a b => hpre s (by omega) b) hstop

/-- No slot of a table without tombstones is in state Tomb. -/
theorem no_tomb {hm : HashMap} (w : WFcore hm) (ht : hm.tombs = 0) (i : Nat) (hi : i < hm.cap) :
    (slotAt hm i).state ≠ SlotState.SLOT_TOMB := by
  intro h
  have := countState_pos w hi _ h
  have e := w.tombs_eq
  omega

/-- Placing one Filled old slot whose key is not yet in the new table. -/
theorem hm_rehash_place_filled {hm : HashMap} (w : WFcore hm) (ht : hm.tombs = 0)
    (hfree : hm.size < hm.cap) (o : HashSlot) (ho : o.state = SlotState.SLOT_FILLED)
    (hfresh : ∀ v, ¬ HasEntry hm o.key v) :
    ∃ hm1, hm_rehash_place hm o = some hm1 ∧ WFcore hm1 ∧ hm1.tombs = 0 ∧
      hm1.cap = hm.cap ∧ hm1.size = hm.size + 1 ∧
      ∀ k v, HasEntry hm1 k v ↔ (k = o.key ∧ v = o.value) ∨ (k ≠ o.key ∧ HasEntry hm k v) := by
  classical
  obtain ⟨i, hi, hie⟩ := exists_not_filled w hfree
  obtain ⟨s0, hs0, hs0i⟩ := probe_surj (keyHash o.key) hm.cap i hi
  have hex : ∃ e, (slotAt hm (probeIdx hm o.key e)).state ≠ SlotState.SLOT_FILLED :=
    ⟨s0, by unfold probeIdx; rw [hs0i]; exact hie⟩
  have he : Nat.find hex < hm.cap :=
    lt_of_le_of_lt (Nat.find_min' hex (by unfold probeIdx; rw [hs0i]; exact hie)) hs0
  have hpre : ∀ s, s < Nat.find hex →
      (slotAt hm (probeIdx hm o.key s)).state = SlotState.SLOT_FILLED := by
    intro s hs
    have := Nat.find_min hex hs
    simpa using this
  have hstop := Nat.find_spec hex
  have hloop := hm_rehash_place_loop_spec hm o (keyHash o.key) (hm.cap - 1)
    (fun s => slotAt hm (probeIdx hm o.key s)) (probe_slot_eq w o.key)
    hm.cap 0 (Nat.find hex) (Nat.zero_le _) (by omega) (fun s _ hs => hpre s hs) hstop
  rw [mask_mod w] at hloop
  have hj := probeIdx_lt w o.key (Nat.find hex)
  have hnf : ∀ i, i < hm.cap → (slotAt hm i).state = SlotState.SLOT_FILLED →
      (slotAt hm i).key ≠ o.key :=
    fun i hi hf hk => hfresh _ ⟨i, hi, hf, hk, rfl⟩
  have hpath : PathTo hm o.key (probeIdx hm o.key (Nat.find hex)) :=
    ⟨_, he, rfl, fun s hs => by rw [hpre s hs]; decide⟩
  refine ⟨setSlot hm (probeIdx hm o.key (Nat.find hex))
    ⟨o.key, o.value, SlotState.SLOT_FILLED⟩ (hm.size + 1) hm.tombs, ?_, ?_, ht, rfl, rfl, ?_⟩
  · unfold hm_rehash_place
    rw [if_pos ho]
    exact hloop
  · refine wfcore_setSlot w hj _ _ _ (fun h => SlotState.noConfusion h) ?_ ?_ (fun _ => hpath)
      (fun _ i hi _ hf => hnf i hi hf)
    · rw [if_neg hstop]; rfl
    · rw [if_neg (no_tomb w ht _ hj)]; rfl
  · intro k v
    exact hasEntry_setSlot_put w hj o.key o.value _ _
      (fun hf => absurd hf hstop) (fun i hi _ hf => hnf i hi hf) k v

/-- The loop of `hm_rehash` over the remaining old slots. -/
theorem hm_rehash_loop_spec : ∀ (rest : List HashSlot) (hm : HashMap), WFcore hm →
    hm.tombs = 0 →
    hm.size + rest.countP (fun s => decide (s.state = SlotState.SLOT_FILLED)) < hm.cap →
    rest.Pairwise (fun a b => a.state = SlotState.SLOT_FILLED →
      b.state = SlotState.SLOT_FILLED → a.key ≠ b.key) →
    (∀ o, o ∈ rest → o.state = SlotState.SLOT_FILLED → ∀ v, ¬ HasEntry hm o.key v) →
    ∃ hm2, hm_rehash_loop rest hm = some hm2 ∧ WFcore hm2 ∧ hm2.tombs = 0 ∧
      hm2.cap = hm.cap ∧
      hm2.size = hm.size + rest.countP (fun s => decide (s.state = SlotState.SLOT_FILLED)) ∧
      ∀ k v, HasEntry hm2 k v ↔
        (HasEntry hm k v ∨
          ∃ o, o ∈ rest ∧ o.state = SlotState.SLOT_FILLED ∧ o.key = k ∧ o.value = v) := by
  intro rest
  induction rest with
  | nil =>
    intro hm w ht _ _ _
    exact ⟨hm, rfl, w, ht, rfl, by simp, by simp⟩
  | cons o rest ih =>
    intro hm w ht hsz hpw hfresh
    rw [List.pairwise_cons] at hpw
    by_cases ho : o.state = SlotState.SLOT_FILLED
    · have hcnt : (o :: rest).countP (fun s => decide (s.state = SlotState.SLOT_FILLED))
          = rest.countP (fun s => decide (s.state = SlotState.SLOT_FILLED)) + 1 := by
        simp [List.countP_cons, ho]
      rw [hcnt] at hsz
      obtain ⟨hm1, e1, w1, t1, c1, s1, en1⟩ := hm_rehash_place_filled w ht (by omega) o ho
        (hfresh o (List.mem_cons_self _ _) ho)
      obtain ⟨hm2, e2, w2, t2, c2, s2, en2⟩ := ih hm1 w1 t1 (by rw [s1, c1]; omega) hpw.2
        (by
          intro o2 ho2 hf2 v hv
          rcases (en1 _ _).1 hv with ⟨hk, _⟩ | ⟨_, hv2⟩
          · exact hpw.1 o2 ho2 ho hf2 hk.symm
          · exact hfresh o2 (List.mem_cons_of_mem _ ho2) hf2 v hv2)
      refine ⟨hm2, ?_, w2, t2, by rw [c2, c1], by rw [s2, s1, hcnt]; omega, ?_⟩
      · simp only [hm_rehash_loop, e1]
        exact e2
      · intro k v
        rw [en2, en1]
        constructor
        · rintro ((⟨hk, hv⟩ | ⟨_, he⟩) | ⟨o2, ho2, hr⟩)
          · exact Or.inr ⟨o, List.mem_cons_self _ _, ho, hk.symm, hv.symm⟩
          · exact Or.inl he
          · exact Or.inr ⟨o2, List.mem_cons_of_mem _ ho2, hr⟩
        · rintro (he | ⟨o2, ho2, hf2, hk2, hv2⟩)
          · refine Or.inl (Or.inr ⟨?_, he⟩)
            intro hk
            rw [hk] at he
            exact hfresh o (List.mem_cons_self _ _) ho v he
          · rcases List.mem_cons.1 ho2 with e | e
            · rw [e] at hk2 hv2
              exact Or.inl (Or.inl ⟨hk2.symm, hv2.symm⟩)
            · exact Or.inr ⟨o2, e, hf2, hk2, hv2⟩
    · have hcnt : (o :: rest).countP (fun s => decide (s.state = SlotState.SLOT_FILLED))
          = rest.countP (fun s => decide (s.state = SlotState.SLOT_FILLED)) := by
        simp [List.countP_cons, ho]
      rw [hcnt] at hsz
      obtain ⟨hm2, e2, w2, t2, c2, s2, en2⟩ := ih hm w ht hsz hpw.2
        (fun o2 ho2 hf2 => hfresh o2 (List.mem_cons_of_mem _ ho2) hf2)
      refine ⟨hm2, ?_, w2, t2, c2, by rw [s2, hcnt], ?_⟩
      · simp only [hm_rehash_loop, hm_rehash_place, if_neg ho]
        exact e2
      · intro k v
        rw [en2]
        constructor
        · rintro (he | ⟨o2, ho2, hr⟩)
          · exact Or.inl he
          · exact Or.inr ⟨o2, List.mem_cons_of_mem _ ho2, hr⟩
        · rintro (he | ⟨o2, ho2, hf2, hr⟩)
          · exact Or.inl he
          · rcases List.mem_cons.1 ho2 with e | e
            · rw [e] at hf2; exact absurd hf2 ho
            · exact Or.inr ⟨o2, e, hf2, hr⟩

theorem slotAt_eq_getElem (hm : HashMap) (i : Nat) (hi : i < hm.slots.length) :
    slotAt hm i = hm.slots[i] :=
  List.getD_eq_getElem _ _ hi

theorem mem_slots_iff {hm : HashMap} (w : WFcore hm) (o : HashSlot) :
    o ∈ hm.slots ↔ ∃ i, i < hm.cap ∧ slotAt hm i = o := by
  rw [List.mem_iff_getElem]
  constructor
  · rintro ⟨i, hi, e⟩
    exact ⟨i, by rw [← w.len]; exact hi, by rw [slotAt_eq_getElem hm i hi]; exact e⟩
  · rintro ⟨i, hi, e⟩
    have hi2 : i < hm.slots.length := by rw [w.len]; exact hi
    exact ⟨i, hi2, by rw [← slotAt_eq_getElem hm i hi2]; exact e⟩

theorem hasEntry_iff_mem {hm : HashMap} (w : WFcore hm) (k : Int) (v : Nat) :
    HasEntry hm k v ↔
      ∃ o, o ∈ hm.slots ∧ o.state = SlotState.SLOT_FILLED ∧ o.key = k ∧ o.value = v := by
  constructor
  · rintro ⟨i, hi, h1, h2, h3⟩
    exact ⟨slotAt hm i, (mem_slots_iff w _).2 ⟨i, hi, rfl⟩, h1, h2, h3⟩
  · rintro ⟨o, ho, h1, h2, h3⟩
    obtain ⟨i, hi, e⟩ := (mem_slots_iff w o).1 ho
    exact ⟨i, hi, by rw [e]; exact h1, by rw [e]; exact h2, by rw [e]; exact h3⟩

theorem pairwise_slots {hm : HashMap} (w : WFcore hm) :
    hm.slots.Pairwise (fun a b => a.state = SlotState.SLOT_FILLED →
      b.state = SlotState.SLOT_FILLED → a.key ≠ b.key) := by
  rw [List.pairwise_iff_getElem]
  intro i j hi hj hij fa fb hk
  rw [← slotAt_eq_getElem hm i hi] at fa hk
  rw [← slotAt_eq_getElem hm j hj] at fb hk
  have := w.nodup i j (by rw [← w.len]; exact hi) (by rw [← w.len]; exact hj) fa fb hk
  omega

/-- Function `hm_rehash` to a power of two that exceeds the number of entries: it ends,
keeps exactly the entries, and leaves no tombstone. -/
theorem hm_rehash_spec {hm : HashMap} (w : WFcore hm) (n : Nat) (hn : 4 ≤ n)
    (hsz : hm.size < 2 ^ n) :
    ∃ hm2, hm_rehash hm (2 ^ n) = some hm2 ∧ WFcore hm2 ∧ hm2.tombs = 0 ∧
      hm2.cap = 2 ^ n ∧ hm2.size = hm.size ∧
      ∀ k v, HasEntry hm2 k v ↔ HasEntry hm k v := by
  have hcap := hm_init_cap_of_pow n hn
  have hsize : hm.size = hm.slots.countP (fun s => decide (s.state = SlotState.SLOT_FILLED)) :=
    w.size_eq
  have hz : (hm_init (2 ^ n)).size = 0 := rfl
  obtain ⟨hm2, e, w2, t2, c2, s2, en⟩ := hm_rehash_loop_spec hm.slots (hm_init (2 ^ n))
    (wfcore_hm_init _) rfl (by rw [hcap, hz, ← hsize]; omega) (pairwise_slots w)
    (fun o _ _ v => hasEntry_hm_init _ _ v)
  refine ⟨hm2, e, w2, t2, by rw [c2, hcap], by rw [s2, hz, ← hsize]; omega, ?_⟩
  intro k v
  rw [en, hasEntry_iff_mem w]
  constructor
  · rintro (h | h)
    · exact absurd h (hasEntry_hm_init _ _ _)
    · exact h
  · exact fun h => Or.inr h

/-- Function `hm_maybe_grow` on a table within the occupancy bound: it ends, keeps the
entries and the live count, and leaves the table at most three quarters full. -/
theorem hm_maybe_grow_spec {hm : HashMap} (w : WF hm) :
    ∃ hm2, hm_maybe_grow hm = some hm2 ∧ WFcore hm2 ∧
      4 * (hm2.size + hm2.tombs) ≤ 3 * hm2.cap ∧ hm2.size = hm.size ∧
      (hm2.cap = hm.cap ∨ hm2.cap = 2 * hm.cap) ∧
      (∀ k v, HasEntry hm2 k v ↔ HasEntry hm k v) := by
  obtain ⟨n, hn, hc⟩ := w.core.pow
  have hc16 := cap_ge w.core
  have hl := w.load
  unfold hm_maybe_grow
  by_cases h1 : 4 * (hm.size + hm.tombs) > 3 * hm.cap
  · rw [if_pos h1]
    have e2 : hm.cap * 2 = 2 ^ (n + 1) := by rw [hc, pow_succ]
    rw [e2]
    obtain ⟨hm2, e, w2, t2, c2, s2, en⟩ := hm_rehash_spec w.core (n + 1) (by omega)
      (by rw [← e2]; omega)
    exact ⟨hm2, e, w2, by rw [t2, s2, c2, ← e2]; omega, s2,
      Or.inr (by rw [c2, ← e2]; omega), en⟩
  · rw [if_neg h1]
    by_cases h2 : hm.tombs > hm.size ∧ hm.tombs > 32
    · rw [if_pos h2]
      have e2 : hm.cap = 2 ^ n := hc
      rw [e2]
      obtain ⟨hm2, e, w2, t2, c2, s2, en⟩ := hm_rehash_spec w.core n hn (by rw [← e2]; omega)
      exact ⟨hm2, e, w2, by rw [t2, s2, c2, ← e2]; omega, s2, Or.inl (by rw [c2, ← e2]), en⟩
    · rw [if_neg h2]
      exact ⟨hm, rfl, w.core, by omega, rfl, Or.inl rfl, fun _ _ => Iff.rfl⟩

/-! ## `hm_put` -/

theorem wf_free {hm : HashMap} (w : WFcore hm) (hl : 4 * (hm.size + hm.tombs) ≤ 3 * hm.cap + 4) :
    hm.size + hm.tombs < hm.cap := by
  have := cap_ge w
  omega

/-- Function `hm_put` on a table satisfying the invariant: it returns, the invariant
holds afterwards, and the entries are the old ones with `key` bound to `value`. -/
theorem hm_put_spec {hm : HashMap} (w : WF hm) (key : Int) (value : Nat) :
    ∃ hm2, hm_put hm key value = some hm2 ∧ WF hm2 ∧
      (∀ k v, HasEntry hm2 k v ↔ (k = key ∧ v = value) ∨ (k ≠ key ∧ HasEntry hm k v)) ∧
      (hm2.cap = hm.cap ∨ hm2.cap = 2 * hm.cap) ∧
      ((∃ v, HasEntry hm key v) → hm2.size = hm.size) ∧
      ((∀ v, ¬ HasEntry hm key v) → hm2.size = hm.size + 1) := by
  obtain ⟨hm1, e1, w1, l1, s1, c1, en1⟩ := hm_maybe_grow_spec w
  obtain ⟨j, sz, tb, e2, hj, hpath, hold, hfresh, hsz, htb⟩ :=
    hm_put_loop_top w1 (wf_free w1 (by omega)) key value
  have w2 : WFcore (setSlot hm1 j ⟨key, value, SlotState.SLOT_FILLED⟩ sz tb) :=
    wfcore_setSlot w1 hj _ _ _ (fun h => SlotState.noConfusion h)
      (by rw [hsz]; rfl)
      (by rw [htb]; rfl)
      (fun _ => hpath) (fun _ => hfresh)
  have hfilled : (slotAt hm1 j).state = SlotState.SLOT_FILLED ↔ ∃ v, HasEntry hm key v := by
    constructor
    · intro hf
      exact ⟨_, (en1 _ _).1 ⟨j, hj, hf, hold hf, rfl⟩⟩
    · rintro ⟨v, hv⟩
      obtain ⟨i, hi, h1, h2, _⟩ := (en1 _ _).2 hv
      by_cases e : i = j
      · rw [← e]; exact h1
      · exact absurd h2 (hfresh i hi e h1)
  refine ⟨_, ?_, ⟨w2, ?_⟩, ?_, c1, ?_, ?_⟩
  · unfold hm_put
    rw [e1]
    exact e2
  · show 4 * (sz + tb) ≤ 3 * hm1.cap + 4
    have a : sz ≤ hm1.size + 1 := by omega
    have b : tb ≤ hm1.tombs := by omega
    by_cases hf : (slotAt hm1 j).state = SlotState.SLOT_FILLED
    · rw [if_pos hf] at hsz
      omega
    · rw [if_neg hf] at hsz
      by_cases ht : (slotAt hm1 j).state = SlotState.SLOT_TOMB
      · rw [if_pos ht] at htb; omega
      · rw [if_neg ht] at htb; omega
  · intro k v
    rw [hasEntry_setSlot_put w1 hj key value sz tb hold hfresh k v]
    constructor
    · rintro (h | ⟨h1, h2⟩)
      · exact Or.inl h
      · exact Or.inr ⟨h1, (en1 _ _).1 h2⟩
    · rintro (h | ⟨h1, h2⟩)
      · exact Or.inl h
      · exact Or.inr ⟨h1, (en1 _ _).2 h2⟩
  · intro hex
    rw [if_pos (hfilled.2 hex)] at hsz
    show sz = hm.size
    omega
  · intro hnone
    have : ¬ (slotAt hm1 j).state = SlotState.SLOT_FILLED :=
      fun hf => by
        obtain ⟨v, hv⟩ := hfilled.1 hf
        exact hnone v hv
    rw [if_neg this] at hsz
    show sz = hm.size + 1
    omega

theorem hm_put_get_self {hm hm2 : HashMap} (w2 : WF hm2) (key : Int) (value : Nat)
    (en : ∀ k v, HasEntry hm2 k v ↔ (k = key ∧ v = value) ∨ (k ≠ key ∧ HasEntry hm k v)) :
    hm_get hm2 key = some value :=
  (hm_get_eq_some_iff w2.core key value).2 ((en _ _).2 (Or.inl ⟨rfl, rfl⟩))

theorem hm_put_get_other {hm hm2 : HashMap} (w : WF hm) (w2 : WF hm2) (key : Int) (value : Nat)
    (en : ∀ k v, HasEntry hm2 k v ↔ (k = key ∧ v = value) ∨ (k ≠ key ∧ HasEntry hm k v))
    (k2 : Int) (hk : k2 ≠ key) : hm_get hm2 k2 = hm_get hm k2 := by
  apply hm_get_congr w.core w2.core
  intro v
  rw [en]
  constructor
  · rintro (⟨h, _⟩ | ⟨_, h⟩)
    · exact absurd h hk
    · exact h
  · exact fun h => Or.inr ⟨hk, h⟩

/-! ## `hm_remove` -/

/-- The step at which a stored key is met on its probe path; nothing before it stops a
probe for that key. -/
theorem entry_step {hm : HashMap} (w : WFcore hm) {i : Nat} (hi : i < hm.cap)
    (hf : (slotAt hm i).state = SlotState.SLOT_FILLED) :
    ∃ t, t < hm.cap ∧ probeIdx hm (slotAt hm i).key t = i ∧
      ∀ s, s < t →
        (slotAt hm (probeIdx hm (slotAt hm i).key s)).state ≠ SlotState.SLOT_EMPTY ∧
        ¬ ((slotAt hm (probeIdx hm (slotAt hm i).key s)).state = SlotState.SLOT_FILLED ∧
          (slotAt hm (probeIdx hm (slotAt hm i).key s)).key = (slotAt hm i).key) := by
  obtain ⟨t, ht, hidx, hpath⟩ := w.probe i hi hf
  refine ⟨t, ht, hidx, fun s hs => ⟨hpath s hs, ?_⟩⟩
  rintro ⟨q1, q2⟩
  have hsi := w.nodup _ _ (probeIdx_lt w _ s) hi q1 hf q2
  have : s = t := probe_inj _ hm.cap s t (by omega) ht (hsi.trans hidx.symm)
  omega

theorem hm_remove_loop_absent (hm : HashMap) (h mask : Nat) (key : Int)
    (g : Nat → HashSlot) (hg : ∀ s, hm.slots.getD ((h + s) &&& mask) default = g s) :
    ∀ (fuel step : Nat),
      (∀ t, step ≤ t → t < step + fuel →
        ¬ ((g t).state = SlotState.SLOT_FILLED ∧ (g t).key = key)) →
      hm_remove_loop hm h mask key step fuel = some (0, hm) := by
  intro fuel
  induction fuel with
  | zero => intro step _; rfl
  | succ fuel ih =>
    intro step hno
    simp only [hm_remove_loop, hg]
    by_cases he : (g step).state = SlotState.SLOT_EMPTY
    · rw [if_pos he]
    · rw [if_neg he, if_neg (hno step (le_refl _) (by omega))]
      exact ih (step + 1) (fun t a b => hno t (by omega) (by omega))

theorem hm_remove_loop_found (hm : HashMap) (h mask : Nat) (key : Int)
    (g : Nat → HashSlot) (hg : ∀ s, hm.slots.getD ((h + s) &&& mask) default = g s) :
    ∀ (fuel step e : Nat), step ≤ e → e < step + fuel →
      (∀ s, step ≤ s → s < e → (g s).state ≠ SlotState.SLOT_EMPTY ∧
        ¬ ((g s).state = SlotState.SLOT_FILLED ∧ (g s).key = key)) →
      (g e).state = SlotState.SLOT_FILLED → (g e).key = key →
      hm_remove_loop hm h mask key step fuel
        = match hm_maybe_grow (setSlot hm ((h + e) &&& mask)
            ⟨(g e).key, (g e).value, SlotState.SLOT_TOMB⟩ (hm.size - 1) (hm.tombs + 1)) with
          | none => none
          | some hm2 => some (1, hm2) := by
  intro fuel
  induction fuel with
  | zero => intro step e h1 h2; omega
  | succ fuel ih =>
    intro step e h1 h2 hpre hf hk
    simp only [hm_remove_loop, hg]
    by_cases hse : step = e
    · subst hse
      rw [if_neg (by rw [hf]; decide), if_pos ⟨hf, hk⟩]
      rfl
    · obtain ⟨p1, p2⟩ := hpre step (le_refl _) (by omega)
      rw [if_neg p1, if_neg p2]
      exact ih (step + 1) e (by omega) (by omega) (fun s a b => hpre s (by omega) b) hf hk

/-- Turning the slot of a stored key into a tombstone. -/
theorem wf_tomb {hm : HashMap} (w : WF hm) {i : Nat} (hi : i < hm.cap)
    (hf : (slotAt hm i).state = SlotState.SLOT_FILLED) :
    WF (setSlot hm i ⟨(slotAt hm i).key, (slotAt hm i).value, SlotState.SLOT_TOMB⟩
        (hm.size - 1) (hm.tombs + 1)) ∧
      ∀ k v, HasEntry (setSlot hm i ⟨(slotAt hm i).key, (slotAt hm i).value,
          SlotState.SLOT_TOMB⟩ (hm.size - 1) (hm.tombs + 1)) k v ↔
        (k ≠ (slotAt hm i).key ∧ HasEntry hm k v) := by
  have hpos := countState_pos w.core hi _ hf
  have hse := w.core.size_eq
  have hl := w.load
  refine ⟨⟨?_, ?_⟩, ?_⟩
  · refine wfcore_setSlot w.core hi _ _ _ (fun h => SlotState.noConfusion h) ?_ ?_
      (fun h => SlotState.noConfusion h) (fun h => SlotState.noConfusion h)
    · rw [if_pos hf]
      show hm.size - 1 + 1 = hm.size + 0
      omega
    · rw [if_neg (by rw [hf]; decide)]
      rfl
  · show 4 * (hm.size - 1 + (hm.tombs + 1)) ≤ 3 * hm.cap + 4
    omega
  · intro k v
    rw [hasEntry_setSlot w.core hi]
    constructor
    · rintro (⟨h, _⟩ | ⟨i2, hi2, hne, h1, h2, h3⟩)
      · exact SlotState.noConfusion h
      · refine ⟨?_, i2, hi2, h1, h2, h3⟩
        intro hk
        exact hne (w.core.nodup i2 i hi2 hi h1 hf (by rw [h2, hk]))
    · rintro ⟨hk, i2, hi2, h1, h2, h3⟩
      refine Or.inr ⟨i2, hi2, ?_, h1, h2, h3⟩
      intro e
      rw [e] at h2
      exact hk h2.symm

/-- Function `hm_remove` on a table satisfying the invariant. -/
theorem hm_remove_spec {hm : HashMap} (w : WF hm) (key : Int) :
    ∃ r hm2, hm_remove hm key = some (r, hm2) ∧ WF hm2 ∧
      (hm2.cap = hm.cap ∨ hm2.cap = 2 * hm.cap) ∧
      ((∃ v, HasEntry hm key v) → r = 1 ∧ hm2.size + 1 = hm.size ∧
        4 * (hm2.size + hm2.tombs) ≤ 3 * hm2.cap ∧
        ∀ k v, HasEntry hm2 k v ↔ (k ≠ key ∧ HasEntry hm k v)) ∧
      ((∀ v, ¬ HasEntry hm key v) → r = 0 ∧ hm2 = hm) := by
  have hc := cap_ge w.core
  have hne : hm.cap ≠ 0 := by omega
  by_cases hex : ∃ v, HasEntry hm key v
  · obtain ⟨v, i, hi, hf, hk, hv⟩ := hex
    obtain ⟨t, ht, hidx, hpre⟩ := entry_step w.core hi hf
    rw [hk] at hidx hpre
    have hloop := hm_remove_loop_found hm (keyHash key) (hm.cap - 1) key
      (fun s => slotAt hm (probeIdx hm key s)) (probe_slot_eq w.core key)
      hm.cap 0 t (Nat.zero_le _) (by omega) (fun s _ hs => hpre s hs)
      (by show (slotAt hm (probeIdx hm key t)).state = _; rw [hidx]; exact hf)
      (by show (slotAt hm (probeIdx hm key t)).key = _; rw [hidx]; exact hk)
    simp only [mask_mod w.core] at hloop
    have hidx2 : (keyHash key + t) % hm.cap = i := hidx
    rw [hidx2, hidx] at hloop
    obtain ⟨wt, ent⟩ := wf_tomb w hi hf
    obtain ⟨hm2, e2, w2, l2, s2, c2, en2⟩ := hm_maybe_grow_spec wt
    rw [e2] at hloop
    have hpos := countState_pos w.core hi _ hf
    have hse := w.core.size_eq
    refine ⟨1, hm2, ?_, ⟨w2, by omega⟩, c2, ?_, ?_⟩
    · unfold hm_remove
      rw [if_neg hne]
      exact hloop
    · intro _
      refine ⟨rfl, ?_, l2, ?_⟩
      · rw [s2]
        show hm.size - 1 + 1 = hm.size
        omega
      · intro k2 v2
        rw [en2, ent, hk]
    · intro hnone
      exact absurd ⟨i, hi, hf, hk, hv⟩ (hnone v)
  · have hnone : ∀ v, ¬ HasEntry hm key v := fun v hv => hex ⟨v, hv⟩
    have hloop := hm_remove_loop_absent hm (keyHash key) (hm.cap - 1) key
      (fun s => slotAt hm (probeIdx hm key s)) (probe_slot_eq w.core key) hm.cap 0
      (fun t _ _ ⟨h1, h2⟩ => hnone _ ⟨_, probeIdx_lt w.core key t, h1, h2, rfl⟩)
    refine ⟨0, hm, ?_, w, Or.inl rfl, fun h => absurd h hex, fun _ => ⟨rfl, rfl⟩⟩
    unfold hm_remove
    rw [if_neg hne]
    exact hloop

/-! ## Reachable tables -/

theorem wf_of_reachable {hm : HashMap} (hr : Reachable hm) : WF hm := by
  induction hr with
  | init c => exact wf_hm_init c
  | put key value _ e ih =>
    obtain ⟨hm3, e3, w3, _⟩ := hm_put_spec ih key value
    rw [e] at e3
    rw [Option.some.inj e3]
    exact w3
  | remove key r _ e ih =>
    obtain ⟨r3, hm3, e3, w3, _⟩ := hm_remove_spec ih key
    rw [e] at e3
    have := Option.some.inj e3
    rw [(Prod.mk.inj this).2]
    exact w3

theorem reachable_putSeq : ∀ (l : List (Int × Nat)) (hm : HashMap), putSeq l = some hm →
    Reachable hm := by
  intro l
  induction l with
  | nil =>
    intro hm h
    rw [← Option.some.inj h]
    exact Reachable.init 16
  | cons kv earlier ih =>
    intro hm h
    simp only [putSeq] at h
    cases e : putSeq earlier with
    | none => rw [e] at h; exact Option.noConfusion h
    | some hm0 =>
      rw [e] at h
      exact Reachable.put kv.1 kv.2 (ih hm0 e) h

theorem reachable_tableOne : Reachable tableOne :=
  Reachable.put 1 0 (Reachable.init 16) (by decide)

theorem reachable_tableGone : Reachable tableGone :=
  Reachable.remove 1 1 reachable_tableOne (by decide)

theorem reachable_tableTwelve : Reachable tableTwelve :=
  reachable_putSeq twelveKeys tableTwelve (by decide)

/-! ## Claims about the index -/

/-- C3: on every table reachable from `hm_init` by `hm_put` and `hm_remove`, the call
`hm_put (k, v)` returns; afterwards `hm_get k` succeeds with `v`, and for every other key
`hm_get` gives the same result (found or not, and the value) as before the put. -/
theorem hm_put_then_get (hm : HashMap) (hr : Reachable hm) (k : Int) (v : Nat) :
    ∃ hm2, hm_put hm k v = some hm2 ∧ hm_get hm2 k = some v ∧
      ∀ k2, k2 ≠ k → hm_get hm2 k2 = hm_get hm k2 := by
  have w := wf_of_reachable hr
  obtain ⟨hm2, e, w2, en, _⟩ := hm_put_spec w k v
  exact ⟨hm2, e, hm_put_get_self w2 k v en, fun k2 hk => hm_put_get_other w w2 k v en k2 hk⟩

/-- Witness for C3: a put that recycles the tombstone left by a removal. -/
theorem hm_put_then_get_witness :
    Reachable tableGone ∧
      ∃ hm2, hm_put tableGone 1 5 = some hm2 ∧ hm_get hm2 1 = some 5 ∧
        ∀ k2, k2 ≠ 1 → hm_get hm2 k2 = hm_get tableGone k2 :=
  ⟨reachable_tableGone, hm_put_then_get tableGone reachable_tableGone 1 5⟩

/-- C4: on every reachable table `hm_remove k` returns `1` exactly when `hm_get k` would
have succeeded (and `0` otherwise); when it returns `1` the live count is one less,
`hm_get k` fails afterwards and `hm_get` of every other key is unchanged; when it returns
`0` the table is unchanged. -/
theorem hm_remove_correct (hm : HashMap) (hr : Reachable hm) (k : Int) :
    ∃ r hm2, hm_remove hm k = some (r, hm2) ∧ (r = 0 ∨ r = 1) ∧
      (r = 1 ↔ ∃ v, hm_get hm k = some v) ∧
      (r = 1 → hm2.size + 1 = hm.size ∧ hm_get hm2 k = none ∧
        ∀ k2, k2 ≠ k → hm_get hm2 k2 = hm_get hm k2) ∧
      (r = 0 → hm2 = hm) := by
  have w := wf_of_reachable hr
  obtain ⟨r, hm2, e, w2, _, hyes, hno⟩ := hm_remove_spec w k
  refine ⟨r, hm2, e, ?_⟩
  by_cases hex : ∃ v, HasEntry hm k v
  · obtain ⟨hr1, hs, _, en⟩ := hyes hex
    obtain ⟨v, hv⟩ := hex
    refine ⟨Or.inr hr1, ⟨fun _ => ⟨v, (hm_get_eq_some_iff w.core k v).2 hv⟩, fun _ => hr1⟩,
      fun _ => ⟨hs, ?_, ?_⟩, fun h0 => ?_⟩
    · rw [hm_get_eq_none_iff w2.core]
      intro v2 hv2
      exact ((en _ _).1 hv2).1 rfl
    · intro k2 hk2
      apply hm_get_congr w.core w2.core
      intro v2
      rw [en]
      exact ⟨fun h => h.2, fun h => ⟨hk2, h⟩⟩
    · rw [hr1] at h0
      exact absurd h0 (by decide)
  · have hnone : ∀ v, ¬ HasEntry hm k v := fun v hv => hex ⟨v, hv⟩
    obtain ⟨hr0, he⟩ := hno hnone
    refine ⟨Or.inl hr0, ⟨fun h1 => ?_, fun ⟨v, hv⟩ => ?_⟩, fun h1 => ?_, fun _ => he⟩
    · rw [hr0] at h1; exact absurd h1 (by decide)
    · exact absurd ((hm_get_eq_some_iff w.core k v).1 hv) (hnone v)
    · rw [hr0] at h1; exact absurd h1 (by decide)

/-- Witness for C4: removing the only key of a one-entry table. -/
theorem hm_remove_correct_witness :
    Reachable tableOne ∧
      ∃ r hm2, hm_remove tableOne 1 = some (r, hm2) ∧ (r = 0 ∨ r = 1) ∧
        (r = 1 ↔ ∃ v, hm_get tableOne 1 = some v) ∧
        (r = 1 → hm2.size + 1 = tableOne.size ∧ hm_get hm2 1 = none ∧
          ∀ k2, k2 ≠ 1 → hm_get hm2 k2 = hm_get tableOne k2) ∧
        (r = 0 → hm2 = tableOne) :=
  ⟨reachable_tableOne, hm_remove_correct tableOne reachable_tableOne 1⟩

/-- C9 as stated fails: after thirteen puts of distinct keys into a fresh table of
capacity 16 the table still has capacity 16 and holds 13 entries, so
`(size + tombs) / cap = 13 / 16 > 0.75` immediately after the thirteenth `hm_put`. -/
theorem load_after_put_counterexample :
    Reachable tableTwelve ∧ hm_put tableTwelve 13 12 = some tableThirteen ∧
      tableThirteen.cap = 16 ∧ tableThirteen.size = 13 ∧ tableThirteen.tombs = 0 ∧
      ¬ (4 * (tableThirteen.size + tableThirteen.tombs) ≤ 3 * tableThirteen.cap) :=
  ⟨reachable_tableTwelve, by decide, by decide, by decide, by decide, by decide⟩

/-- C9 (amended): `hm_put` checks the load before it inserts, so immediately after any
`hm_put` on a reachable table the occupancy exceeds three quarters of the capacity by at
most one entry: `4 * (size + tombs) ≤ 3 * cap + 4`. -/
theorem load_after_put (hm : HashMap) (hr : Reachable hm) (k : Int) (v : Nat) :
    ∃ hm2, hm_put hm k v = some hm2 ∧ 4 * (hm2.size + hm2.tombs) ≤ 3 * hm2.cap + 4 := by
  obtain ⟨hm2, e, w2, _⟩ := hm_put_spec (wf_of_reachable hr) k v
  exact ⟨hm2, e, w2.load⟩

/-- Witness for C9 (amended): the thirteenth put into a table of capacity 16. -/
theorem load_after_put_witness :
    Reachable tableTwelve ∧
      ∃ hm2, hm_put tableTwelve 13 12 = some hm2 ∧
        4 * (hm2.size + hm2.tombs) ≤ 3 * hm2.cap + 4 :=
  ⟨reachable_tableTwelve, load_after_put tableTwelve reachable_tableTwelve 13 12⟩

/-- C10: immediately after an `hm_remove` that removed an entry (returned `1`) from a
reachable table, `4 * (size + tombs) ≤ 3 * cap`, that is the ratio is at most 0.75. -/
theorem load_after_remove (hm : HashMap) (hr : Reachable hm) (k : Int) (hm2 : HashMap)
    (h : hm_remove hm k = some (1, hm2)) :
    4 * (hm2.size + hm2.tombs) ≤ 3 * hm2.cap := by
  obtain ⟨r, hm3, e, _, _, hyes, hno⟩ := hm_remove_spec (wf_of_reachable hr) k
  rw [h] at e
  have e2 := Prod.mk.inj (Option.some.inj e)
  by_cases hex : ∃ v, HasEntry hm k v
  · rw [e2.2]
    exact (hyes hex).2.2.1
  · have := (hno (fun v hv => hex ⟨v, hv⟩)).1
    rw [← e2.1] at this
    exact absurd this (by decide)

/-- Witness for C10: removing the only key of a one-entry table. -/
theorem load_after_remove_witness :
    Reachable tableOne ∧ hm_remove tableOne 1 = some (1, tableGone) ∧
      4 * (tableGone.size + tableGone.tombs) ≤ 3 * tableGone.cap :=
  ⟨reachable_tableOne, by decide,
    load_after_remove tableOne reachable_tableOne 1 tableGone (by decide)⟩

/-! ## Record store -/

theorem getD_append_replicate {α : Type} (l : List α) (n p : Nat) (d : α) :
    (l ++ List.replicate n d).getD p d = l.getD p d := by
  induction l generalizing p with
  | nil => exact getD_replicate_default n p d
  | cons x xs ih =>
    cases p with
    | zero => rfl
    | succ p => exact ih p

theorem db_ensure_loop_spec (need : Nat) : ∀ (fuel c : Nat), need ≤ c * 2 ^ fuel →
    need ≤ db_ensure_loop need fuel c ∧ c ≤ db_ensure_loop need fuel c := by
  intro fuel
  induction fuel with
  | zero => intro c h; exact ⟨by simpa [db_ensure_loop] using h, le_refl _⟩
  | succ f ih =>
    intro c h
    simp only [db_ensure_loop]
    by_cases hlt : c < need
    · rw [if_pos hlt]
      obtain ⟨a, b⟩ := ih (c * 2) (by rw [pow_succ] at h; linarith)
      exact ⟨a, by omega⟩
    · rw [if_neg hlt]
      exact ⟨by omega, le_refl _⟩

/-- Function `db_ensure` keeps every record and makes room for `need` records. -/
theorem db_ensure_spec (db : MovieDB) (need : Nat) (hlen : db.data.length = db.cap) :
    need ≤ (db_ensure db need).cap ∧ db.cap ≤ (db_ensure db need).cap ∧
      (db_ensure db need).data.length = (db_ensure db need).cap ∧
      (∀ p, recAt (db_ensure db need) p = recAt db p) ∧
      (db_ensure db need).size = db.size ∧ (db_ensure db need).next_id = db.next_id ∧
      (db_ensure db need).index = db.index := by
  unfold db_ensure
  by_cases h : db.cap ≥ need
  · rw [if_pos h]
    exact ⟨h, le_refl _, hlen, fun _ => rfl, rfl, rfl, rfl⟩
  · rw [if_neg h]
    have hc : 1 ≤ (if db.cap = 0 then 8 else db.cap * 2) ∧
        db.cap ≤ (if db.cap = 0 then 8 else db.cap * 2) := by
      split_ifs <;> omega
    obtain ⟨a, b⟩ := db_ensure_loop_spec need need (if db.cap = 0 then 8 else db.cap * 2) (by
      have h1 : need ≤ 2 ^ need := le_of_lt (Nat.lt_two_pow need)
      calc need ≤ 1 * 2 ^ need := by omega
        _ ≤ _ := Nat.mul_le_mul_right _ hc.1)
    refine ⟨a, le_trans hc.2 b, ?_, fun p => getD_append_replicate _ _ _ _, rfl, rfl, rfl⟩
    show (db.data ++ List.replicate _ default).length = _
    simp only [List.length_append, List.length_replicate]
    omega

theorem recAt_set_self (db : MovieDB) (p : Nat) (m : Movie) (hp : p < db.data.length) :
    (db.data.set p m).getD p default = m :=
  getD_set_self _ _ _ _ hp

theorem recAt_set_ne (db : MovieDB) (p q : Nat) (m : Movie) (h : p ≠ q) :
    (db.data.set p m).getD q default = recAt db q :=
  getD_set_ne _ _ _ _ _ h

/-- Function `db_find_by_id` on a consistent store finds exactly the live record with the
identifier. -/
theorem db_find_eq_some_iff {db : MovieDB} (inv : DBInv db) (id : Int) (r : Movie) :
    db_find_by_id db id = some r ↔ ∃ p, p < db.size ∧ recAt db p = r ∧ r.id = id := by
  unfold db_find_by_id
  constructor
  · intro h
    cases hg : hm_get db.index id with
    | none => rw [hg] at h; exact Option.noConfusion h
    | some idx =>
      rw [hg] at h
      obtain ⟨hlt, hid⟩ := inv.fwd _ _ ((hm_get_eq_some_iff inv.wf.core _ _).1 hg)
      simp only [if_neg (show ¬ idx ≥ db.size by omega)] at h
      have e := Option.some.inj h
      exact ⟨idx, hlt, e, by rw [← e]; exact hid⟩
  · rintro ⟨p, hp, e, hid⟩
    have he := inv.bwd p hp
    rw [e, hid] at he
    rw [(hm_get_eq_some_iff inv.wf.core _ _).2 he]
    simp only [if_neg (show ¬ p ≥ db.size by omega)]
    exact congrArg some e

theorem db_find_eq_none_iff {db : MovieDB} (inv : DBInv db) (id : Int) :
    db_find_by_id db id = none ↔ ∀ p, p < db.size → (recAt db p).id ≠ id := by
  constructor
  · intro h p hp hid
    have := (db_find_eq_some_iff inv id (recAt db p)).2 ⟨p, hp, rfl, hid⟩
    rw [this] at h
    exact Option.noConfusion h
  · intro h
    cases hf : db_find_by_id db id with
    | none => rfl
    | some r =>
      obtain ⟨p, hp, e, hid⟩ := (db_find_eq_some_iff inv id r).1 hf
      rw [← e] at hid
      exact absurd hid (h p hp)

/-- Two consistent stores with the same live records answer every lookup alike. -/
theorem db_find_congr {db db2 : MovieDB} (inv : DBInv db) (inv2 : DBInv db2) (id : Int)
    (h : ∀ r, (∃ p, p < db2.size ∧ recAt db2 p = r ∧ r.id = id) ↔
      (∃ p, p < db.size ∧ recAt db p = r ∧ r.id = id)) :
    db_find_by_id db2 id = db_find_by_id db id := by
  cases hf : db_find_by_id db id with
  | none =>
    rw [db_find_eq_none_iff inv] at hf
    rw [db_find_eq_none_iff inv2]
    intro p hp hid
    obtain ⟨q, hq, e, _⟩ := (h (recAt db2 p)).1 ⟨p, hp, rfl, hid⟩
    exact hf q hq (by rw [e]; exact hid)
  | some r =>
    rw [db_find_eq_some_iff inv] at hf
    rw [db_find_eq_some_iff inv2]
    exact (h r).2 hf

/-- Function `db_add` of a record whose identifier is not in the store. -/
theorem db_add_spec {db : MovieDB} (inv : DBInv db) (m : Movie)
    (hfresh : ∀ p, p < db.size → (recAt db p).id ≠ m.id) :
    ∃ db2, db_add db m = some db2 ∧ DBInv db2 ∧ db2.size = db.size + 1 ∧
      db2.next_id = db.next_id ∧ recAt db2 db.size = m ∧
      (∀ p, p < db.size → recAt db2 p = recAt db p) ∧
      (∀ k v, HasEntry db2.index k v ↔
        (k = m.id ∧ v = db.size) ∨ (k ≠ m.id ∧ HasEntry db.index k v)) := by
  obtain ⟨c1, _, hlen1, hrec, hs, hn, hi⟩ := db_ensure_spec db (db.size + 1) inv.len
  obtain ⟨ix, e, wix, en, _⟩ := hm_put_spec inv.wf m.id db.size
  have hset_self : ((db_ensure db (db.size + 1)).data.set db.size m).getD db.size default = m :=
    getD_set_self _ _ _ _ (by rw [hlen1]; omega)
  have hset_ne : ∀ p, p ≠ db.size →
      ((db_ensure db (db.size + 1)).data.set db.size m).getD p default = recAt db p := by
    intro p hp
    rw [getD_set_ne _ _ _ _ _ (fun h => hp h.symm)]
    exact hrec p
  refine ⟨{ (db_ensure db (db.size + 1)) with
      data := (db_ensure db (db.size + 1)).data.set db.size m, index := ix,
      size := db.size + 1 }, ?_, ⟨wix, ?_, ?_, ?_, ?_⟩, rfl, hn, hset_self,
      fun p hp => hset_ne p (by omega), en⟩
  · simp only [db_add, hi, hs, e]
  · show ((db_ensure db (db.size + 1)).data.set db.size m).length = _
    rw [List.length_set]
    exact hlen1
  · exact c1
  · intro k p hkp
    show p < db.size + 1 ∧
      (((db_ensure db (db.size + 1)).data.set db.size m).getD p default).id = k
    rcases (en k p).1 hkp with ⟨hk, hp⟩ | ⟨_, hold⟩
    · rw [hp, hset_self, hk]
      exact ⟨by omega, rfl⟩
    · obtain ⟨a, b⟩ := inv.fwd k p hold
      rw [hset_ne p (by omega)]
      exact ⟨by omega, b⟩
  · intro p hp
    show HasEntry ix (((db_ensure db (db.size + 1)).data.set db.size m).getD p default).id p
    by_cases hps : p = db.size
    · rw [hps, hset_self]
      exact (en _ _).2 (Or.inl ⟨rfl, rfl⟩)
    · have hlt : p < db.size := by
        have : p < db.size + 1 := hp
        omega
      rw [hset_ne p hps]
      exact (en _ _).2 (Or.inr ⟨hfresh p hlt, inv.bwd p hlt⟩)

/-- Live records of a consistent store have pairwise distinct identifiers. -/
theorem live_ids_distinct {db : MovieDB} (inv : DBInv db) {p q : Nat} (hp : p < db.size)
    (hq : q < db.size) (h : (recAt db p).id = (recAt db q).id) : p = q := by
  have a := inv.bwd p hp
  have b := inv.bwd q hq
  rw [h] at a
  exact hasEntry_unique inv.wf.core a b

theorem hm_get_of_live {db : MovieDB} (inv : DBInv db) {p : Nat} (hp : p < db.size) :
    hm_get db.index (recAt db p).id = some p :=
  (hm_get_eq_some_iff inv.wf.core _ _).2 (inv.bwd p hp)

/-- Function `db_delete_by_id` of an identifier that no live record carries. -/
theorem db_delete_absent {db : MovieDB} (inv : DBInv db) (id : Int)
    (h : ∀ p, p < db.size → (recAt db p).id ≠ id) :
    db_delete_by_id db id = some (0, db) := by
  have hg : hm_get db.index id = none := by
    rw [hm_get_eq_none_iff inv.wf.core]
    intro v hv
    obtain ⟨a, b⟩ := inv.fwd _ _ hv
    exact h v a b
  simp only [db_delete_by_id, hg]

/-- Function `db_delete_by_id` of the identifier of the live record at position `p`. -/
theorem db_delete_present {db : MovieDB} (inv : DBInv db) (id : Int) (p : Nat)
    (hp : p < db.size) (hid : (recAt db p).id = id) :
    ∃ db2, db_delete_by_id db id = some (1, db2) ∧ DBInv db2 ∧ db2.size + 1 = db.size ∧
      db2.next_id = db.next_id ∧
      recAt db2 p = recAt db (db.size - 1) ∧ (∀ q, q ≠ p → recAt db2 q = recAt db q) ∧
      (∀ k v, HasEntry db2.index k v ↔
        (k ≠ id ∧ ((k = (recAt db (db.size - 1)).id ∧ v = p) ∨
          (k ≠ (recAt db (db.size - 1)).id ∧ HasEntry db.index k v)))) := by
  have he : HasEntry db.index id p := by
    have := inv.bwd p hp
    rw [hid] at this
    exact this
  have hg : hm_get db.index id = some p := (hm_get_eq_some_iff inv.wf.core _ _).2 he
  obtain ⟨r, ix1, e1, w1, _, hyes, _⟩ := hm_remove_spec inv.wf id
  obtain ⟨hr, _, _, en1⟩ := hyes ⟨p, he⟩
  subst hr
  have hlast : db.size - 1 < db.size := by omega
  by_cases hpl : p = db.size - 1
  · refine ⟨{ db with index := ix1, size := db.size - 1 }, ?_,
      ⟨w1, inv.len, ?_, ?_, ?_⟩, ?_, rfl, ?_, fun _ _ => rfl, ?_⟩
    · simp only [db_delete_by_id, hg, e1]
      rw [if_neg (by simpa using hpl)]
    · have := inv.size_le
      show db.size - 1 ≤ db.cap
      omega
    · intro k v hkv
      obtain ⟨hk, hold⟩ := (en1 k v).1 hkv
      obtain ⟨a, b⟩ := inv.fwd k v hold
      refine ⟨?_, b⟩
      show v < db.size - 1
      have : v ≠ p := by
        intro e
        rw [e, hid] at b
        exact hk b.symm
      omega
    · intro q hq
      have hq1 : q < db.size - 1 := hq
      have hq2 : q < db.size := by omega
      refine (en1 _ _).2 ⟨?_, inv.bwd q hq2⟩
      intro e
      have : q = p := live_ids_distinct inv hq2 hp (by show (recAt db q).id = _; rw [hid]; exact e)
      omega
    · show db.size - 1 + 1 = db.size
      omega
    · show recAt db p = _
      rw [hpl]
    · intro k v
      rw [en1]
      have hm : (recAt db (db.size - 1)).id = id := by rw [← hpl]; exact hid
      rw [hm]
      constructor
      · rintro ⟨a, b⟩
        exact ⟨a, Or.inr ⟨a, b⟩⟩
      · rintro ⟨a, ⟨b, _⟩ | ⟨_, b⟩⟩
        · exact absurd b a
        · exact ⟨a, b⟩
  · have hmk : (recAt db (db.size - 1)).id ≠ id := by
      intro e
      exact hpl (live_ids_distinct inv hp hlast (by rw [hid, e]))
    obtain ⟨ix2, e2, w2, en2, _⟩ := hm_put_spec w1 (recAt db (db.size - 1)).id p
    have hplen : p < db.data.length := by
      rw [inv.len]
      exact lt_of_lt_of_le hp inv.size_le
    have hself : (db.data.set p (recAt db (db.size - 1))).getD p default
        = recAt db (db.size - 1) := getD_set_self _ _ _ _ hplen
    have hne : ∀ q, q ≠ p → (db.data.set p (recAt db (db.size - 1))).getD q default
        = recAt db q := fun q hq => getD_set_ne _ _ _ _ _ (fun h => hq h.symm)
    refine ⟨{ db with
        data := db.data.set p (recAt db (db.size - 1))
        index := ix2
        size := db.size - 1 }, ?_, ⟨w2, ?_, ?_, ?_, ?_⟩, ?_, rfl, hself, hne, ?_⟩
    · simp only [db_delete_by_id, hg, e1]
      rw [if_pos (by simpa using hpl)]
      have : db.data.getD (db.size - 1) default = recAt db (db.size - 1) := rfl
      simp only [this, e2]
    · show (db.data.set p _).length = db.cap
      rw [List.length_set]
      exact inv.len
    · have := inv.size_le
      show db.size - 1 ≤ db.cap
      omega
    · intro k v hkv
      show v < db.size - 1 ∧ ((db.data.set p (recAt db (db.size - 1))).getD v default).id = k
      rcases (en2 k v).1 hkv with ⟨hk, hv⟩ | ⟨hk, hold1⟩
      · rw [hv, hself, hk]
        exact ⟨by omega, rfl⟩
      · obtain ⟨hk2, hold⟩ := (en1 k v).1 hold1
        obtain ⟨a, b⟩ := inv.fwd k v hold
        have h1 : v ≠ p := by
          intro e
          rw [e, hid] at b
          exact hk2 b.symm
        have h2 : v ≠ db.size - 1 := by
          intro e
          rw [e] at b
          exact hk b.symm
        rw [hne v h1]
        exact ⟨by omega, b⟩
    · intro q hq
      show HasEntry ix2 ((db.data.set p (recAt db (db.size - 1))).getD q default).id q
      have hq1 : q < db.size - 1 := hq
      have hq2 : q < db.size := by omega
      by_cases hqp : q = p
      · rw [hqp, hself]
        exact (en2 _ _).2 (Or.inl ⟨rfl, rfl⟩)
      · rw [hne q hqp]
        refine (en2 _ _).2 (Or.inr ⟨?_, (en1 _ _).2 ⟨?_, inv.bwd q hq2⟩⟩)
        · intro e
          have : q = db.size - 1 := live_ids_distinct inv hq2 hlast e
          omega
        · intro e
          exact hqp (live_ids_distinct inv hq2 hp (by rw [hid]; exact e))
    · show db.size - 1 + 1 = db.size
      omega
    · intro k v
      rw [en2]
      constructor
      · rintro (⟨a, b⟩ | ⟨a, b⟩)
        · exact ⟨by rw [a]; exact hmk, Or.inl ⟨a, b⟩⟩
        · obtain ⟨c, d⟩ := (en1 _ _).1 b
          exact ⟨c, Or.inr ⟨a, d⟩⟩
      · rintro ⟨a, ⟨b, c⟩ | ⟨b, c⟩⟩
        · exact Or.inl ⟨b, c⟩
        · exact Or.inr ⟨b, (en1 _ _).2 ⟨a, c⟩⟩

/-! ## `ui_add` and `db_delete_by_id` on consistent stores -/

theorem wrap_int32_of_range (x : Int) (h1 : -2 ^ 31 ≤ x) (h2 : x < 2 ^ 31) :
    wrap_int32 x = x := by
  unfold wrap_int32
  omega

/-- The first `2 ^ 32` values of `next_id++` are pairwise distinct. -/
theorem wrap_int32_fresh (j c : Nat) (h1 : 1 ≤ j) (h2 : j ≤ c) (h3 : c < 2 ^ 32) :
    wrap_int32 (j : Int) ≠ wrap_int32 ((c : Int) + 1) := by
  unfold wrap_int32
  omega

theorem wrap_int32_succ (x : Int) : wrap_int32 (wrap_int32 x + 1) = wrap_int32 (x + 1) := by
  unfold wrap_int32
  omega

/-- Function `db_add` on a consistent store, whatever identifiers are live: the call
returns and the lookup of the identifier of `m` finds `m`. -/
theorem db_add_find_self {db : MovieDB} (inv : DBInv db) (m : Movie) :
    ∃ db2, db_add db m = some db2 ∧ db_find_by_id db2 m.id = some m := by
  obtain ⟨c1, _, hlen1, hrec, hs, hn, hi⟩ := db_ensure_spec db (db.size + 1) inv.len
  obtain ⟨ix, e, wix, en, _⟩ := hm_put_spec inv.wf m.id db.size
  have hset_self : ((db_ensure db (db.size + 1)).data.set db.size m).getD db.size default = m :=
    getD_set_self _ _ _ _ (by rw [hlen1]; omega)
  have hg : hm_get ix m.id = some db.size := hm_put_get_self wix m.id db.size en
  refine ⟨{ (db_ensure db (db.size + 1)) with
      data := (db_ensure db (db.size + 1)).data.set db.size m, index := ix,
      size := db.size + 1 }, ?_, ?_⟩
  · simp only [db_add, hi, hs, e]
  · simp only [db_find_by_id, hg]
    rw [if_neg (by omega), hset_self]

/-- Function `ui_add` on a consistent store none of whose records carries `next_id`. -/
theorem ui_add_spec {db : MovieDB} (inv : DBInv db)
    (hfresh : ∀ p, p < db.size → (recAt db p).id ≠ db.next_id) (m : Movie) :
    ∃ db2, ui_add db m = some db2 ∧ DBInv db2 ∧
      db2.size = db.size + 1 ∧ db2.next_id = wrap_int32 (db.next_id + 1) ∧
      recAt db2 db.size = { m with id := db.next_id } ∧
      (∀ p, p < db.size → recAt db2 p = recAt db p) := by
  have inv1 : DBInv { db with next_id := wrap_int32 (db.next_id + 1) } :=
    ⟨inv.wf, inv.len, inv.size_le, inv.fwd, inv.bwd⟩
  obtain ⟨db2, e, inv2, hs0, hn0, hnew0, hold0, _⟩ :=
    db_add_spec inv1 { m with id := db.next_id } hfresh
  exact ⟨db2, e, inv2, hs0, hn0, hnew0, hold0⟩

/-- Function `ui_add` on a consistent store, whatever identifiers are live: the call
returns and the lookup of the identifier handed out finds the new record. -/
theorem ui_add_find_self {db : MovieDB} (inv : DBInv db) (m : Movie) :
    ∃ db2, ui_add db m = some db2 ∧
      db_find_by_id db2 db.next_id = some { m with id := db.next_id } := by
  have inv1 : DBInv { db with next_id := wrap_int32 (db.next_id + 1) } :=
    ⟨inv.wf, inv.len, inv.size_le, inv.fwd, inv.bwd⟩
  exact db_add_find_self inv1 { m with id := db.next_id }

/-- Lookups after `ui_add`: the new identifier finds the new record, every other lookup
is as before. -/
theorem find_after_add {db db2 : MovieDB} (inv : DBInv db)
    (inv2 : DBInv db2) (m : Movie) (hs : db2.size = db.size + 1)
    (hnew : recAt db2 db.size = { m with id := db.next_id })
    (hold : ∀ p, p < db.size → recAt db2 p = recAt db p) (id : Int) :
    db_find_by_id db2 id
      = if id = db.next_id then some { m with id := db.next_id } else db_find_by_id db id := by
  by_cases hid : id = db.next_id
  · rw [if_pos hid, db_find_eq_some_iff inv2]
    exact ⟨db.size, by omega, hnew, hid.symm⟩
  · rw [if_neg hid]
    apply db_find_congr inv inv2
    intro r
    constructor
    · rintro ⟨p, hp, e, hr⟩
      by_cases hps : p = db.size
      · rw [hps, hnew] at e
        rw [← e] at hr
        exact absurd hr.symm hid
      · have hlt : p < db.size := by omega
        exact ⟨p, hlt, by rw [← hold p hlt]; exact e, hr⟩
    · rintro ⟨p, hp, e, hr⟩
      exact ⟨p, by omega, by rw [hold p hp]; exact e, hr⟩

/-- Lookups after a successful `db_delete_by_id`: the identifier is gone, every other
lookup is as before. -/
theorem find_after_delete {db db2 : MovieDB} (inv : DBInv db) (inv2 : DBInv db2) (id : Int)
    (p : Nat) (hp : p < db.size) (hid : (recAt db p).id = id)
    (hs : db2.size + 1 = db.size) (hmoved : recAt db2 p = recAt db (db.size - 1))
    (hrest : ∀ q, q ≠ p → recAt db2 q = recAt db q) :
    db_find_by_id db2 id = none ∧
      ∀ id2, id2 ≠ id → db_find_by_id db2 id2 = db_find_by_id db id2 := by
  have hlast : db.size - 1 < db.size := by omega
  constructor
  · rw [db_find_eq_none_iff inv2]
    intro q hq hqid
    by_cases hqp : q = p
    · rw [hqp, hmoved, ← hid] at hqid
      have : db.size - 1 = p := live_ids_distinct inv hlast hp hqid
      omega
    · rw [hrest q hqp, ← hid] at hqid
      exact hqp (live_ids_distinct inv (by omega) hp hqid)
  · intro id2 hne
    apply db_find_congr inv inv2
    intro r
    constructor
    · rintro ⟨q, hq, e, hr⟩
      by_cases hqp : q = p
      · rw [hqp, hmoved] at e
        exact ⟨db.size - 1, hlast, e, hr⟩
      · rw [hrest q hqp] at e
        exact ⟨q, by omega, e, hr⟩
    · rintro ⟨q, hq, e, hr⟩
      have hqp : q ≠ p := by
        intro h
        rw [h] at e
        rw [e] at hid
        exact hne (hr.symm.trans hid)
      by_cases hql : q = db.size - 1
      · refine ⟨p, by omega, ?_, hr⟩
        rw [hmoved, ← hql]
        exact e
      · exact ⟨q, by omega, by rw [hrest q hqp]; exact e, hr⟩

theorem dbInv_db_init : DBInv db_init :=
  ⟨wf_hm_init 16, rfl, le_refl _, fun k p h => absurd h (hasEntry_hm_init 16 k p),
    fun p hp => absurd hp (Nat.not_lt_zero p)⟩

/-- Function `ui_add` while `next_id` is an `int` below `INT_MAX` keeps a consistent
store consistent and its identifiers below `next_id`. -/
theorem inv_after_add {db db2 : MovieDB} (inv : DBInv db) (hb : IdsBelowNext db)
    (hlo : -2 ^ 31 ≤ db.next_id) (hno : NoOverflow db) (m : Movie)
    (e : ui_add db m = some db2) :
    DBInv db2 ∧ IdsBelowNext db2 ∧ -2 ^ 31 ≤ db2.next_id := by
  obtain ⟨db3, e3, inv3, hs, hn, hnew, hold⟩ :=
    ui_add_spec inv (fun p hp => ne_of_lt (hb p hp)) m
  rw [e] at e3
  rw [Option.some.inj e3]
  have hno2 : db.next_id < 2 ^ 31 - 1 := hno
  have hn2 : db3.next_id = db.next_id + 1 := by
    rw [hn]
    exact wrap_int32_of_range _ (by omega) (by omega)
  refine ⟨inv3, ?_, by rw [hn2]; omega⟩
  intro p hp
  rw [hn2]
  by_cases hps : p = db.size
  · rw [hps, hnew]
    show db.next_id < db.next_id + 1
    omega
  · have hlt : p < db.size := by omega
    rw [hold p hlt]
    have := hb p hlt
    omega

theorem inv_after_delete {db db2 : MovieDB} (inv : DBInv db) (hb : IdsBelowNext db) (id : Int)
    (r : Int) (e : db_delete_by_id db id = some (r, db2)) : DBInv db2 ∧ IdsBelowNext db2 := by
  by_cases hex : ∃ p, p < db.size ∧ (recAt db p).id = id
  · obtain ⟨p, hp, hid⟩ := hex
    obtain ⟨db3, e3, inv3, hs, hn, hmoved, hrest, _⟩ := db_delete_present inv id p hp hid
    rw [e] at e3
    have e4 := (Prod.mk.inj (Option.some.inj e3)).2
    rw [e4]
    refine ⟨inv3, ?_⟩
    intro q hq
    rw [hn]
    by_cases hqp : q = p
    · rw [hqp, hmoved]
      exact hb _ (by omega)
    · rw [hrest q hqp]
      exact hb q (by omega)
  · have e3 := db_delete_absent inv id (fun p hp h => hex ⟨p, hp, h⟩)
    rw [e] at e3
    have e4 := (Prod.mk.inj (Option.some.inj e3)).2
    rw [e4]
    exact ⟨inv, hb⟩

/-! ## Histories of calls -/

theorem db_delete_next_id {db db2 : MovieDB} (inv : DBInv db) (id : Int) (r : Int)
    (e : db_delete_by_id db id = some (r, db2)) : db2.next_id = db.next_id := by
  by_cases hex : ∃ p, p < db.size ∧ (recAt db p).id = id
  · obtain ⟨p, hp, hid⟩ := hex
    obtain ⟨db3, e3, _, _, hn, _⟩ := db_delete_present inv id p hp hid
    rw [e] at e3
    rw [(Prod.mk.inj (Option.some.inj e3)).2]
    exact hn
  · have e3 := db_delete_absent inv id (fun p hp h => hex ⟨p, hp, h⟩)
    rw [e] at e3
    rw [(Prod.mk.inj (Option.some.inj e3)).2]

theorem countAdds_append (a b : List Op) : countAdds (a ++ b) = countAdds a + countAdds b := by
  induction a with
  | nil => simp [countAdds]
  | cons op rest ih =>
    cases op with
    | add m =>
      show countAdds (rest ++ b) + 1 = countAdds rest + 1 + countAdds b
      omega
    | delete d => exact ih

theorem countAdds_reverse (ops : List Op) : countAdds ops.reverse = countAdds ops := by
  induction ops with
  | nil => rfl
  | cons op rest ih =>
    rw [List.reverse_cons, countAdds_append, ih]
    cases op with
    | add m => simp only [countAdds]
    | delete d => simp only [countAdds]; omega

/-- A history of calls on `db_init` with at most `2 ^ 32` adds goes through; the store it
leaves is consistent, its `next_id` is the `int` value of the number of adds plus one,
every live identifier was handed out by one of the adds, every lookup returns what the
history prescribes, and no identifier was handed out to two records that are both live. -/
theorem runHist_spec : ∀ (hist : List Op), countAdds hist ≤ 2 ^ 32 →
    ∃ db, runHist hist = some db ∧ DBInv db ∧
      db.next_id = wrap_int32 ((countAdds hist : Int) + 1) ∧
      Issued (countAdds hist) db ∧ FindsAdded hist db ∧
      ∀ id, (addedLive hist id).length ≤ 1 := by
  intro hist
  induction hist with
  | nil =>
    intro _
    refine ⟨db_init, rfl, dbInv_db_init, by decide,
      fun p hp => absurd hp (Nat.not_lt_zero p), ?_, fun id => Nat.zero_le _⟩
    intro id
    exact ⟨fun r hr => absurd hr (List.not_mem_nil r),
      fun _ => (db_find_eq_none_iff dbInv_db_init id).2
        (fun p hp => absurd hp (Nat.not_lt_zero p))⟩
  | cons op earlier ih =>
    intro hc
    cases op with
    | add m =>
      have hc1 : countAdds earlier + 1 ≤ 2 ^ 32 := hc
      obtain ⟨db, e, inv, hn, hiss, hfind, hlen⟩ := ih (by omega)
      have hfresh : ∀ p, p < db.size → (recAt db p).id ≠ db.next_id := by
        intro p hp
        obtain ⟨j, h1, h2, h3⟩ := hiss p hp
        rw [h3, hn]
        exact wrap_int32_fresh j (countAdds earlier) h1 h2 (by omega)
      obtain ⟨db2, e2, inv2, hs, hn2, hnew, hold⟩ := ui_add_spec inv hfresh m
      have hnone : addedLive earlier db.next_id = [] := by
        cases hl : addedLive earlier db.next_id with
        | nil => rfl
        | cons r rest =>
          have hf := (hfind db.next_id).1 r (by rw [hl]; exact List.mem_cons_self r rest)
          obtain ⟨p, hp, e3, hid⟩ := (db_find_eq_some_iff inv _ r).1 hf
          rw [← e3] at hid
          exact absurd hid (hfresh p hp)
      refine ⟨db2, ?_, inv2, ?_, ?_, ?_, ?_⟩
      · simp only [runHist, e, applyOp]
        exact e2
      · rw [hn2, hn, wrap_int32_succ]
        show _ = wrap_int32 (((countAdds earlier + 1 : Nat) : Int) + 1)
        push_cast
        rfl
      · intro p hp
        by_cases hps : p = db.size
        · refine ⟨countAdds earlier + 1, by omega, le_refl _, ?_⟩
          rw [hps, hnew, hn]
          push_cast
          rfl
        · obtain ⟨j, h1, h2, h3⟩ := hiss p (by omega)
          refine ⟨j, h1, ?_, by rw [hold p (by omega)]; exact h3⟩
          show j ≤ countAdds earlier + 1
          omega
      · intro id
        have hfa := find_after_add inv inv2 m hs hnew hold id
        simp only [addedLive]
        rw [← hn]
        by_cases hid : id = db.next_id
        · rw [if_pos hid, hfa, if_pos hid, hid, hnone]
          refine ⟨fun r hr => ?_, fun h => absurd h (List.cons_ne_nil _ _)⟩
          rw [List.mem_singleton.1 hr]
        · rw [if_neg hid, hfa, if_neg hid]
          exact hfind id
      · intro id
        simp only [addedLive]
        rw [← hn]
        by_cases hid : id = db.next_id
        · rw [if_pos hid, hid, hnone]
          exact le_refl _
        · rw [if_neg hid]
          exact hlen id
    | delete d =>
      have hc1 : countAdds earlier ≤ 2 ^ 32 := hc
      obtain ⟨db, e, inv, hn, hiss, hfind, hlen⟩ := ih hc1
      by_cases hex : ∃ p, p < db.size ∧ (recAt db p).id = d
      · obtain ⟨p, hp, hid⟩ := hex
        obtain ⟨db2, e2, inv2, hs, hn2, hmoved, hrest, _⟩ := db_delete_present inv d p hp hid
        obtain ⟨f1, f2⟩ := find_after_delete inv inv2 d p hp hid hs hmoved hrest
        refine ⟨db2, ?_, inv2, ?_, ?_, ?_, ?_⟩
        · simp only [runHist, e, applyOp, e2]
        · rw [hn2, hn]
          rfl
        · intro q hq
          show ∃ j : Nat, 1 ≤ j ∧ j ≤ countAdds earlier ∧ _
          by_cases hqp : q = p
          · rw [hqp, hmoved]
            exact hiss _ (by omega)
          · rw [hrest q hqp]
            exact hiss q (by omega)
        · intro id
          simp only [addedLive]
          by_cases hid2 : d = id
          · rw [if_pos hid2, ← hid2]
            exact ⟨fun r hr => absurd hr (List.not_mem_nil r), fun _ => f1⟩
          · rw [if_neg hid2, f2 id (fun h => hid2 h.symm)]
            exact hfind id
        · intro id
          simp only [addedLive]
          by_cases hid2 : d = id
          · rw [if_pos hid2]
            exact Nat.zero_le _
          · rw [if_neg hid2]
            exact hlen id
      · have habs : ∀ p, p < db.size → (recAt db p).id ≠ d := fun p hp h => hex ⟨p, hp, h⟩
        have e2 := db_delete_absent inv d habs
        refine ⟨db, ?_, inv, ?_, hiss, ?_, ?_⟩
        · simp only [runHist, e, applyOp, e2]
        · rw [hn]
          rfl
        · intro id
          simp only [addedLive]
          by_cases hid2 : d = id
          · rw [if_pos hid2, ← hid2]
            exact ⟨fun r hr => absurd hr (List.not_mem_nil r),
              fun _ => (db_find_eq_none_iff inv d).2 habs⟩
          · rw [if_neg hid2]
            exact hfind id
        · intro id
          simp only [addedLive]
          by_cases hid2 : d = id
          · rw [if_pos hid2]
            exact Nat.zero_le _
          · rw [if_neg hid2]
            exact hlen id

/-- The store left by calls with at most `2 ^ 32` adds is consistent. -/
theorem dbInv_of_run (ops : List Op) (db : MovieDB) (hc : countAdds ops ≤ 2 ^ 32)
    (h : run ops = some db) : DBInv db := by
  obtain ⟨db2, e, inv, _⟩ := runHist_spec ops.reverse (by rw [countAdds_reverse]; exact hc)
  unfold run at h
  rw [h] at e
  rw [Option.some.inj e]
  exact inv

theorem dbInv_storeThree : DBInv storeThree :=
  dbInv_of_run threeAdds storeThree (by decide) (by decide)

theorem dbInv_storeTwo : DBInv storeTwo :=
  dbInv_of_run (threeAdds ++ [Op.delete 2]) storeTwo (by decide) (by decide)

theorem countAdds_addsOnly (n : Nat) : countAdds (addsOnly n) = n := by
  induction n with
  | zero => rfl
  | succ n ih =>
    show countAdds (addsOnly n) + 1 = n + 1
    rw [ih]

theorem addsOnly_reverse (n : Nat) : (addsOnly n).reverse = addsOnly n :=
  List.reverse_replicate n (Op.add movieA)

/-- The history of `manyAdds (n + 1)`, latest call first. -/
theorem manyAdds_reverse (n : Nat) :
    (manyAdds (n + 1)).reverse = Op.add movieA :: (addsOnly n ++ [Op.add movieB]) := by
  show (Op.add movieB :: addsOnly (n + 1)).reverse = _
  rw [List.reverse_cons, addsOnly_reverse]
  rfl

/-- In the history of `manyAdds`, the record of the first add is listed under identifier
`1` whatever was added later: nothing is ever deleted. -/
theorem mem_addedLive_first (n : Nat) :
    { movieB with id := 1 } ∈ addedLive (addsOnly n ++ [Op.add movieB]) 1 := by
  induction n with
  | zero => decide
  | succ n ih =>
    show { movieB with id := 1 } ∈ addedLive (Op.add movieA :: (addsOnly n ++ [Op.add movieB])) 1
    simp only [addedLive]
    split_ifs
    · exact List.mem_cons_of_mem _ ih
    · exact ih

/-- After `manyAdds (2 ^ 32)`, one add followed by `2 ^ 32` adds, `next_id++` has gone
round: the last add was handed identifier `1` like the first, and the lookup of `1` finds
the record of the last add. -/
theorem manyAdds_spec (n : Nat) (h : n + 1 = 2 ^ 32) :
    ∃ db, run (manyAdds (n + 1)) = some db ∧
      db_find_by_id db 1 = some { movieA with id := 1 } ∧
      { movieB with id := 1 } ∈ addedLive (manyAdds (n + 1)).reverse 1 := by
  have hc : countAdds (addsOnly n ++ [Op.add movieB]) = n + 1 := by
    rw [countAdds_append, countAdds_addsOnly]
    rfl
  obtain ⟨db1, e1, inv1, hn1, _⟩ :=
    runHist_spec (addsOnly n ++ [Op.add movieB]) (by rw [hc, h])
  have hn : db1.next_id = 1 := by
    rw [hn1, hc, h]
    decide
  obtain ⟨db2, e2, hf⟩ := ui_add_find_self inv1 movieA
  rw [hn] at hf
  refine ⟨db2, ?_, hf, ?_⟩
  · unfold run
    rw [manyAdds_reverse]
    simp only [runHist, e1, applyOp]
    exact e2
  · rw [manyAdds_reverse]
    simp only [addedLive]
    split_ifs
    · exact List.mem_cons_of_mem _ (mem_addedLive_first n)
    · exact mem_addedLive_first n

/-- After `n + 1` adds and nothing else, `next_id` is the `int` value of `n + 2` and the
record of the last add is live under the `int` value of `n + 1`. -/
theorem addsOnly_spec (n : Nat) (h : n + 1 ≤ 2 ^ 32) :
    ∃ db, run (addsOnly (n + 1)) = some db ∧ db.next_id = wrap_int32 ((n : Int) + 2) ∧
      ∃ p, p < db.size ∧ (recAt db p).id = wrap_int32 ((n : Int) + 1) := by
  obtain ⟨db, e, inv, hn, _, hfind, _⟩ :=
    runHist_spec (addsOnly (n + 1)) (by rw [countAdds_addsOnly]; exact h)
  refine ⟨db, ?_, ?_, ?_⟩
  · unfold run
    rw [addsOnly_reverse]
    exact e
  · rw [hn, countAdds_addsOnly]
    push_cast
    ring_nf
  · have hm : { movieA with id := wrap_int32 ((n : Int) + 1) }
        ∈ addedLive (addsOnly (n + 1)) (wrap_int32 ((n : Int) + 1)) := by
      show _ ∈ addedLive (Op.add movieA :: addsOnly n) _
      simp only [addedLive]
      rw [countAdds_addsOnly, if_pos rfl]
      exact List.mem_cons_self _ _
    obtain ⟨p, hp, e3, _⟩ := (db_find_eq_some_iff inv _ _).1 ((hfind _).1 _ hm)
    exact ⟨p, hp, by rw [e3]⟩

/-! ## Claims about the store -/

/-- C1 as stated fails beyond `2 ^ 32` adds.  Make one add with the fields `movieB`, which
is handed identifier `1` and found under it, then `2 ^ 32` adds with the fields `movieA`
and no delete: `next_id++` wraps around at `INT_MAX` and hands identifier `1` to the last
add as well.  The record of the first add was added with identifier `1` and never deleted,
yet `db_find_by_id 1` returns the record of the last add. -/
theorem find_after_ops_counterexample :
    (ui_add db_init movieB).bind (fun db1 => db_find_by_id db1 1)
        = some { movieB with id := 1 } ∧
      (∀ d, Op.delete d ∉ manyAdds (2 ^ 32)) ∧
      ∃ db, run (manyAdds (2 ^ 32)) = some db ∧
        db_find_by_id db 1 = some { movieA with id := 1 } ∧
        { movieB with id := 1 } ∈ addedLive (manyAdds (2 ^ 32)).reverse 1 ∧
        ¬ FindsAdded (manyAdds (2 ^ 32)).reverse db := by
  refine ⟨by decide, ?_, ?_⟩
  · intro d hd
    rcases List.mem_cons.1 hd with h | h
    · exact Op.noConfusion h
    · exact Op.noConfusion (List.eq_of_mem_replicate h)
  · obtain ⟨db, e, hf, hm⟩ := manyAdds_spec (2 ^ 32 - 1) (by norm_num)
    have e32 : 2 ^ 32 - 1 + 1 = 2 ^ 32 := by norm_num
    rw [e32] at e hm
    refine ⟨db, e, hf, hm, ?_⟩
    intro hfa
    have h1 := (hfa 1).1 _ hm
    rw [hf] at h1
    exact absurd (Option.some.inj h1) (by decide)

/-- C1 (amended): for every sequence of `ui_add` and `db_delete_by_id` calls with at most
`2 ^ 32` adds on a store created by `db_init` the calls all return, and afterwards
`db_find_by_id id` returns, for every `id`, the record added with that identifier with its
fields unchanged if `id` was added and not deleted since (there is at most one such
record), and `NULL` otherwise.  This covers sequences that double the index capacity
twice, such as twenty-six adds, which leave 64 slots. -/
theorem find_after_ops (ops : List Op) (h : countAdds ops ≤ 2 ^ 32) :
    (∃ db, run ops = some db ∧ FindsAdded ops.reverse db ∧
      ∀ id, (addedLive ops.reverse id).length ≤ 1) ∧
    (run twentySixAdds).map (fun db => (db.index.cap, db.size)) = some (64, 26) := by
  refine ⟨?_, by decide⟩
  obtain ⟨db, e, _, _, _, hfind, hlen⟩ :=
    runHist_spec ops.reverse (by rw [countAdds_reverse]; exact h)
  exact ⟨db, e, hfind, hlen⟩

/-- Witness for C1 (amended): the twenty-six adds that double the index capacity twice. -/
theorem find_after_ops_witness :
    countAdds twentySixAdds ≤ 2 ^ 32 ∧
      (∃ db, run twentySixAdds = some db ∧ FindsAdded twentySixAdds.reverse db ∧
        ∀ id, (addedLive twentySixAdds.reverse id).length ≤ 1) ∧
      (run twentySixAdds).map (fun db => (db.index.cap, db.size)) = some (64, 26) :=
  ⟨by decide, find_after_ops twentySixAdds (by decide)⟩

/-- C5: deleting a live identifier from a consistent store (`DBInv`, which holds in every
store reached from `db_init` by adds and deletes with at most `2 ^ 32` adds,
`dbInv_of_run`) returns `1`, lowers the record count by exactly one, makes
`db_find_by_id id` return `NULL`, and leaves the lookup of every other identifier as it
was (so every other live identifier is still found, with the same contents). -/
theorem delete_live (db : MovieDB) (inv : DBInv db) (id : Int)
    (hlive : ∃ r, db_find_by_id db id = some r) :
    ∃ db2, db_delete_by_id db id = some (1, db2) ∧ db2.size + 1 = db.size ∧
      db_find_by_id db2 id = none ∧
      ∀ id2, id2 ≠ id → db_find_by_id db2 id2 = db_find_by_id db id2 := by
  obtain ⟨r, hf⟩ := hlive
  obtain ⟨p, hp, e, hid⟩ := (db_find_eq_some_iff inv id r).1 hf
  rw [← e] at hid
  obtain ⟨db2, e2, inv2, hs, _, hmoved, hrest, _⟩ := db_delete_present inv id p hp hid
  obtain ⟨f1, f2⟩ := find_after_delete inv inv2 id p hp hid hs hmoved hrest
  exact ⟨db2, e2, hs, f1, f2⟩

/-- Witness for C5, the scenario of the claim: three adds are given the identifiers 1, 2,
3; after `delete 2` the lookups of 1 and 3 return the original fields, the lookup of 2
fails and two records are left. -/
theorem delete_live_witness :
    DBInv storeThree ∧ (∃ r, db_find_by_id storeThree 2 = some r) ∧
      (∃ db2, db_delete_by_id storeThree 2 = some (1, db2) ∧ db2.size + 1 = storeThree.size ∧
        db_find_by_id db2 2 = none ∧
        ∀ id2, id2 ≠ 2 → db_find_by_id db2 id2 = db_find_by_id storeThree id2) ∧
      run threeAdds = some storeThree ∧
      db_find_by_id storeThree 1 = some { movieA with id := 1 } ∧
      db_find_by_id storeThree 2 = some { movieB with id := 2 } ∧
      db_find_by_id storeThree 3 = some { movieC with id := 3 } ∧
      db_delete_by_id storeThree 2 = some (1, storeTwo) ∧
      db_find_by_id storeTwo 1 = some { movieA with id := 1 } ∧
      db_find_by_id storeTwo 3 = some { movieC with id := 3 } ∧
      db_find_by_id storeTwo 2 = none ∧ storeTwo.size = 2 :=
  ⟨dbInv_storeThree, ⟨{ movieB with id := 2 }, by decide⟩,
    delete_live storeThree dbInv_storeThree 2 ⟨{ movieB with id := 2 }, by decide⟩,
    by decide, by decide, by decide, by decide, by decide, by decide, by decide, by decide,
    by decide⟩

/-- C6 (swap-delete): in a consistent store of `n` records (`DBInv`, which holds in every
store reached from `db_init` by adds and deletes with at most `2 ^ 32` adds,
`dbInv_of_run`), deleting the identifier stored at position `p` returns `1`, and if
`p < n - 1` the record formerly at position `n - 1` is stored at position `p`, the index
maps its identifier to `p`, and every other remaining record keeps its position (in the
buffer and in the index); if `p = n - 1` the records at positions `0 .. n - 2` are
unchanged and the index answers for every other identifier as before. -/
theorem swap_delete (db : MovieDB) (inv : DBInv db) (id : Int) (p : Nat)
    (hp : p < db.size) (hid : (recAt db p).id = id) :
    ∃ db2, db_delete_by_id db id = some (1, db2) ∧ db2.size = db.size - 1 ∧
      (p < db.size - 1 →
        recAt db2 p = recAt db (db.size - 1) ∧
        hm_get db2.index (recAt db (db.size - 1)).id = some p ∧
        ∀ q, q < db.size - 1 → q ≠ p →
          recAt db2 q = recAt db q ∧ hm_get db2.index (recAt db q).id = some q) ∧
      (p = db.size - 1 →
        (∀ q, q < db.size - 1 → recAt db2 q = recAt db q) ∧
        ∀ id2, id2 ≠ id → hm_get db2.index id2 = hm_get db.index id2) := by
  obtain ⟨db2, e2, inv2, hs, _, hmoved, hrest, en⟩ := db_delete_present inv id p hp hid
  refine ⟨db2, e2, by omega, ?_, ?_⟩
  · intro hlt
    refine ⟨hmoved, ?_, ?_⟩
    · have := hm_get_of_live inv2 (show p < db2.size by omega)
      rw [hmoved] at this
      exact this
    · intro q hq hqp
      have := hm_get_of_live inv2 (show q < db2.size by omega)
      rw [hrest q hqp] at this
      exact ⟨hrest q hqp, this⟩
  · intro hpl
    refine ⟨fun q hq => hrest q (by omega), ?_⟩
    intro id2 hne
    apply hm_get_congr inv.wf.core inv2.wf.core
    intro v
    rw [en]
    have hm : (recAt db (db.size - 1)).id = id := by rw [← hpl]; exact hid
    rw [hm]
    constructor
    · rintro ⟨_, ⟨a, _⟩ | ⟨_, b⟩⟩
      · exact absurd a hne
      · exact b
    · exact fun h => ⟨hne, Or.inr ⟨hne, h⟩⟩

/-- Witness for C6: deleting the first of three records moves the third into its place. -/
theorem swap_delete_witness :
    DBInv storeThree ∧ 0 < storeThree.size ∧ (recAt storeThree 0).id = 1 ∧
      ∃ db2, db_delete_by_id storeThree 1 = some (1, db2) ∧ db2.size = storeThree.size - 1 ∧
        (0 < storeThree.size - 1 →
          recAt db2 0 = recAt storeThree (storeThree.size - 1) ∧
          hm_get db2.index (recAt storeThree (storeThree.size - 1)).id = some 0 ∧
          ∀ q, q < storeThree.size - 1 → q ≠ 0 →
            recAt db2 q = recAt storeThree q ∧
            hm_get db2.index (recAt storeThree q).id = some q) ∧
        (0 = storeThree.size - 1 →
          (∀ q, q < storeThree.size - 1 → recAt db2 q = recAt storeThree q) ∧
          ∀ id2, id2 ≠ 1 → hm_get db2.index id2 = hm_get storeThree.index id2) :=
  ⟨dbInv_storeThree, by decide, by decide,
    swap_delete storeThree dbInv_storeThree 1 0 (by decide) (by decide)⟩

/-- C7: on a consistent store (`DBInv`, which holds in every store reached from `db_init`
by adds and deletes with at most `2 ^ 32` adds, `dbInv_of_run`), `db_delete_by_id` of an
identifier that no live record carries returns `0` and leaves the whole store (record
count, record array, `next_id`, index, hence every lookup) exactly as it was. -/
theorem delete_absent (db : MovieDB) (inv : DBInv db) (id : Int)
    (habs : ∀ p, p < db.size → (recAt db p).id ≠ id) :
    db_delete_by_id db id = some (0, db) :=
  db_delete_absent inv id habs

/-- Witness for C7: identifier 2 after it was deleted from the three-record store. -/
theorem delete_absent_witness :
    DBInv storeTwo ∧ (∀ p, p < storeTwo.size → (recAt storeTwo p).id ≠ 2) ∧
      db_delete_by_id storeTwo 2 = some (0, storeTwo) :=
  ⟨dbInv_storeTwo, by decide, delete_absent storeTwo dbInv_storeTwo 2 (by decide)⟩

/-- C8 as stated fails at `2 ^ 31 - 1` adds, which is fewer than `2 ^ 31`: the last add is
handed `INT_MAX`, `next_id++` overflows to `INT_MIN`, and `next_id` is no longer greater
than the identifiers stored. -/
theorem identifier_assignment_counterexample :
    countAdds (addsOnly (2 ^ 31 - 1)) < 2 ^ 31 ∧
      ∃ db, run (addsOnly (2 ^ 31 - 1)) = some db ∧ db.next_id = -2 ^ 31 ∧
        (∃ p, p < db.size ∧ (recAt db p).id = 2 ^ 31 - 1) ∧
        ¬ ∀ p, p < db.size → (recAt db p).id < db.next_id := by
  refine ⟨by rw [countAdds_addsOnly]; norm_num, ?_⟩
  obtain ⟨db, e, hn, p, hp, hid⟩ := addsOnly_spec (2 ^ 31 - 2) (by norm_num)
  have e31 : 2 ^ 31 - 2 + 1 = 2 ^ 31 - 1 := by norm_num
  rw [e31] at e
  have hn2 : db.next_id = -2 ^ 31 := by
    rw [hn]
    decide
  have hid2 : (recAt db p).id = 2 ^ 31 - 1 := by
    rw [hid]
    decide
  refine ⟨db, e, hn2, ⟨p, hp, hid2⟩, ?_⟩
  intro hall
  have := hall p hp
  rw [hid2, hn2] at this
  exact absurd this (by decide)

/-- C8 (amended): after any calls `ops` on `db_init` with fewer than `2 ^ 31 - 1` adds,
`next_id` is the number of adds so far plus one and at most `INT_MAX`, every stored
identifier lies in `1 .. next_id - 1`, the next add (the `k`-th, `k = countAdds ops + 1`)
stores its record under identifier `k` and leaves in `next_id` the `int` value of `k + 1`,
which is `k + 1` unless `k = INT_MAX`, and `db_delete_by_id` leaves `next_id` alone; hence
identifiers are handed out in increasing order and none is handed out twice. -/
theorem identifier_assignment (ops : List Op) (h : countAdds ops < 2 ^ 31 - 1) :
    ∃ db, run ops = some db ∧ db.next_id = (countAdds ops : Int) + 1 ∧
      db.next_id ≤ 2 ^ 31 - 1 ∧
      (∀ p, p < db.size → 1 ≤ (recAt db p).id ∧ (recAt db p).id < db.next_id) ∧
      (∀ m, ∃ db2, ui_add db m = some db2 ∧ db2.size = db.size + 1 ∧
        recAt db2 db.size = { m with id := (countAdds ops : Int) + 1 } ∧
        db2.next_id = wrap_int32 (db.next_id + 1) ∧
        (countAdds ops + 1 < 2 ^ 31 - 1 → db2.next_id = db.next_id + 1)) ∧
      (∀ id r db2, db_delete_by_id db id = some (r, db2) → db2.next_id = db.next_id) := by
  obtain ⟨db, e, inv, hn0, hiss, _⟩ :=
    runHist_spec ops.reverse (by rw [countAdds_reverse]; omega)
  rw [countAdds_reverse] at hn0 hiss
  have hn : db.next_id = (countAdds ops : Int) + 1 := by
    rw [hn0]
    exact wrap_int32_of_range _ (by omega) (by omega)
  have hids : ∀ p, p < db.size → 1 ≤ (recAt db p).id ∧ (recAt db p).id < db.next_id := by
    intro p hp
    obtain ⟨j, h1, h2, h3⟩ := hiss p hp
    rw [h3, wrap_int32_of_range _ (by omega) (by omega), hn]
    omega
  refine ⟨db, e, hn, by rw [hn]; omega, hids, ?_, ?_⟩
  · intro m
    obtain ⟨db2, e2, _, hs, hn2, hnew, _⟩ :=
      ui_add_spec inv (fun p hp => ne_of_lt (hids p hp).2) m
    rw [hn] at hnew
    refine ⟨db2, e2, hs, hnew, hn2, ?_⟩
    intro hk
    rw [hn2]
    exact wrap_int32_of_range _ (by rw [hn]; omega) (by rw [hn]; omega)
  · intro id r db2 e2
    exact db_delete_next_id inv id r e2

/-- Witness for C8 (amended): two adds, a delete of the first record and a third add. -/
theorem identifier_assignment_witness :
    countAdds [Op.add movieA, Op.add movieB, Op.delete 1, Op.add movieC] < 2 ^ 31 - 1 ∧
      ∃ db, run [Op.add movieA, Op.add movieB, Op.delete 1, Op.add movieC] = some db ∧
        db.next_id
          = (countAdds [Op.add movieA, Op.add movieB, Op.delete 1, Op.add movieC] : Int) + 1 ∧
        db.next_id ≤ 2 ^ 31 - 1 ∧
        (∀ p, p < db.size → 1 ≤ (recAt db p).id ∧ (recAt db p).id < db.next_id) ∧
        (∀ m, ∃ db2, ui_add db m = some db2 ∧ db2.size = db.size + 1 ∧
          recAt db2 db.size = { m with id :=
            (countAdds [Op.add movieA, Op.add movieB, Op.delete 1, Op.add movieC] : Int) + 1 } ∧
          db2.next_id = wrap_int32 (db.next_id + 1) ∧
          (countAdds [Op.add movieA, Op.add movieB, Op.delete 1, Op.add movieC] + 1
              < 2 ^ 31 - 1 → db2.next_id = db.next_id + 1)) ∧
        (∀ id r db2, db_delete_by_id db id = some (r, db2) → db2.next_id = db.next_id) :=
  ⟨by decide,
    identifier_assignment [Op.add movieA, Op.add movieB, Op.delete 1, Op.add movieC]
      (by decide)⟩

/-! ## Bulk load -/

/-- The loop of `ui_load_bin` that rebuilds the index, over records with pairwise
distinct identifiers. -/
theorem load_index_loop_spec : ∀ (n i : Nat) (db : MovieDB), WF db.index →
    (∀ k v, HasEntry db.index k v ↔ (v < i ∧ (recAt db v).id = k)) →
    (∀ a b, a < i + n → b < i + n → (recAt db a).id = (recAt db b).id → a = b) →
    ∃ db2, load_index_loop db i n = some db2 ∧ WF db2.index ∧ db2.data = db.data ∧
      db2.size = db.size ∧ db2.cap = db.cap ∧ db2.next_id = db.next_id ∧
      ∀ k v, HasEntry db2.index k v ↔ (v < i + n ∧ (recAt db2 v).id = k) := by
  intro n
  induction n with
  | zero =>
    intro i db w hen _
    exact ⟨db, rfl, w, rfl, rfl, rfl, rfl, hen⟩
  | succ n ih =>
    intro i db w hen hdist
    obtain ⟨ix, e, wix, en, _⟩ := hm_put_spec w (recAt db i).id i
    have hen2 : ∀ k v, HasEntry ix k v ↔ (v < i + 1 ∧ (recAt db v).id = k) := by
      intro k v
      rw [en, hen]
      constructor
      · rintro (⟨a, b⟩ | ⟨_, a, b⟩)
        · rw [a, b]
          exact ⟨by omega, rfl⟩
        · exact ⟨by omega, b⟩
      · rintro ⟨a, b⟩
        by_cases hv : v = i
        · rw [hv] at b
          exact Or.inl ⟨b.symm, hv⟩
        · refine Or.inr ⟨?_, by omega, b⟩
          intro hk
          rw [← b] at hk
          exact hv (hdist v i (by omega) (by omega) hk)
    obtain ⟨db2, e2, w2, d2, s2, c2, n2, en2⟩ := ih (i + 1) { db with index := ix } wix hen2
      (fun a b ha hb h => hdist a b (by omega) (by omega) h)
    refine ⟨db2, ?_, w2, d2, s2, c2, n2, ?_⟩
    · simp only [load_index_loop]
      have : db.data.getD i default = recAt db i := rfl
      rw [this, e]
      exact e2
    · intro k v
      rw [en2]
      have : i + 1 + n = i + (n + 1) := by omega
      rw [this]

theorem distinct_getD_of_nodup (l : List Movie) (h : (l.map (fun r => r.id)).Nodup)
    (a b : Nat) (ha : a < l.length) (hb : b < l.length)
    (e : (l.getD a default).id = (l.getD b default).id) : a = b := by
  rw [List.getD_eq_getElem _ _ ha, List.getD_eq_getElem _ _ hb] at e
  have ha2 : a < (l.map (fun r => r.id)).length := by simpa using ha
  have hb2 : b < (l.map (fun r => r.id)).length := by simpa using hb
  have e2 : (l.map (fun r => r.id))[a] = (l.map (fun r => r.id))[b] := by
    simpa using e
  exact (List.Nodup.getElem_inj_iff h).1 e2

theorem getD_mem (l : List Movie) (a : Nat) (ha : a < l.length) : l.getD a default ∈ l := by
  rw [List.getD_eq_getElem _ _ ha]
  exact List.getElem_mem ha

/-- Function `ui_load_bin` of a snapshot whose identifiers are pairwise distinct and lie
below its `next_id`: the call returns and leaves a consistent store with identifiers below
`next_id`, and `next_id` is as before or that of the snapshot. -/
theorem ui_load_bin_spec {db : MovieDB} (inv : DBInv db) (hb : IdsBelowNext db)
    (file : Option Snapshot)
    (hok : ∀ f, file = some f → DistinctIds f ∧ IdsBelowHeader f) :
    ∃ r db2, ui_load_bin db file = some (r, db2) ∧ DBInv db2 ∧ IdsBelowNext db2 ∧
      (db2.next_id = db.next_id ∨ ∃ f, file = some f ∧ db2.next_id = f.hdr.next_id) := by
  cases file with
  | none => exact ⟨false, db, rfl, inv, hb, Or.inl rfl⟩
  | some f =>
    obtain ⟨hdist, hbelow⟩ := hok f rfl
    simp only [ui_load_bin]
    by_cases hm : f.hdr.magic ≠ MVDB_MAGIC ∨ f.hdr.version ≠ 1
    · rw [if_pos hm]
      exact ⟨false, db, rfl, inv, hb, Or.inl rfl⟩
    · rw [if_neg hm]
      have inv1 : DBInv { db_init with next_id := f.hdr.next_id } :=
        ⟨wf_hm_init 16, rfl, le_refl _, fun k p h => absurd h (hasEntry_hm_init 16 k p),
          fun p hp => absurd hp (Nat.not_lt_zero p)⟩
      by_cases hc : f.hdr.count > 0
      · rw [if_pos hc]
        obtain ⟨c1, _, hlen2, _, hs2, hn2, hi2⟩ :=
          db_ensure_spec { db_init with next_id := f.hdr.next_id } f.hdr.count rfl
        generalize db_ensure { db_init with next_id := f.hdr.next_id } f.hdr.count = db2
          at c1 hlen2 hs2 hn2 hi2
        have hi2' : db2.index = hm_init 16 := hi2
        have hlen3 : (fread_records db2.data f.records f.hdr.count).1.length = db2.cap := by
          simp only [fread_records, List.length_append, List.length_take, List.length_drop]
          omega
        by_cases hrd : (fread_records db2.data f.records f.hdr.count).2 ≠ f.hdr.count
        · rw [if_pos hrd]
          refine ⟨false, _, rfl, ⟨?_, hlen3, ?_, ?_, ?_⟩, ?_, Or.inr ⟨f, rfl, hn2⟩⟩
          · show WF db2.index
            rw [hi2']; exact wf_hm_init 16
          · show db2.size ≤ db2.cap
            rw [hs2]; exact Nat.zero_le _
          · intro k p h
            have h2 : HasEntry db2.index k p := h
            rw [hi2'] at h2
            exact absurd h2 (hasEntry_hm_init 16 k p)
          · intro p hp
            have : p < db2.size := hp
            rw [hs2] at this
            exact absurd this (Nat.not_lt_zero p)
          · intro p hp
            have : p < db2.size := hp
            rw [hs2] at this
            exact absurd this (Nat.not_lt_zero p)
        · rw [if_neg hrd]
          have hcnt : min f.hdr.count f.records.length = f.hdr.count := by
            simpa [fread_records] using hrd
          have hle : f.hdr.count ≤ f.records.length := by omega
          have htl : (f.records.take f.hdr.count).length = f.hdr.count := by
            rw [List.length_take]; omega
          have hdata : ∀ p, p < f.hdr.count →
              (fread_records db2.data f.records f.hdr.count).1.getD p default
                = (f.records.take f.hdr.count).getD p default := by
            intro p hp
            simp only [fread_records, hcnt]
            exact List.getD_append _ _ _ _ (by rw [htl]; exact hp)
          obtain ⟨db4, e4, w4, d4, s4, c4, n4, en4⟩ := load_index_loop_spec f.hdr.count 0
            { db2 with data := (fread_records db2.data f.records f.hdr.count).1,
                       size := f.hdr.count }
            (by show WF db2.index; rw [hi2']; exact wf_hm_init 16)
            (by
              intro k v
              constructor
              · intro h
                have h2 : HasEntry db2.index k v := h
                rw [hi2'] at h2
                exact absurd h2 (hasEntry_hm_init 16 k v)
              · rintro ⟨h, _⟩
                exact absurd h (Nat.not_lt_zero v))
            (by
              intro a b ha hb2 e
              rw [Nat.zero_add] at ha hb2
              have e2 : ((fread_records db2.data f.records f.hdr.count).1.getD a default).id
                  = ((fread_records db2.data f.records f.hdr.count).1.getD b default).id := e
              rw [hdata a ha, hdata b hb2] at e2
              exact distinct_getD_of_nodup _ hdist a b (by rw [htl]; exact ha)
                (by rw [htl]; exact hb2) e2)
          rw [e4]
          rw [Nat.zero_add] at en4
          have hrec : ∀ p, p < f.hdr.count →
              recAt db4 p = (f.records.take f.hdr.count).getD p default := by
            intro p hp
            unfold recAt
            rw [d4]
            exact hdata p hp
          have hsz : db4.size = f.hdr.count := s4
          refine ⟨true, db4, rfl, ⟨w4, ?_, ?_, ?_, ?_⟩, ?_, Or.inr ⟨f, rfl, n4.trans hn2⟩⟩
          · rw [d4, c4]
            exact hlen3
          · rw [hsz, c4]
            exact c1
          · intro k p h
            rw [hsz]
            exact (en4 k p).1 h
          · intro p hp
            rw [hsz] at hp
            exact (en4 _ _).2 ⟨hp, rfl⟩
          · intro p hp
            rw [hsz] at hp
            rw [hrec p hp, n4]
            have hn2' : db2.next_id = f.hdr.next_id := hn2
            show _ < db2.next_id
            rw [hn2']
            exact hbelow _ (getD_mem _ p (by rw [htl]; exact hp))
      · rw [if_neg hc]
        exact ⟨true, _, rfl, inv1, fun p hp => absurd hp (Nat.not_lt_zero p),
          Or.inr ⟨f, rfl, rfl⟩⟩

/-- Every store reachable by adds that do not overflow `next_id`, deletes and loads of
snapshots that satisfy `GoodSnapshot` is consistent, keeps its identifiers below `next_id`
and its `next_id` an `int`. -/
theorem inv_of_loadReachable {db : MovieDB} (hr : LoadReachable GoodSnapshot NoOverflow db) :
    DBInv db ∧ IdsBelowNext db ∧ -2 ^ 31 ≤ db.next_id := by
  induction hr with
  | init => exact ⟨dbInv_db_init, fun p hp => absurd hp (Nat.not_lt_zero p), by decide⟩
  | add m _ hno e ih => exact inv_after_add ih.1 ih.2.1 ih.2.2 hno m e
  | @delete db1 db2 id r _ e ih =>
    obtain ⟨a, b⟩ := inv_after_delete ih.1 ih.2.1 id r e
    refine ⟨a, b, ?_⟩
    rw [db_delete_next_id ih.1 id r e]
    exact ih.2.2
  | @load db1 db2 file r _ hok e ih =>
    obtain ⟨r3, db3, e3, inv3, hb3, hn3⟩ :=
      ui_load_bin_spec ih.1 ih.2.1 file (fun f hf => ⟨(hok f hf).1, (hok f hf).2.1⟩)
    rw [e] at e3
    rw [(Prod.mk.inj (Option.some.inj e3)).2]
    refine ⟨inv3, hb3, ?_⟩
    rcases hn3 with h | ⟨f, hf, h⟩
    · rw [h]
      exact ih.2.2
    · rw [h]
      exact (hok f hf).2.2.1

theorem indexConsistent_of_inv {db : MovieDB} (inv : DBInv db) : IndexConsistent db := by
  constructor
  · intro i hi hf
    exact inv.fwd _ _ ⟨i, hi, hf, rfl, rfl⟩
  · intro k
    constructor
    · rintro ⟨i, hi, hf, hk⟩
      obtain ⟨a, b⟩ := inv.fwd _ _ ⟨i, hi, hf, hk, rfl⟩
      exact ⟨_, a, b⟩
    · rintro ⟨p, hp, hk⟩
      obtain ⟨i, hi, hf, hk2, _⟩ := inv.bwd p hp
      exact ⟨i, hi, hf, hk2.trans hk⟩

/-- C2 as stated fails, in two ways.

First, load a snapshot holding one record with identifier `1` and `next_id = 1` (its
identifiers are pairwise distinct), add one record (`next_id++` hands out `1` again and
the index entry of key `1` is overwritten), delete identifier `1`.  The store left has
`data[0].id = 1` among its live records but no Filled slot with key `1`.

Second, with identifiers below the snapshot's `next_id`: load a snapshot holding one
record with identifier `INT_MIN` and `next_id = INT_MAX`, add two records (`next_id++`
hands out `INT_MAX`, overflows, and hands out `INT_MIN` again), delete identifier
`INT_MIN`.  The store left has `data[0].id = INT_MIN` among its live records but no Filled
slot with that key. -/
theorem store_consistent_counterexample :
    (LoadReachable DistinctIds (fun _ => True) storeStale ∧ storeStale.size = 1 ∧
      (recAt storeStale 0).id = 1 ∧
      (¬ ∃ i, i < storeStale.index.cap ∧
        (slotAt storeStale.index i).state = SlotState.SLOT_FILLED ∧
        (slotAt storeStale.index i).key = 1) ∧
      ¬ IndexConsistent storeStale) ∧
    (GoodSnapshot edgeSnapshot ∧
      LoadReachable GoodSnapshot (fun _ => True) storeEdge ∧ storeEdge.size = 2 ∧
      (recAt storeEdge 0).id = -2147483648 ∧
      (¬ ∃ i, i < storeEdge.index.cap ∧
        (slotAt storeEdge.index i).state = SlotState.SLOT_FILLED ∧
        (slotAt storeEdge.index i).key = -2147483648) ∧
      ¬ IndexConsistent storeEdge) := by
  have hno : ¬ ∃ i, i < storeStale.index.cap ∧
      (slotAt storeStale.index i).state = SlotState.SLOT_FILLED ∧
      (slotAt storeStale.index i).key = 1 := by decide
  have hno2 : ¬ ∃ i, i < storeEdge.index.cap ∧
      (slotAt storeEdge.index i).state = SlotState.SLOT_FILLED ∧
      (slotAt storeEdge.index i).key = -2147483648 := by decide
  refine ⟨⟨?_, by decide, by decide, hno, ?_⟩, by decide, ?_, by decide, by decide, hno2, ?_⟩
  · have h1 : LoadReachable DistinctIds (fun _ => True) storeLoaded :=
      LoadReachable.load (some staleSnapshot) true LoadReachable.init
        (fun f hf => by rw [← Option.some.inj hf]; decide) (by decide)
    have h2 : LoadReachable DistinctIds (fun _ => True) storeLoadedAdd :=
      LoadReachable.add movieB h1 trivial (by decide)
    exact LoadReachable.delete 1 1 h2 (by decide)
  · intro hc
    exact hno ((hc.2 1).2 ⟨0, by decide, by decide⟩)
  · have h1 : LoadReachable GoodSnapshot (fun _ => True) edgeLoaded :=
      LoadReachable.load (some edgeSnapshot) true LoadReachable.init
        (fun f hf => by rw [← Option.some.inj hf]; decide) (by decide)
    have h2 : LoadReachable GoodSnapshot (fun _ => True) edgeAdd :=
      LoadReachable.add movieB h1 trivial (by decide)
    have h3 : LoadReachable GoodSnapshot (fun _ => True) edgeAddAdd :=
      LoadReachable.add movieC h2 trivial (by decide)
    exact LoadReachable.delete (-2147483648) 1 h3 (by decide)
  · intro hc
    exact hno2 ((hc.2 (-2147483648)).2 ⟨0, by decide, by decide⟩)

/-- C2 (amended): in every store reachable from `db_init` by `ui_add` while `next_id` is
below `INT_MAX` (so that `next_id++` does not overflow), `db_delete_by_id`, and bulk load
of snapshots whose record identifiers are pairwise distinct and smaller than the
snapshot's `next_id` and whose record count keeps the byte size of the record buffer below
`2 ^ 64` (`GoodSnapshot`), every Filled slot `(k, p)` of the index has `p < size` and
`data[p].id = k`, and the keys of the Filled slots are exactly the identifiers of
`data[0 .. size - 1]`. -/
theorem store_consistent (db : MovieDB) (hr : LoadReachable GoodSnapshot NoOverflow db) :
    IndexConsistent db :=
  indexConsistent_of_inv (inv_of_loadReachable hr).1

/-- Witness for C2 (amended): the store loaded from a two-record snapshot, after one add
and the delete of identifier `1`. -/
theorem store_consistent_witness :
    LoadReachable GoodSnapshot NoOverflow storeGoodEdited ∧ storeGoodEdited.size = 2 ∧
      IndexConsistent storeGoodEdited := by
  have h1 : LoadReachable GoodSnapshot NoOverflow storeGood :=
    LoadReachable.load (some goodSnapshot) true LoadReachable.init
      (fun f hf => by rw [← Option.some.inj hf]; decide) (by decide)
  have h2 : LoadReachable GoodSnapshot NoOverflow storeGoodAdd :=
    LoadReachable.add movieC h1 (by decide) (by decide)
  have h3 : LoadReachable GoodSnapshot NoOverflow storeGoodEdited :=
    LoadReachable.delete 1 1 h2 (by decide)
  exact ⟨h3, by decide, store_consistent storeGoodEdited h3⟩

/-! ## Further claims about the index -/

/-- C11: in every table reachable from `hm_init` by `hm_put` and `hm_remove` the capacity
is a power of two and at least 16, and every single `hm_put` or `hm_remove` returns and
leaves the capacity unchanged or exactly doubled; it never shrinks. -/
theorem capacity_invariant (hm : HashMap) (hr : Reachable hm) :
    (∃ n, 4 ≤ n ∧ hm.cap = 2 ^ n) ∧ 16 ≤ hm.cap ∧
      (∀ k v, ∃ hm2, hm_put hm k v = some hm2 ∧
        (hm2.cap = hm.cap ∨ hm2.cap = 2 * hm.cap)) ∧
      (∀ k, ∃ r hm2, hm_remove hm k = some (r, hm2) ∧
        (hm2.cap = hm.cap ∨ hm2.cap = 2 * hm.cap)) := by
  have w := wf_of_reachable hr
  refine ⟨w.core.pow, cap_ge w.core, ?_, ?_⟩
  · intro k v
    obtain ⟨hm2, e, _, _, hc, _⟩ := hm_put_spec w k v
    exact ⟨hm2, e, hc⟩
  · intro k
    obtain ⟨r, hm2, e, _, hc, _⟩ := hm_remove_spec w k
    exact ⟨r, hm2, e, hc⟩

/-- Witness for C11: the thirteen-entry table of capacity 16, which the next put
doubles. -/
theorem capacity_invariant_witness :
    Reachable tableThirteen ∧
      ((∃ n, 4 ≤ n ∧ tableThirteen.cap = 2 ^ n) ∧ 16 ≤ tableThirteen.cap ∧
        (∀ k v, ∃ hm2, hm_put tableThirteen k v = some hm2 ∧
          (hm2.cap = tableThirteen.cap ∨ hm2.cap = 2 * tableThirteen.cap)) ∧
        (∀ k, ∃ r hm2, hm_remove tableThirteen k = some (r, hm2) ∧
          (hm2.cap = tableThirteen.cap ∨ hm2.cap = 2 * tableThirteen.cap))) ∧
      (hm_put tableThirteen 14 13).map (fun hm2 => hm2.cap) = some 32 :=
  ⟨Reachable.put 13 12 reachable_tableTwelve (by decide),
    capacity_invariant tableThirteen (Reachable.put 13 12 reachable_tableTwelve (by decide)),
    by decide⟩

/-- C12: on every reachable table `hm_put` returns.  The growth check returns (every
placement loop of a rehash it runs ends within the new capacity), the probe path of the
key then meets an Empty slot or the key's own Filled slot at a step below the capacity,
and the probe loop, given `cap` iterations, ends there. -/
theorem hm_put_returns (hm : HashMap) (hr : Reachable hm) (k : Int) (v : Nat) :
    ∃ hm1, hm_maybe_grow hm = some hm1 ∧
      (∃ e, e < hm1.cap ∧
        ((slotAt hm1 (probeIdx hm1 k e)).state = SlotState.SLOT_EMPTY ∨
          ((slotAt hm1 (probeIdx hm1 k e)).state = SlotState.SLOT_FILLED ∧
            (slotAt hm1 (probeIdx hm1 k e)).key = k))) ∧
      ∃ hm2, hm_put_loop hm1 (hash_u32 (to_u32 k)) (hm1.cap - 1) k v none 0 hm1.cap
          = some hm2 ∧
        hm_put hm k v = some hm2 := by
  have w := wf_of_reachable hr
  obtain ⟨hm1, e1, w1, l1, _⟩ := hm_maybe_grow_spec w
  obtain ⟨e, he, hstop, _⟩ := exists_stop_step w1 (wf_free w1 (by omega)) k
  obtain ⟨j, sz, tb, e2, _⟩ := hm_put_loop_top w1 (wf_free w1 (by omega)) k v
  refine ⟨hm1, e1, ⟨e, he, hstop⟩, _, e2, ?_⟩
  unfold hm_put
  rw [e1]
  exact e2

/-- Witness for C12: a put into the thirteen-entry table, which first rehashes into 32
slots. -/
theorem hm_put_returns_witness :
    Reachable tableThirteen ∧
      ∃ hm1, hm_maybe_grow tableThirteen = some hm1 ∧
        (∃ e, e < hm1.cap ∧
          ((slotAt hm1 (probeIdx hm1 14 e)).state = SlotState.SLOT_EMPTY ∨
            ((slotAt hm1 (probeIdx hm1 14 e)).state = SlotState.SLOT_FILLED ∧
              (slotAt hm1 (probeIdx hm1 14 e)).key = 14))) ∧
        ∃ hm2, hm_put_loop hm1 (hash_u32 (to_u32 14)) (hm1.cap - 1) 14 13 none 0 hm1.cap
            = some hm2 ∧
          hm_put tableThirteen 14 13 = some hm2 :=
  ⟨Reachable.put 13 12 reachable_tableTwelve (by decide),
    hm_put_returns tableThirteen (Reachable.put 13 12 reachable_tableTwelve (by decide)) 14 13⟩

/-- C18: in every reachable table the `size` field is the number of Filled slots, the
`tombs` field is the number of Tomb slots (of the `cap` slots of the array), and no two
Filled slots hold the same key. -/
theorem index_bookkeeping (hm : HashMap) (hr : Reachable hm) :
    hm.slots.length = hm.cap ∧
      hm.size = hm.slots.countP (fun s => decide (s.state = SlotState.SLOT_FILLED)) ∧
      hm.tombs = hm.slots.countP (fun s => decide (s.state = SlotState.SLOT_TOMB)) ∧
      ∀ i j, i < hm.cap → j < hm.cap →
        (slotAt hm i).state = SlotState.SLOT_FILLED →
        (slotAt hm j).state = SlotState.SLOT_FILLED →
        (slotAt hm i).key = (slotAt hm j).key → i = j := by
  have w := (wf_of_reachable hr).core
  exact ⟨w.len, w.size_eq, w.tombs_eq, w.nodup⟩

/-- Witness for C18: the table with one tombstone left by a removal. -/
theorem index_bookkeeping_witness :
    Reachable tableGone ∧ tableGone.tombs = 1 ∧
      (tableGone.slots.length = tableGone.cap ∧
        tableGone.size
          = tableGone.slots.countP (fun s => decide (s.state = SlotState.SLOT_FILLED)) ∧
        tableGone.tombs
          = tableGone.slots.countP (fun s => decide (s.state = SlotState.SLOT_TOMB)) ∧
        ∀ i j, i < tableGone.cap → j < tableGone.cap →
          (slotAt tableGone i).state = SlotState.SLOT_FILLED →
          (slotAt tableGone j).state = SlotState.SLOT_FILLED →
          (slotAt tableGone i).key = (slotAt tableGone j).key → i = j) :=
  ⟨reachable_tableGone, by decide, index_bookkeeping tableGone reachable_tableGone⟩

/-- C19: every reachable table satisfies `4 * (size + tombs) ≤ 3 * cap + 4`, hence
`size + tombs < cap`, and at least one slot is Empty. -/
theorem occupancy_bound (hm : HashMap) (hr : Reachable hm) :
    4 * (hm.size + hm.tombs) ≤ 3 * hm.cap + 4 ∧ hm.size + hm.tombs < hm.cap ∧
      ∃ i, i < hm.cap ∧ (slotAt hm i).state = SlotState.SLOT_EMPTY := by
  have w := wf_of_reachable hr
  exact ⟨w.load, wf_free w.core w.load, exists_empty w.core (wf_free w.core w.load)⟩

/-- Witness for C19: the thirteen-entry table of capacity 16, where the bound is met
with equality. -/
theorem occupancy_bound_witness :
    Reachable tableThirteen ∧ 4 * (tableThirteen.size + tableThirteen.tombs)
        = 3 * tableThirteen.cap + 4 ∧
      (4 * (tableThirteen.size + tableThirteen.tombs) ≤ 3 * tableThirteen.cap + 4 ∧
        tableThirteen.size + tableThirteen.tombs < tableThirteen.cap ∧
        ∃ i, i < tableThirteen.cap ∧ (slotAt tableThirteen i).state = SlotState.SLOT_EMPTY) :=
  ⟨Reachable.put 13 12 reachable_tableTwelve (by decide), by decide,
    occupancy_bound tableThirteen (Reachable.put 13 12 reachable_tableTwelve (by decide))⟩

/-! ## Claims about snapshots -/

/-- The index loop of `ui_load_bin` always runs to its end. -/
theorem load_index_loop_total : ∀ (n i : Nat) (db : MovieDB), WF db.index →
    ∃ db2, load_index_loop db i n = some db2 ∧ WF db2.index ∧ db2.data = db.data ∧
      db2.size = db.size ∧ db2.cap = db.cap ∧ db2.next_id = db.next_id := by
  intro n
  induction n with
  | zero =>
    intro i db w
    exact ⟨db, rfl, w, rfl, rfl, rfl, rfl⟩
  | succ n ih =>
    intro i db w
    obtain ⟨ix, e, wix, _⟩ := hm_put_spec w (db.data.getD i default).id i
    obtain ⟨db2, e2, w2, d2, s2, c2, n2⟩ := ih (i + 1) { db with index := ix } wix
    refine ⟨db2, ?_, w2, d2, s2, c2, n2⟩
    simp only [load_index_loop, e]
    exact e2

/-- C13 (snapshot round trip): for every store `s` whose `size` live records lie inside
its buffer, loading the snapshot written by `ui_save_bin s` into any store `db0` succeeds,
and snapshotting the loaded store gives the same snapshot again: same `next_id`, same
count, same records in the same order.  In particular a store with no record reloads with
count `0` and its `next_id`. -/
theorem snapshot_round_trip (s db0 : MovieDB) (hs : s.size ≤ s.data.length) :
    ∃ db1, ui_load_bin db0 (some (ui_save_bin s)) = some (true, db1) ∧
      ui_save_bin db1 = ui_save_bin s ∧ db1.size = s.size ∧ db1.next_id = s.next_id ∧
      (∀ p, p < s.size → recAt db1 p = recAt s p) ∧
      (s.size = 0 → db1.size = 0 ∧ db1.next_id = s.next_id) := by
  have hmv : ¬ ((ui_save_bin s).hdr.magic ≠ MVDB_MAGIC ∨ (ui_save_bin s).hdr.version ≠ 1) := by
    simp [ui_save_bin]
  simp only [ui_load_bin, if_neg hmv]
  by_cases hc : s.size > 0
  · have hcnt : (ui_save_bin s).hdr.count = s.size := rfl
    have hrecs : (ui_save_bin s).records = s.data.take s.size := by
      simp only [ui_save_bin, if_pos hc]
    have hnid : (ui_save_bin s).hdr.next_id = s.next_id := rfl
    rw [hcnt, hrecs, hnid, if_pos hc]
    obtain ⟨c1, _, hlen2, _, hs2, hn2, hi2⟩ :=
      db_ensure_spec { db_init with next_id := s.next_id } s.size rfl
    generalize db_ensure { db_init with next_id := s.next_id } s.size = db2
      at c1 hlen2 hs2 hn2 hi2
    have hi2' : db2.index = hm_init 16 := hi2
    have hn2' : db2.next_id = s.next_id := hn2
    have htl : (s.data.take s.size).length = s.size := by
      rw [List.length_take]; omega
    have hnread : (fread_records db2.data (s.data.take s.size) s.size).2 = s.size := by
      simp only [fread_records, htl]; omega
    have hbuf : (fread_records db2.data (s.data.take s.size) s.size).1
        = s.data.take s.size ++ db2.data.drop s.size := by
      simp only [fread_records, htl, Nat.min_self]
      rw [List.take_of_length_le (by rw [htl])]
    rw [if_neg (by rw [hnread]; exact fun h => h rfl)]
    obtain ⟨db4, e4, _, d4, s4, _, n4⟩ := load_index_loop_total s.size 0
      { db2 with data := (fread_records db2.data (s.data.take s.size) s.size).1,
                 size := s.size }
      (by show WF db2.index; rw [hi2']; exact wf_hm_init 16)
    rw [e4]
    have hd4 : db4.data = s.data.take s.size ++ db2.data.drop s.size := by
      rw [d4]; exact hbuf
    have hs4 : db4.size = s.size := s4
    have hn4 : db4.next_id = s.next_id := by rw [n4]; exact hn2'
    have htake : db4.data.take s.size = s.data.take s.size := by
      rw [hd4, List.take_append_of_le_length (by rw [htl]), List.take_of_length_le (by rw [htl])]
    refine ⟨db4, rfl, ?_, hs4, hn4, ?_, fun h => ⟨by rw [hs4, h], hn4⟩⟩
    · simp only [ui_save_bin, hs4, hn4, if_pos hc, htake]
    · intro p hp
      unfold recAt
      rw [hd4, List.getD_append _ _ _ _ (by rw [htl]; exact hp)]
      rw [List.getD_eq_getElem _ _ (by rw [htl]; exact hp),
        List.getD_eq_getElem _ _ (by omega)]
      simp
  · have hz : s.size = 0 := by omega
    have hcnt : (ui_save_bin s).hdr.count = s.size := rfl
    have hnid : (ui_save_bin s).hdr.next_id = s.next_id := rfl
    rw [hcnt, hnid, if_neg hc]
    refine ⟨_, rfl, ?_, hz.symm, rfl, fun p hp => absurd hp (by omega), fun _ => ⟨rfl, rfl⟩⟩
    simp [ui_save_bin, hz, db_init]

/-- Witness for C13: the three-record store, reloaded over the two-record store. -/
theorem snapshot_round_trip_witness :
    storeThree.size ≤ storeThree.data.length ∧
      ∃ db1, ui_load_bin storeTwo (some (ui_save_bin storeThree)) = some (true, db1) ∧
        ui_save_bin db1 = ui_save_bin storeThree ∧ db1.size = storeThree.size ∧
        db1.next_id = storeThree.next_id ∧
        (∀ p, p < storeThree.size → recAt db1 p = recAt storeThree p) ∧
        (storeThree.size = 0 → db1.size = 0 ∧ db1.next_id = storeThree.next_id) :=
  ⟨by decide, snapshot_round_trip storeThree storeTwo (by decide)⟩

/-- C14, the code at a truncated snapshot: the three-record store (`next_id = 4`) is asked
to load a file whose header is valid and announces two records while only one follows.
`ui_load_bin` reports failure, yet the store it leaves is not the old one: it has no
record, `next_id` is the header's `9`, and identifier `1` is no longer found. -/
theorem truncated_load_wipes_store :
    storeThree.size = 3 ∧ storeThree.next_id = 4 ∧
      db_find_by_id storeThree 1 = some { movieA with id := 1 } ∧
      ui_load_bin storeThree (some truncatedSnapshot) = some (false, storeAfterTruncated) ∧
      storeAfterTruncated.size = 0 ∧ storeAfterTruncated.next_id = 9 ∧
      db_find_by_id storeAfterTruncated 1 = none ∧ storeAfterTruncated ≠ storeThree := by
  refine ⟨by decide, by decide, by decide, by decide, by decide, by decide, by decide, ?_⟩
  intro h
  have : storeAfterTruncated.size = storeThree.size := by rw [h]
  exact absurd this (by decide)

/-- C15: when the header's magic is not `0x4D564442` or its version is not `1`,
`ui_load_bin` reports failure and the store (records, count, `next_id`, index) is exactly
the store before the call. -/
theorem load_format_mismatch (db : MovieDB) (f : Snapshot)
    (h : f.hdr.magic ≠ 0x4D564442 ∨ f.hdr.version ≠ 1) :
    ui_load_bin db (some f) = some (false, db) := by
  have h2 : f.hdr.magic ≠ MVDB_MAGIC ∨ f.hdr.version ≠ 1 := h
  simp only [ui_load_bin, if_pos h2]

/-- Witness for C15: a snapshot of format version 2 offered to the three-record store. -/
theorem load_format_mismatch_witness :
    (wrongVersionSnapshot.hdr.magic ≠ 0x4D564442 ∨ wrongVersionSnapshot.hdr.version ≠ 1) ∧
      ui_load_bin storeThree (some wrongVersionSnapshot) = some (false, storeThree) :=
  ⟨by decide, load_format_mismatch storeThree wrongVersionSnapshot (by decide)⟩

/-! ## The growth check on tables with accurate counters -/

/-- One placement of `hm_rehash` into a table that still has a slot that is not Filled:
the loop ends, and one more slot is Filled when the old slot was. -/
theorem hm_rehash_place_counted (hm : HashMap) (o : HashSlot)
    (hlen : hm.slots.length = hm.cap) (hpow : ∃ n, hm.cap = 2 ^ n)
    (hfree : countState hm SlotState.SLOT_FILLED < hm.cap) :
    ∃ hm1, hm_rehash_place hm o = some hm1 ∧ hm1.slots.length = hm1.cap ∧
      hm1.cap = hm.cap ∧ hm1.tombs = hm.tombs ∧
      hm1.size = hm.size + (if o.state = SlotState.SLOT_FILLED then 1 else 0) ∧
      countState hm1 SlotState.SLOT_FILLED
        = countState hm SlotState.SLOT_FILLED
          + (if o.state = SlotState.SLOT_FILLED then 1 else 0) := by
  classical
  unfold hm_rehash_place
  by_cases ho : o.state = SlotState.SLOT_FILLED
  · rw [if_pos ho, if_pos ho]
    obtain ⟨n, hn⟩ := hpow
    have hcpos : 0 < hm.cap := by rw [hn]; exact Nat.pos_pow_of_pos n (by norm_num)
    obtain ⟨i, hi, hie⟩ := exists_getD_of_countP_lt
      (fun s : HashSlot => decide (s.state = SlotState.SLOT_FILLED)) hm.slots default
      (by rw [hlen]; exact hfree)
    rw [hlen] at hi
    obtain ⟨s0, hs0, hs0i⟩ := probe_surj (keyHash o.key) hm.cap i hi
    have hex : ∃ e, (slotAt hm (probeIdx hm o.key e)).state ≠ SlotState.SLOT_FILLED :=
      ⟨s0, by unfold probeIdx slotAt; rw [hs0i]; simpa using hie⟩
    have he : Nat.find hex < hm.cap :=
      lt_of_le_of_lt
        (Nat.find_min' hex (by unfold probeIdx slotAt; rw [hs0i]; simpa using hie)) hs0
    have hpre : ∀ s, s < Nat.find hex →
        (slotAt hm (probeIdx hm o.key s)).state = SlotState.SLOT_FILLED := by
      intro s hs
      have := Nat.find_min hex hs
      simpa using this
    have hmask : ∀ s, hm.slots.getD ((keyHash o.key + s) &&& (hm.cap - 1)) default
        = slotAt hm (probeIdx hm o.key s) := by
      intro s
      rw [hn, mask_eq_mod, ← hn]
      rfl
    have hloop := hm_rehash_place_loop_spec hm o (keyHash o.key) (hm.cap - 1)
      (fun s => slotAt hm (probeIdx hm o.key s)) hmask
      hm.cap 0 (Nat.find hex) (Nat.zero_le _) (by omega) (fun s _ hs => hpre s hs)
      (Nat.find_spec hex)
    have hidx : (keyHash o.key + Nat.find hex) &&& (hm.cap - 1)
        = probeIdx hm o.key (Nat.find hex) := by
      rw [hn, mask_eq_mod, ← hn]
      rfl
    rw [hidx] at hloop
    have hj : probeIdx hm o.key (Nat.find hex) < hm.cap := Nat.mod_lt _ hcpos
    refine ⟨_, hloop, ?_, rfl, rfl, rfl, ?_⟩
    · show (hm.slots.set _ _).length = hm.cap
      rw [List.length_set]
      exact hlen
    · have hc := countP_set_getD
        (fun s : HashSlot => decide (s.state = SlotState.SLOT_FILLED)) hm.slots
        (probeIdx hm o.key (Nat.find hex))
        ⟨o.key, o.value, SlotState.SLOT_FILLED⟩ default (by rw [hlen]; exact hj)
      have hstop : ¬ (hm.slots.getD (probeIdx hm o.key (Nat.find hex)) default).state
          = SlotState.SLOT_FILLED := Nat.find_spec hex
      simp only [decide_eq_true_eq, hstop, if_false, if_true, Nat.add_zero] at hc
      exact hc
  · rw [if_neg ho, if_neg ho]
    exact ⟨hm, rfl, hlen, rfl, rfl, rfl, rfl⟩

/-- The loop of `hm_rehash` into a table with room for all Filled old slots: it ends,
keeps capacity and tombstone count of the new table, and adds one to `size` per Filled old
slot. -/
theorem hm_rehash_loop_counted : ∀ (rest : List HashSlot) (hm : HashMap),
    hm.slots.length = hm.cap → (∃ n, hm.cap = 2 ^ n) →
    countState hm SlotState.SLOT_FILLED
      + rest.countP (fun s => decide (s.state = SlotState.SLOT_FILLED)) < hm.cap →
    ∃ hm2, hm_rehash_loop rest hm = some hm2 ∧ hm2.cap = hm.cap ∧ hm2.tombs = hm.tombs ∧
      hm2.size = hm.size + rest.countP (fun s => decide (s.state = SlotState.SLOT_FILLED)) := by
  intro rest
  induction rest with
  | nil =>
    intro hm _ _ _
    exact ⟨hm, rfl, rfl, rfl, by simp⟩
  | cons o rest ih =>
    intro hm hlen hpow hroom
    have hcnt : (o :: rest).countP (fun s => decide (s.state = SlotState.SLOT_FILLED))
        = rest.countP (fun s => decide (s.state = SlotState.SLOT_FILLED))
          + (if o.state = SlotState.SLOT_FILLED then 1 else 0) := by
      simp [List.countP_cons]
    rw [hcnt] at hroom
    obtain ⟨hm1, e1, l1, c1, t1, s1, k1⟩ := hm_rehash_place_counted hm o hlen hpow (by omega)
    obtain ⟨hm2, e2, c2, t2, s2⟩ := ih hm1 l1 (by rw [c1]; exact hpow) (by rw [k1, c1]; omega)
    refine ⟨hm2, ?_, by rw [c2, c1], by rw [t2, t1], by rw [s2, s1, hcnt]; omega⟩
    simp only [hm_rehash_loop, e1]
    exact e2

/-- Function `hm_rehash` of a table with accurate `size` into `2 ^ n ≥ 16` slots, more
than there are entries. -/
theorem hm_rehash_counted (hm : HashMap) (n : Nat) (hn : 4 ≤ n)
    (hsize : hm.size = countState hm SlotState.SLOT_FILLED) (hroom : hm.size < 2 ^ n) :
    ∃ hm2, hm_rehash hm (2 ^ n) = some hm2 ∧ hm2.cap = 2 ^ n ∧ hm2.tombs = 0 ∧
      hm2.size = hm.size := by
  have hcap := hm_init_cap_of_pow n hn
  have hz : countState (hm_init (2 ^ n)) SlotState.SLOT_FILLED = 0 :=
    countState_hm_init _ _ (by decide)
  obtain ⟨hm2, e, c2, t2, s2⟩ := hm_rehash_loop_counted hm.slots (hm_init (2 ^ n))
    (wfcore_hm_init _).len ⟨n, hcap⟩ (by
      rw [hz, hcap, Nat.zero_add]
      have : hm.slots.countP (fun s => decide (s.state = SlotState.SLOT_FILLED)) = hm.size :=
        hsize.symm
      rw [this]
      exact hroom)
  refine ⟨hm2, e, by rw [c2, hcap], t2, ?_⟩
  rw [s2]
  show 0 + hm.slots.countP (fun s => decide (s.state = SlotState.SLOT_FILLED)) = hm.size
  rw [Nat.zero_add]
  exact hsize.symm

/-- The three branches of `hm_maybe_grow` on a table with accurate `size`. -/
theorem hm_maybe_grow_counted (hm : HashMap) (hlen : hm.slots.length = hm.cap)
    (hpow : ∃ n, 4 ≤ n ∧ hm.cap = 2 ^ n)
    (hsize : hm.size = hm.slots.countP (fun s => decide (s.state = SlotState.SLOT_FILLED))) :
    ∃ hm2, hm_maybe_grow hm = some hm2 ∧ hm2.size = hm.size ∧
      (4 * (hm.size + hm.tombs) > 3 * hm.cap → hm2.cap = 2 * hm.cap ∧ hm2.tombs = 0) ∧
      (¬ 4 * (hm.size + hm.tombs) > 3 * hm.cap → hm.tombs > hm.size ∧ hm.tombs > 32 →
        hm2.cap = hm.cap ∧ hm2.tombs = 0) ∧
      (¬ 4 * (hm.size + hm.tombs) > 3 * hm.cap → ¬ (hm.tombs > hm.size ∧ hm.tombs > 32) →
        hm2 = hm) := by
  obtain ⟨n, hn, hc⟩ := hpow
  have hle : hm.size ≤ hm.cap := by
    rw [hsize, ← hlen]
    exact List.countP_le_length _
  have hcpos : 16 ≤ hm.cap := by
    rw [hc]
    calc 16 = 2 ^ 4 := by norm_num
      _ ≤ 2 ^ n := Nat.pow_le_pow_right (by norm_num) hn
  unfold hm_maybe_grow
  by_cases h1 : 4 * (hm.size + hm.tombs) > 3 * hm.cap
  · rw [if_pos h1]
    have e2 : hm.cap * 2 = 2 ^ (n + 1) := by rw [hc, pow_succ]
    rw [e2]
    obtain ⟨hm2, e, c2, t2, s2⟩ := hm_rehash_counted hm (n + 1) (by omega) hsize
      (by rw [← e2]; omega)
    exact ⟨hm2, e, s2, fun _ => ⟨by rw [c2, ← e2]; omega, t2⟩, fun h => absurd h1 h,
      fun h => absurd h1 h⟩
  · rw [if_neg h1]
    by_cases h2 : hm.tombs > hm.size ∧ hm.tombs > 32
    · rw [if_pos h2]
      have e2 : hm.cap = 2 ^ n := hc
      obtain ⟨hm2, e, c2, t2, s2⟩ := hm_rehash_counted hm n hn hsize (by rw [← e2]; omega)
      rw [← e2] at e c2
      exact ⟨hm2, e, s2, fun h => absurd h h1, fun _ _ => ⟨c2, t2⟩, fun _ h => absurd h2 h⟩
    · rw [if_neg h2]
      exact ⟨hm, rfl, rfl, fun h => absurd h h1, fun _ h => absurd h h2, fun _ _ => rfl⟩

/-- C16 (trigger precedence): on every table whose capacity is a power of two `≥ 16` and
whose counters are accurate, `hm_maybe_grow` returns with `size` unchanged and: if
`(size + tombs) / cap > 0.75` the capacity is doubled and `tombs = 0`, however many
tombstones there are; otherwise, if `tombs > size` and `tombs > 32`, the capacity is kept
and `tombs = 0`; otherwise the table is unchanged. -/
theorem maybe_grow_precedence (hm : HashMap) (hlen : hm.slots.length = hm.cap)
    (hpow : ∃ n, 4 ≤ n ∧ hm.cap = 2 ^ n)
    (hsize : hm.size = hm.slots.countP (fun s => decide (s.state = SlotState.SLOT_FILLED)))
    (_htombs : hm.tombs = hm.slots.countP (fun s => decide (s.state = SlotState.SLOT_TOMB))) :
    ∃ hm2, hm_maybe_grow hm = some hm2 ∧ hm2.size = hm.size ∧
      (4 * (hm.size + hm.tombs) > 3 * hm.cap → hm2.cap = 2 * hm.cap ∧ hm2.tombs = 0) ∧
      (¬ 4 * (hm.size + hm.tombs) > 3 * hm.cap → hm.tombs > hm.size ∧ hm.tombs > 32 →
        hm2.cap = hm.cap ∧ hm2.tombs = 0) ∧
      (¬ 4 * (hm.size + hm.tombs) > 3 * hm.cap → ¬ (hm.tombs > hm.size ∧ hm.tombs > 32) →
        hm2 = hm) :=
  hm_maybe_grow_counted hm hlen hpow hsize

/-- Witness for C16: the thirteen-entry table of capacity 16 is over the threshold and is
doubled. -/
theorem maybe_grow_precedence_witness :
    tableThirteen.slots.length = tableThirteen.cap ∧
      (∃ n, 4 ≤ n ∧ tableThirteen.cap = 2 ^ n) ∧
      4 * (tableThirteen.size + tableThirteen.tombs) > 3 * tableThirteen.cap ∧
      ∃ hm2, hm_maybe_grow tableThirteen = some hm2 ∧ hm2.size = tableThirteen.size ∧
        (4 * (tableThirteen.size + tableThirteen.tombs) > 3 * tableThirteen.cap →
          hm2.cap = 2 * tableThirteen.cap ∧ hm2.tombs = 0) ∧
        (¬ 4 * (tableThirteen.size + tableThirteen.tombs) > 3 * tableThirteen.cap →
          tableThirteen.tombs > tableThirteen.size ∧ tableThirteen.tombs > 32 →
          hm2.cap = tableThirteen.cap ∧ hm2.tombs = 0) ∧
        (¬ 4 * (tableThirteen.size + tableThirteen.tombs) > 3 * tableThirteen.cap →
          ¬ (tableThirteen.tombs > tableThirteen.size ∧ tableThirteen.tombs > 32) →
          hm2 = tableThirteen) :=
  ⟨by decide, ⟨4, by decide, by decide⟩, by decide,
    maybe_grow_precedence tableThirteen (by decide) ⟨4, by decide, by decide⟩ (by decide)
      (by decide)⟩

/-! ## Tombstone recycling -/

/-- After the growth check a table either is the table before it or has no tombstone. -/
theorem hm_maybe_grow_tombs {hm hm1 : HashMap} (w : WF hm) (e : hm_maybe_grow hm = some hm1) :
    hm1 = hm ∨ hm1.tombs = 0 := by
  obtain ⟨hm2, e2, _, h1, h2, h3⟩ :=
    hm_maybe_grow_counted hm w.core.len w.core.pow w.core.size_eq
  rw [e] at e2
  have he := Option.some.inj e2
  rw [he]
  by_cases c1 : 4 * (hm.size + hm.tombs) > 3 * hm.cap
  · exact Or.inr (h1 c1).2
  · by_cases c2 : hm.tombs > hm.size ∧ hm.tombs > 32
    · exact Or.inr (h2 c1 c2).2
    · exact Or.inl (h3 c1 c2)

/-- C17 (tombstone recycling): let `k` be a key that is not in a reachable table, let
`hm1` be the table after the growth check of `hm_put` and `e` the first step at which the
probe path of `k` meets an Empty slot.  If the path meets a Tomb slot before, first at
step `t`, then `hm_put` writes `(k, v, Filled)` into that slot and nothing else, `size`
grows by one, `tombs` drops by one, and the Empty slot of step `e` stays Empty (here the
growth check had left the table alone).  If the path meets no Tomb slot before `e`, the
entry is written into the Empty slot of step `e` and `tombs` stays what it is after the
growth check (which leaves the table alone or rehashes it, and then `tombs = 0`). -/
theorem tombstone_recycling (hm : HashMap) (hr : Reachable hm) (k : Int) (v : Nat)
    (habs : hm_get hm k = none) :
    ∃ hm1 e, hm_maybe_grow hm = some hm1 ∧ (hm1 = hm ∨ hm1.tombs = 0) ∧ e < hm1.cap ∧
      (slotAt hm1 (probeIdx hm1 k e)).state = SlotState.SLOT_EMPTY ∧
      (∀ s, s < e → (slotAt hm1 (probeIdx hm1 k s)).state ≠ SlotState.SLOT_EMPTY) ∧
      (∀ t, t < e → (slotAt hm1 (probeIdx hm1 k t)).state = SlotState.SLOT_TOMB →
        (∀ s, s < t → (slotAt hm1 (probeIdx hm1 k s)).state ≠ SlotState.SLOT_TOMB) →
        ∃ hm2, hm_put hm k v = some hm2 ∧ hm1 = hm ∧
          hm2.slots = hm1.slots.set (probeIdx hm1 k t) ⟨k, v, SlotState.SLOT_FILLED⟩ ∧
          slotAt hm2 (probeIdx hm1 k t) = ⟨k, v, SlotState.SLOT_FILLED⟩ ∧
          hm2.cap = hm1.cap ∧ hm2.size = hm.size + 1 ∧ hm2.tombs + 1 = hm.tombs ∧
          (slotAt hm2 (probeIdx hm1 k e)).state = SlotState.SLOT_EMPTY) ∧
      ((∀ s, s < e → (slotAt hm1 (probeIdx hm1 k s)).state ≠ SlotState.SLOT_TOMB) →
        ∃ hm2, hm_put hm k v = some hm2 ∧
          hm2.slots = hm1.slots.set (probeIdx hm1 k e) ⟨k, v, SlotState.SLOT_FILLED⟩ ∧
          slotAt hm2 (probeIdx hm1 k e) = ⟨k, v, SlotState.SLOT_FILLED⟩ ∧
          hm2.cap = hm1.cap ∧ hm2.size = hm.size + 1 ∧ hm2.tombs = hm1.tombs) := by
  have w := wf_of_reachable hr
  obtain ⟨hm1, e1, w1, l1, s1, _, en1⟩ := hm_maybe_grow_spec w
  have hfree := wf_free w1 (show 4 * (hm1.size + hm1.tombs) ≤ 3 * hm1.cap + 4 by omega)
  obtain ⟨e, he, hstop, hpre⟩ := exists_stop_step w1 hfree k
  have hnone := (hm_get_eq_none_iff w.core k).1 habs
  have hemp : (slotAt hm1 (probeIdx hm1 k e)).state = SlotState.SLOT_EMPTY := by
    rcases hstop with h | ⟨h1, h2⟩
    · exact h
    · exact absurd ((en1 _ _).1 ⟨_, probeIdx_lt w1 k e, h1, h2, rfl⟩) (hnone _)
  have hidx : ∀ s, (keyHash k + s) &&& (hm1.cap - 1) = probeIdx hm1 k s :=
    fun s => mask_mod w1 _
  obtain ⟨j, sz, tb, hloop, hc⟩ :=
    hm_put_loop_spec hm1 (keyHash k) (hm1.cap - 1) k v
      (fun s => slotAt hm1 (probeIdx hm1 k s)) (probe_slot_eq w1 k)
      hm1.cap 0 none e (Nat.zero_le _) (by omega) (fun s _ hs => hpre s hs) hstop
  have hput : hm_put hm k v = some (setSlot hm1 j ⟨k, v, SlotState.SLOT_FILLED⟩ sz tb) := by
    unfold hm_put
    rw [e1]
    exact hloop
  refine ⟨hm1, e, e1, hm_maybe_grow_tombs w e1, he, hemp, fun s hs => (hpre s hs).1, ?_, ?_⟩
  · intro t hte htomb hfirst
    rcases hc with ⟨c1, _⟩ | ⟨_, _, c3, _⟩ | ⟨_, _, ⟨t2, _, t2e, t2tomb, t2first, t2j⟩, c5, c6⟩ |
        ⟨_, c, _⟩
    · rw [hemp] at c1
      exact SlotState.noConfusion c1
    · exact absurd htomb (c3 t (Nat.zero_le _) hte)
    · have htt : t2 = t := by
        rcases Nat.lt_trichotomy t2 t with h | h | h
        · exact absurd t2tomb (hfirst t2 h)
        · exact h
        · exact absurd htomb (t2first t (Nat.zero_le _) h)
      rw [htt, hidx] at t2j
      have hj : probeIdx hm1 k t < hm1.cap := probeIdx_lt w1 k t
      have htpos := countState_pos w1 hj SlotState.SLOT_TOMB htomb
      have hte1 := w1.tombs_eq
      have hsame : hm1 = hm := by
        rcases hm_maybe_grow_tombs w e1 with h | h
        · exact h
        · omega
      have hne : probeIdx hm1 k e ≠ probeIdx hm1 k t := by
        intro h
        have := probe_inj (keyHash k) hm1.cap e t he (by omega) h
        omega
      refine ⟨_, hput, hsame, ?_, ?_, rfl, ?_, ?_, ?_⟩
      · rw [t2j]; rfl
      · rw [t2j, slotAt_setSlot w1 hj, if_pos rfl]
      · show sz = hm.size + 1
        omega
      · show tb + 1 = hm.tombs
        rw [← hsame]
        omega
      · rw [t2j, slotAt_setSlot w1 hj, if_neg hne]
        exact hemp
    · exact Option.noConfusion c
  · intro hnotomb
    rcases hc with ⟨c1, _⟩ | ⟨_, _, _, c4, c5, c6⟩ | ⟨_, _, ⟨t2, _, t2e, t2tomb, _⟩, _⟩ |
        ⟨_, c, _⟩
    · rw [hemp] at c1
      exact SlotState.noConfusion c1
    · rw [hidx] at c4
      have hj : probeIdx hm1 k e < hm1.cap := probeIdx_lt w1 k e
      refine ⟨_, hput, ?_, ?_, rfl, ?_, ?_⟩
      · rw [c4]; rfl
      · rw [c4, slotAt_setSlot w1 hj, if_pos rfl]
      · show sz = hm.size + 1
        omega
      · show tb = hm1.tombs
        exact c6
    · exact absurd t2tomb (hnotomb t2 t2e)
    · exact Option.noConfusion c

/-- Witness for C17: key `1` was removed and left a tombstone; putting it again recycles
that slot. -/
theorem tombstone_recycling_witness :
    Reachable tableGone ∧ hm_get tableGone 1 = none ∧
      ∃ hm1 e, hm_maybe_grow tableGone = some hm1 ∧ (hm1 = tableGone ∨ hm1.tombs = 0) ∧
        e < hm1.cap ∧
        (slotAt hm1 (probeIdx hm1 1 e)).state = SlotState.SLOT_EMPTY ∧
        (∀ s, s < e → (slotAt hm1 (probeIdx hm1 1 s)).state ≠ SlotState.SLOT_EMPTY) ∧
        (∀ t, t < e → (slotAt hm1 (probeIdx hm1 1 t)).state = SlotState.SLOT_TOMB →
          (∀ s, s < t → (slotAt hm1 (probeIdx hm1 1 s)).state ≠ SlotState.SLOT_TOMB) →
          ∃ hm2, hm_put tableGone 1 7 = some hm2 ∧ hm1 = tableGone ∧
            hm2.slots = hm1.slots.set (probeIdx hm1 1 t) ⟨1, 7, SlotState.SLOT_FILLED⟩ ∧
            slotAt hm2 (probeIdx hm1 1 t) = ⟨1, 7, SlotState.SLOT_FILLED⟩ ∧
            hm2.cap = hm1.cap ∧ hm2.size = tableGone.size + 1 ∧
            hm2.tombs + 1 = tableGone.tombs ∧
            (slotAt hm2 (probeIdx hm1 1 e)).state = SlotState.SLOT_EMPTY) ∧
        ((∀ s, s < e → (slotAt hm1 (probeIdx hm1 1 s)).state ≠ SlotState.SLOT_TOMB) →
          ∃ hm2, hm_put tableGone 1 7 = some hm2 ∧
            hm2.slots = hm1.slots.set (probeIdx hm1 1 e) ⟨1, 7, SlotState.SLOT_FILLED⟩ ∧
            slotAt hm2 (probeIdx hm1 1 e) = ⟨1, 7, SlotState.SLOT_FILLED⟩ ∧
            hm2.cap = hm1.cap ∧ hm2.size = tableGone.size + 1 ∧ hm2.tombs = hm1.tombs) :=
  ⟨reachable_tableGone, by decide, tombstone_recycling tableGone reachable_tableGone 1 7
    (by decide)⟩

end MovieStore

/-! ## Claims about `app02` -/

namespace App02

theorem factorial_of_pos (n : Int) (h : n > 0) :
    factorial n = (n.toNat * factorial (n - 1)) % 2 ^ 64 := by
  rw [factorial, if_pos h]

theorem factorial_of_nonpos (n : Int) (h : n ≤ 0) : factorial n = 1 := by
  rw [factorial, if_neg (by omega)]

/-- The function computes the factorial modulo `2 ^ 64`. -/
theorem factorial_eq_mod : ∀ k : Nat, factorial (k : Int) = k.factorial % 2 ^ 64 := by
  intro k
  induction k with
  | zero => rw [factorial_of_nonpos _ (by simp)]; rfl
  | succ k ih =>
    rw [factorial_of_pos _ (by push_cast; omega)]
    have e1 : ((k + 1 : Nat) : Int) - 1 = (k : Int) := by push_cast; ring
    have e2 : ((k + 1 : Nat) : Int).toNat = k + 1 := Int.toNat_natCast (k + 1)
    rw [e1, e2, ih, Nat.factorial_succ, Nat.mul_mod_mod]

theorem factorial_twenty_lt : Nat.factorial 20 < 2 ^ 64 := by decide

theorem factorial_twentyone_ge : 2 ^ 64 ≤ Nat.factorial 21 := by decide

/-- C20: with its `unsigned long long` result, `factorial n` equals the mathematical `n!`
for an integer `n ≥ 0` if and only if `n ≤ 20`; for `n ≤ 0` it returns `1`.  (The result
always is the factorial modulo `2 ^ 64`.) -/
theorem factorial_exact_iff (n : Int) :
    (0 ≤ n → (factorial n = Nat.factorial n.toNat ↔ n ≤ 20)) ∧
      (n ≤ 0 → factorial n = 1) ∧
      (0 ≤ n → factorial n = Nat.factorial n.toNat % 2 ^ 64) := by
  refine ⟨fun hn => ?_, factorial_of_nonpos n, fun hn => ?_⟩
  · obtain ⟨k, rfl⟩ := Int.eq_ofNat_of_zero_le hn
    rw [factorial_eq_mod, Int.toNat_natCast]
    constructor
    · intro h
      by_contra hk
      have hk2 : 21 ≤ k := by
        have : ¬ ((k : Int) ≤ 20) := hk
        omega
      have h1 : Nat.factorial 21 ≤ Nat.factorial k := Nat.factorial_le hk2
      have h2 : k.factorial % 2 ^ 64 < 2 ^ 64 := Nat.mod_lt _ (by norm_num)
      have h3 := factorial_twentyone_ge
      omega
    · intro hk
      have hk2 : k ≤ 20 := by omega
      have h1 : Nat.factorial k ≤ Nat.factorial 20 := Nat.factorial_le hk2
      exact Nat.mod_eq_of_lt (lt_of_le_of_lt h1 factorial_twenty_lt)
  · obtain ⟨k, rfl⟩ := Int.eq_ofNat_of_zero_le hn
    rw [factorial_eq_mod, Int.toNat_natCast]

/-- Witness for C20: `20!` is computed exactly, `21!` is not, and `factorial (-3) = 1`. -/
theorem factorial_exact_iff_witness :
    factorial 20 = Nat.factorial 20 ∧ factorial 21 ≠ Nat.factorial 21 ∧ factorial (-3) = 1 :=
  ⟨((factorial_exact_iff 20).1 (by decide)).2 (by decide),
    fun h => absurd (((factorial_exact_iff 21).1 (by decide)).1 h) (by decide),
    (factorial_exact_iff (-3)).2.1 (by decide)⟩

end App02

/-! ## Claims about `app05` -/

namespace App05

theorem recurSpec_of_pos (n : Int) (h : n > 0) :
    recurSpec n = recurSpec (n - 1) ++ [n] ++ recurSpec (n - 2) := by
  rw [recurSpec, if_pos h]

theorem recurSpec_of_nonpos (n : Int) (h : ¬ n > 0) : recurSpec n = [] := by
  rw [recurSpec, if_neg h]

theorem work_of_pos (n : Int) (h : n > 0) : work n = work (n - 1) + work (n - 2) + 2 := by
  rw [work, if_pos h]

theorem work_of_nonpos (n : Int) (h : ¬ n > 0) : work n = 0 := by
  rw [work, if_neg h]

theorem chain_weaken (b : Int) : ∀ (s : List Int) (a a2 : Int), a2 ≤ a → Chain b a s →
    Chain b a2 s := by
  intro s
  cases s with
  | nil =>
    intro a a2 h hc
    have : a ≤ b := hc
    show a2 ≤ b
    omega
  | cons x rest =>
    intro a a2 h hc
    have hc2 : a < x ∧ Chain b x rest := hc
    exact ⟨by omega, hc2.2⟩

theorem chain_length (b : Int) : ∀ (s : List Int) (a : Int), Chain b a s →
    a + (s.length : Int) ≤ b := by
  intro s
  induction s with
  | nil =>
    intro a hc
    have : a ≤ b := hc
    simpa using this
  | cons x rest ih =>
    intro a hc
    have hc2 : a < x ∧ Chain b x rest := hc
    have := ih x hc2.2
    simp only [List.length_cons]
    push_cast
    omega

theorem passes_of_done : ∀ (k : Nat) (m : Machine), m.done = true → passes k m = some m := by
  intro k
  induction k with
  | zero => intro m _; rfl
  | succ k ih =>
    intro m hd
    have hp : pass m = some m := by
      unfold pass
      rw [if_pos hd]
    simp only [passes, hp]
    exact ih m hd

theorem passes_add : ∀ (k j : Nat) (m m2 : Machine), passes k m = some m2 →
    passes (k + j) m = passes j m2 := by
  intro k
  induction k with
  | zero =>
    intro j m m2 h
    rw [Nat.zero_add]
    rw [Option.some.inj h]
  | succ k ih =>
    intro j m m2 h
    have e : k + 1 + j = (k + j) + 1 := by omega
    rw [e]
    simp only [passes] at h ⊢
    cases hp : pass m with
    | none => rw [hp] at h; exact Option.noConfusion h
    | some m1 =>
      rw [hp] at h
      exact ih j m1 m2 h

/-- The pass taken when `n > 0`: `n` is pushed and decremented. -/
theorem pass_push (n : Int) (c : Nat) (s out : List Int) (hn : n > 0) (hlen : s.length < c) :
    pass { n := n, stk := { max := c, stk := s }, out := out, done := false }
      = some { n := n - 1, stk := { max := c, stk := n :: s }, out := out, done := false } := by
  simp [pass, Push, hn, hlen]

/-- The pass taken when `n ≤ 0` and the stack is not empty: the top is popped and
printed, `n` becomes the popped value minus two. -/
theorem pass_pop (n : Int) (c : Nat) (x : Int) (r out : List Int) (hn : ¬ n > 0) :
    pass { n := n, stk := { max := c, stk := x :: r }, out := out, done := false }
      = some { n := x - 2, stk := { max := c, stk := r }, out := out ++ [x], done := false } := by
  simp [pass, Pop, IsEmpty, hn]

/-- The pass taken when `n ≤ 0` and the stack is empty: the loop is left. -/
theorem pass_end (n : Int) (c : Nat) (out : List Int) (hn : ¬ n > 0) :
    pass { n := n, stk := { max := c, stk := [] }, out := out, done := false }
      = some { n := n, stk := { max := c, stk := [] }, out := out, done := true } := by
  simp [pass, IsEmpty, hn]

/-- From a state at `Top` whose stack is a chain below the capacity, the loop ends after
exactly `work n + owed stack + 1` passes, having printed `R(n)` and then what was pending
for the stack entries. -/
theorem run_to_end (b : Int) (c : Nat) (hbc : b ≤ c) :
    ∀ (k : Nat) (n : Int) (s out : List Int), Chain b (max n 0) s → work n + owed s = k →
      ∃ m2, passes (k + 1) { n := n, stk := { max := c, stk := s }, out := out, done := false }
          = some m2 ∧ m2.done = true ∧ m2.out = out ++ recurSpec n ++ pending s := by
  intro k
  induction k with
  | zero =>
    intro n s out _ hk
    have hn : ¬ n > 0 := by
      intro h
      rw [work_of_pos n h] at hk
      omega
    have hs : s = [] := by
      cases s with
      | nil => rfl
      | cons x r =>
        simp only [owed] at hk
        omega
    subst hs
    refine ⟨{ n := n, stk := { max := c, stk := [] }, out := out, done := true }, ?_, rfl, ?_⟩
    · simp only [passes, pass_end n c out hn]
    · simp [recurSpec_of_nonpos n hn, pending]
  | succ k ih =>
    intro n s out hc hk
    by_cases hn : n > 0
    · have hmax : max n 0 = n := by omega
      rw [hmax] at hc
      have hlen := chain_length b s n hc
      have hlt : s.length < c := by
        have : (s.length : Int) < (c : Int) := by omega
        exact_mod_cast this
      rw [work_of_pos n hn] at hk
      obtain ⟨m2, e2, d2, o2⟩ := ih (n - 1) (n :: s) out
        (by
          show max (n - 1) 0 < n ∧ Chain b n s
          exact ⟨by omega, hc⟩)
        (by simp only [owed]; omega)
      refine ⟨m2, ?_, d2, ?_⟩
      · have : passes (k + 1 + 1)
            { n := n, stk := { max := c, stk := s }, out := out, done := false }
            = passes (k + 1)
              { n := n - 1, stk := { max := c, stk := n :: s }, out := out, done := false } := by
          simp only [passes, pass_push n c s out hn hlt]
        rw [this]
        exact e2
      · rw [o2, recurSpec_of_pos n hn]
        simp [pending]
    · have hw := work_of_nonpos n hn
      rw [hw] at hk
      cases s with
      | nil =>
        simp only [owed] at hk
        omega
      | cons x r =>
        have hmax : max n 0 = 0 := by omega
        rw [hmax] at hc
        have hc2 : 0 < x ∧ Chain b x r := hc
        obtain ⟨m2, e2, d2, o2⟩ := ih (x - 2) r (out ++ [x])
          (chain_weaken b r x _ (by omega) hc2.2)
          (by simp only [owed] at hk; omega)
        refine ⟨m2, ?_, d2, ?_⟩
        · have : passes (k + 1 + 1)
              { n := n, stk := { max := c, stk := x :: r }, out := out, done := false }
              = passes (k + 1)
                { n := x - 2, stk := { max := c, stk := r }, out := out ++ [x],
                  done := false } := by
            simp only [passes, pass_pop n c x r out hn]
          rw [this]
          exact e2
        · rw [o2, recurSpec_of_nonpos n hn]
          simp [pending]

/-- States in which the stack has capacity `c`, holds at most `b` entries and, while the
loop runs, is a chain above `max n 0`: every pass is defined on them and keeps them. -/
theorem pass_keeps_bound (b : Int) (c : Nat) (hbc : b ≤ c) (m : Machine)
    (hmax : m.stk.max = c) (hlen : (m.stk.stk.length : Int) ≤ b)
    (hch : m.done = false → Chain b (max m.n 0) m.stk.stk) :
    ∃ m2, pass m = some m2 ∧ m2.stk.max = c ∧ (m2.stk.stk.length : Int) ≤ b ∧
      (m2.done = false → Chain b (max m2.n 0) m2.stk.stk) := by
  obtain ⟨n, ⟨c0, s⟩, out, done⟩ := m
  simp only at hmax hlen hch
  subst hmax
  cases done with
  | true =>
    refine ⟨{ n := n, stk := { max := c0, stk := s }, out := out, done := true }, ?_, rfl,
      hlen, hch⟩
    simp [pass]
  | false =>
    have hc := hch rfl
    by_cases hn : n > 0
    · have hmx : max n 0 = n := by omega
      rw [hmx] at hc
      have hl := chain_length b s n hc
      have hlt : s.length < c0 := by
        have : (s.length : Int) < (c0 : Int) := by omega
        exact_mod_cast this
      refine ⟨_, pass_push n c0 s out hn hlt, rfl, ?_, fun _ => ?_⟩
      · simp only [List.length_cons]
        push_cast
        omega
      · show max (n - 1) 0 < n ∧ Chain b n s
        exact ⟨by omega, hc⟩
    · cases s with
      | nil =>
        exact ⟨_, pass_end n c0 out hn, rfl, hlen, fun h => absurd h (by simp)⟩
      | cons x r =>
        have hmx : max n 0 = 0 := by omega
        rw [hmx] at hc
        have hc2 : 0 < x ∧ Chain b x r := hc
        refine ⟨_, pass_pop n c0 x r out hn, rfl, ?_, fun _ => ?_⟩
        · simp only [List.length_cons] at hlen
          push_cast at hlen
          show (r.length : Int) ≤ b
          omega
        · show Chain b (max (x - 2) 0) r
          exact chain_weaken b r x _ (by omega) hc2.2

theorem passes_keep_bound (b : Int) (c : Nat) (hbc : b ≤ c) : ∀ (k : Nat) (m : Machine),
    m.stk.max = c → (m.stk.stk.length : Int) ≤ b →
    (m.done = false → Chain b (max m.n 0) m.stk.stk) →
    ∃ m2, passes k m = some m2 ∧ m2.stk.max = c ∧ (m2.stk.stk.length : Int) ≤ b := by
  intro k
  induction k with
  | zero =>
    intro m h1 h2 _
    exact ⟨m, rfl, h1, h2⟩
  | succ k ih =>
    intro m h1 h2 h3
    obtain ⟨m1, e1, a1, a2, a3⟩ := pass_keeps_bound b c hbc m h1 h2 h3
    obtain ⟨m2, e2, r⟩ := ih m1 a1 a2 a3
    refine ⟨m2, ?_, r⟩
    simp only [passes, e1]
    exact e2

/-- C21: for every `n` with `0 < n ≤ 100` the loop of the stack-based `recur (n)` ends
(with `work n + 1` passes or more at its disposal it has ended), the integers it has
printed are exactly those the recursive definition `R(n) = if n > 0 then R(n - 1),
print n, R(n - 2)` prints, in the same order, and at no moment does the stack hold more
than `n` entries (so no `Push` meets a full stack of capacity 100). -/
theorem recur_faithful (n : Int) (h0 : 0 < n) (h100 : n ≤ 100) :
    (∀ fuel, work n + 1 ≤ fuel → recur fuel n = some (recurSpec n)) ∧
      (∀ k, ∃ m, passes k (recur_start n) = some m ∧ (m.stk.stk.length : Int) ≤ n ∧
        m.stk.stk.length ≤ m.stk.max) := by
  have hmx : max n 0 = n := by omega
  constructor
  · intro fuel hf
    obtain ⟨m2, e2, d2, o2⟩ := run_to_end n 100 (by exact_mod_cast h100) (work n + 0) n [] []
      (by rw [hmx]; show n ≤ n; omega) (by simp [owed])
    have hfe : fuel = (work n + 0 + 1) + (fuel - (work n + 1)) := by omega
    have e3 := passes_add (work n + 0 + 1) (fuel - (work n + 1)) _ m2 e2
    rw [passes_of_done _ m2 d2] at e3
    have e4 : passes fuel (recur_start n) = some m2 := by
      rw [hfe]
      exact e3
    unfold recur
    rw [e4]
    simp only [d2, if_true, o2]
    simp [pending]
  · intro k
    obtain ⟨m2, e2, a1, a2⟩ := passes_keep_bound n 100 (by exact_mod_cast h100) k
      (recur_start n) rfl (by show ((0 : Nat) : Int) ≤ n; omega)
      (fun _ => by
        show Chain n (max n 0) []
        rw [hmx]
        show n ≤ n
        omega)
    refine ⟨m2, e2, a2, ?_⟩
    rw [a1]
    have : (m2.stk.stk.length : Int) ≤ 100 := by omega
    exact_mod_cast this

/-- Witness for C21: `recur (3)` prints `1 2 3 1` and ends with its ninth pass. -/
theorem recur_faithful_witness :
    (0 : Int) < 3 ∧ (3 : Int) ≤ 100 ∧ recur 8 3 = none ∧ recur 9 3 = some [1, 2, 3, 1] ∧
      ((∀ fuel, work 3 + 1 ≤ fuel → recur fuel 3 = some (recurSpec 3)) ∧
        (∀ k, ∃ m, passes k (recur_start 3) = some m ∧ (m.stk.stk.length : Int) ≤ 3 ∧
          m.stk.stk.length ≤ m.stk.max)) :=
  ⟨by decide, by decide, by decide, by decide, recur_faithful 3 (by decide) (by decide)⟩

end App05
